import Mathlib

/-!
Verification of `CustomPromise` (src/promise/my-promise.js).

A shallow embedding of the `CustomPromise` class: the three private fields of
every instance live in a heap indexed by instance id, `queueMicrotask` is an
explicit FIFO queue of pending delivery units, and JavaScript values are a
first-order datatype.  User callbacks are bodies in a function table; the
closures the class itself creates (`resolve`, `reject`, the adoption
continuations of `#update`, the two wrappers of `finally`) are constructors of
the value type.
-/

namespace CustomPromise

/-- JavaScript values that the class can meet. -/
inductive Val where
  | undefined : Val
  | null : Val
  | bool (b : Bool) : Val
  | num (n : Int) : Val
  | str (s : String) : Val
  /-- an `Error` object with its message -/
  | error (msg : String) : Val
  /-- a plain object that is not a `CustomPromise` (for instance a foreign thenable) -/
  | obj (id : Nat) : Val
  /-- a `CustomPromise` instance -/
  | promise (id : Nat) : Val
  /-- the closure `(val) => this.#update("fulfilled", val)` of instance `id` -/
  | resolveFn (id : Nat) : Val
  /-- the closure `(err) => this.#update("rejected", err)` of instance `id` -/
  | rejectFn (id : Nat) : Val
  /-- a user function, its body is entry `id` of the function table -/
  | fn (id : Nat) : Val
  /-- the closure `(val) => { cb(); return val; }` built by `finally` -/
  | finallyFulfilled (cb : Val) : Val
  /-- the closure `(err) => { cb(); throw err; }` built by `finally` -/
  | finallyRejected (cb : Val) : Val
  deriving DecidableEq, Repr, Inhabited

/-- The field `#state`. -/
inductive PState where
  | pending : PState
  | fulfilled : PState
  | rejected : PState
  deriving DecidableEq, Repr, Inhabited

/-- One entry of `#handlers`: `{ onFulfilled, onRejected, resolve, reject }`. -/
structure Reaction where
  onFulfilled : Val
  onRejected : Val
  resolve : Val
  reject : Val
  deriving DecidableEq, Repr, Inhabited

/-- The private fields of one instance. -/
structure Promise where
  state : PState
  value : Val
  handlers : List Reaction
  deriving DecidableEq, Repr, Inhabited

/-- A freshly constructed instance: `"pending"`, `undefined`, `[]`. -/
def Promise.fresh : Promise := ⟨PState.pending, Val.undefined, []⟩

/-- The whole program state.  `queue` holds the closures handed to
`queueMicrotask`; each one is determined by the instance whose `#runHandlers`
created it.  `log` is the output of `console.log`.  `invoked` is a ghost trace
of the reaction callbacks that were called, with their argument. -/
structure World where
  heap : List Promise
  queue : List Nat
  log : List Val
  invoked : List (Val × Val)
  deriving DecidableEq, Repr, Inhabited

/-- The empty program state. -/
def World.empty : World := ⟨[], [], [], []⟩

/-- JavaScript truthiness, as tested by `if (onFulfilled)`. -/
def truthy : Val → Bool
  | Val.undefined => false
  | Val.null => false
  | Val.bool b => b
  | Val.num n => n != 0
  | Val.str s => s != ""
  | _ => true

/-- Whether calling the value is possible (`typeof v === "function"`). -/
def callable : Val → Bool
  | Val.resolveFn _ => true
  | Val.rejectFn _ => true
  | Val.fn _ => true
  | Val.finallyFulfilled _ => true
  | Val.finallyRejected _ => true
  | _ => false

/-- The test `value instanceof CustomPromise`. -/
def isPromise : Val → Bool
  | Val.promise _ => true
  | _ => false

/-- The `TypeError` raised by calling a value that is not a function. -/
def typeError : Val := Val.error "TypeError: not a function"

/-- Field `#state` of instance `p` (`pending` for an id that is not allocated). -/
def stateOf (w : World) (p : Nat) : PState :=
  match w.heap[p]? with
  | some pr => pr.state
  | none => PState.pending

/-- Field `#value` of instance `p`. -/
def valueOf (w : World) (p : Nat) : Val :=
  match w.heap[p]? with
  | some pr => pr.value
  | none => Val.undefined

/-- Field `#handlers` of instance `p`. -/
def handlersOf (w : World) (p : Nat) : List Reaction :=
  match w.heap[p]? with
  | some pr => pr.handlers
  | none => []

/-- Rewrite the fields of instance `p`. -/
def modifyPromise (w : World) (p : Nat) (f : Promise → Promise) : World :=
  { w with heap := w.heap.modify f p }

/-- `#runHandlers()`: nothing while pending, otherwise one `queueMicrotask`. -/
def runHandlers (w : World) (p : Nat) : World :=
  if stateOf w p = PState.pending then w
  else { w with queue := w.queue ++ [p] }

/-- `then(onFulfilled, onRejected)`: a new instance whose executor pushes the
reaction on `this.#handlers` and calls `this.#runHandlers()`.  Returns the id of
the new instance. -/
def then_ (w : World) (p : Nat) (onFulfilled onRejected : Val) : Nat × World :=
  let q := w.heap.length
  let w1 : World := { w with heap := w.heap ++ [Promise.fresh] }
  let w2 := modifyPromise w1 p (fun pr =>
    { pr with handlers := pr.handlers ++
        [⟨onFulfilled, onRejected, Val.resolveFn q, Val.rejectFn q⟩] })
  (q, runHandlers w2 p)

/-- `catch(onRejected)`: `this.then(null, onRejected)`. -/
def catch_ (w : World) (p : Nat) (onRejected : Val) : Nat × World :=
  then_ w p Val.null onRejected

/-- `finally(cb)`: `this.then` with the two wrapper closures. -/
def finally_ (w : World) (p : Nat) (cb : Val) : Nat × World :=
  then_ w p (Val.finallyFulfilled cb) (Val.finallyRejected cb)

/-- `#update(state, value)`. -/
def update (w : World) (p : Nat) (state : PState) (value : Val) : World :=
  if stateOf w p ≠ PState.pending then w
  else match value with
    | Val.promise b => (then_ w b (Val.resolveFn p) (Val.rejectFn p)).2
    | _ => runHandlers (modifyPromise w p (fun pr =>
        { pr with state := state, value := value })) p

/-- Bodies of user functions (executors, callbacks, the main script): the
operations by which user code can reach the class.  `resolve p` and `reject p`
call the two capabilities an executor received for instance `p`. -/
inductive Code where
  | ret (v : Val) : Code
  | throw (v : Val) : Code
  | log (v : Val) (k : Code) : Code
  | resolve (p : Nat) (v : Val) (k : Code) : Code
  | reject (p : Nat) (v : Val) (k : Code) : Code
  | thenCall (p onFulfilled onRejected : Val) (k : Val → Code) : Code
  | catchCall (p onRejected : Val) (k : Val → Code) : Code
  | finallyCall (p cb : Val) (k : Val → Code) : Code
  | construct (executor : Nat → Code) (k : Val → Code) : Code
  deriving Inhabited

/-- The table of user functions: body of function `id` applied to its argument. -/
abbrev FunTable := Nat → Val → Code

/-- Run a body.  The result is `ok v` for `return v` and `error e` for an
uncaught `throw e`.  Calling `then` on a value that is not an instance raises a
`TypeError`.  `construct` is `new CustomPromise(executor)`: the executor runs
at once and an error it raises becomes `reject(err)`. -/
def exec : Code → World → Except Val Val × World
  | Code.ret v, w => (Except.ok v, w)
  | Code.throw v, w => (Except.error v, w)
  | Code.log v k, w => exec k { w with log := w.log ++ [v] }
  | Code.resolve p v k, w => exec k (update w p PState.fulfilled v)
  | Code.reject p v k, w => exec k (update w p PState.rejected v)
  | Code.thenCall p f g k, w =>
    match p with
    | Val.promise i => exec (k (Val.promise (then_ w i f g).1)) (then_ w i f g).2
    | _ => (Except.error typeError, w)
  | Code.catchCall p g k, w =>
    match p with
    | Val.promise i => exec (k (Val.promise (catch_ w i g).1)) (catch_ w i g).2
    | _ => (Except.error typeError, w)
  | Code.finallyCall p cb k, w =>
    match p with
    | Val.promise i => exec (k (Val.promise (finally_ w i cb).1)) (finally_ w i cb).2
    | _ => (Except.error typeError, w)
  | Code.construct ex k, w =>
    let q := w.heap.length
    let r := exec (ex q) { w with heap := w.heap ++ [Promise.fresh] }
    match r.1 with
    | Except.ok _ => exec (k (Val.promise q)) r.2
    | Except.error e => exec (k (Val.promise q)) (update r.2 q PState.rejected e)

/-- Call the value `f` with one argument. -/
def invoke (funs : FunTable) : Val → Val → World → Except Val Val × World
  | Val.resolveFn p, arg, w => (Except.ok Val.undefined, update w p PState.fulfilled arg)
  | Val.rejectFn p, arg, w => (Except.ok Val.undefined, update w p PState.rejected arg)
  | Val.fn i, arg, w => exec (funs i arg) w
  | Val.finallyFulfilled cb, arg, w =>
    match invoke funs cb Val.undefined w with
    | (Except.ok _, w1) => (Except.ok arg, w1)
    | (Except.error e, w1) => (Except.error e, w1)
  | Val.finallyRejected cb, arg, w =>
    match invoke funs cb Val.undefined w with
    | (Except.ok _, w1) => (Except.error arg, w1)
    | (Except.error e, w1) => (Except.error e, w1)
  | _, _, w => (Except.error typeError, w)

/-- Call a reaction callback: `invoke`, and the call is entered in the ghost
trace when the value is a function. -/
def invokeCallback (funs : FunTable) (f arg : Val) (w : World) : Except Val Val × World :=
  invoke funs f arg
    (if callable f then { w with invoked := w.invoked ++ [(f, arg)] } else w)

/-- The `try` block of the body of `forEach` in `#runHandlers`. -/
def tryReaction (funs : FunTable) (w : World) (p : Nat) (r : Reaction) :
    Except Val Val × World :=
  match stateOf w p with
  | PState.fulfilled =>
    if truthy r.onFulfilled then
      match invokeCallback funs r.onFulfilled (valueOf w p) w with
      | (Except.ok x, w1) => invoke funs r.resolve x w1
      | (Except.error e, w1) => (Except.error e, w1)
    else invoke funs r.resolve (valueOf w p) w
  | PState.rejected =>
    if truthy r.onRejected then
      match invokeCallback funs r.onRejected (valueOf w p) w with
      | (Except.ok x, w1) => invoke funs r.resolve x w1
      | (Except.error e, w1) => (Except.error e, w1)
    else invoke funs r.reject (valueOf w p) w
  | PState.pending => (Except.ok Val.undefined, w)

/-- The body of `forEach` in `#runHandlers`: the `try` block, and
`catch (err) { reject(err); }`. -/
def processReaction (funs : FunTable) (p : Nat) (w : World) (r : Reaction) : World :=
  match tryReaction funs w p r with
  | (Except.ok _, w1) => w1
  | (Except.error e, w1) => (invoke funs r.reject e w1).2

/-- The closure that `#runHandlers` of instance `p` hands to `queueMicrotask`:
`forEach` over the elements `#handlers` has when the loop starts (elements
pushed during the loop are not visited), then `this.#handlers = []`. -/
def runMicrotask (funs : FunTable) (w : World) (p : Nat) : World :=
  modifyPromise ((handlersOf w p).foldl (processReaction funs p) w) p
    (fun pr => { pr with handlers := [] })

/-- One turn of the microtask queue: take the oldest unit and run it. -/
def step (funs : FunTable) (w : World) : World :=
  match w.queue with
  | [] => w
  | p :: rest => runMicrotask funs { w with queue := rest } p

/-- Run the microtask queue, at most `fuel` units. -/
def runAll (funs : FunTable) : Nat → World → World
  | 0, w => w
  | n + 1, w =>
    match w.queue with
    | [] => w
    | _ :: _ => runAll funs n (step funs w)

/-- `new CustomPromise(executor)`, the executor receiving the two capabilities
of the new instance. -/
def construct (w : World) (executor : Nat → Code) : Nat × World :=
  let q := w.heap.length
  let r := exec (executor q) { w with heap := w.heap ++ [Promise.fresh] }
  match r.1 with
  | Except.ok _ => (q, r.2)
  | Except.error e => (q, update r.2 q PState.rejected e)

/-- `CustomPromise.resolve(value)`. -/
def staticResolve (w : World) (value : Val) : Nat × World :=
  construct w (fun q => Code.resolve q value (Code.ret Val.undefined))

/-- `CustomPromise.reject(reason)`. -/
def staticReject (w : World) (reason : Val) : Nat × World :=
  construct w (fun q => Code.reject q reason (Code.ret Val.undefined))

/-! ## Scenarios used in the statements -/

/-- The handler of a reaction that `#runHandlers` looks at when the instance
is in state `st`: `onFulfilled` if fulfilled, `onRejected` if rejected. -/
def handlerFor (st : PState) (onFulfilled onRejected : Val) : Val :=
  match st with
  | PState.fulfilled => onFulfilled
  | PState.rejected => onRejected
  | PState.pending => Val.undefined

/-- The calls `p.then(f1, g1); ...; p.then(fn, gn);` made one after the other. -/
def thenAll (w : World) (p : Nat) : List (Val × Val) → World
  | [] => w
  | c :: rest => thenAll (then_ w p c.1 c.2).2 p rest

/-- The reaction records that `thenAll` pushes when the next free instance id
is `base`: the `i`-th call of `then` allocates instance `base + i`. -/
def reactionsFrom (base : Nat) : List (Val × Val) → List Reaction
  | [] => []
  | c :: rest =>
    ⟨c.1, c.2, Val.resolveFn base, Val.rejectFn base⟩ :: reactionsFrom (base + 1) rest

/-- `new CustomPromise((resolve, reject) => cap(v))`, where `cap` is `reject`
for `rejected` and `resolve` otherwise. -/
def settledWith (w : World) (cap : PState) (v : Val) : Nat × World :=
  construct w (fun q =>
    match cap with
    | PState.rejected => Code.reject q v (Code.ret Val.undefined)
    | _ => Code.resolve q v (Code.ret Val.undefined))

/-- A chain of nested instances around `b`: one new instance per element of
the list, each settled (through the listed capability) with the instance made
just before it, the first one with `b`.  Returns the outermost instance. -/
def adoptChain (w : World) (b : Nat) : List PState → Nat × World
  | [] => (b, w)
  | cap :: rest =>
    adoptChain (settledWith w cap (Val.promise b)).2 (settledWith w cap (Val.promise b)).1 rest

/-- The reaction that `#update` of instance `o` registers on the instance it
adopts; `t` is the instance that this call of `then` returns. -/
def adoptReaction (o t : Nat) : Reaction :=
  ⟨Val.resolveFn o, Val.rejectFn o, Val.resolveFn t, Val.rejectFn t⟩

/-- The instances of a chain built from heap size `base` around `b`: node `0`
is `b`, node `i + 1` is instance `base + 2 * i` (the instance `base + 2 * i + 1`
is the one returned by the `then` of its adoption). -/
def chainNode (b base : Nat) : Nat → Nat
  | 0 => b
  | i + 1 => base + 2 * i

/-- The shape of the heap around a chain of `d` adoptions that has not been
delivered yet: every node but the last holds the adoption reaction of the next
node, and all instances allocated for the chain are pending. -/
def Built (w : World) (b base d : Nat) : Prop :=
  b < base ∧ base + 2 * d ≤ w.heap.length ∧
  (∀ i, i < d → handlersOf w (chainNode b base i) =
    [adoptReaction (base + 2 * i) (base + 2 * i + 1)]) ∧
  handlersOf w (chainNode b base d) = [] ∧
  (∀ j, j < 2 * d → stateOf w (base + j) = PState.pending) ∧
  (∀ i, i < d → handlersOf w (base + 2 * i + 1) = [])

/-! ## Reachable states and relations closed under the elementary steps -/

/-- The states the program can reach: the initial state, the state after a
task (the main script, a timer callback: any user code run synchronously), and
the state after one delivery unit. -/
inductive Reachable (funs : FunTable) : World → Prop where
  | init : Reachable funs World.empty
  | task (w : World) (c : Code) : Reachable funs w → Reachable funs (exec c w).2
  | unit (w : World) : Reachable funs w → Reachable funs (step funs w)

/-- A relation between a state and a later state that holds across every
elementary state change the class and user code can make. -/
structure StepClosed (R : World → World → Prop) : Prop where
  hRefl : ∀ w, R w w
  hTrans : ∀ a b c, R a b → R b c → R a c
  hLog : ∀ (w : World) (v : Val), R w { w with log := w.log ++ [v] }
  hAlloc : ∀ w : World, R w { w with heap := w.heap ++ [Promise.fresh] }
  hUpdate : ∀ (w : World) (p : Nat) (st : PState) (v : Val), R w (update w p st v)
  hThen : ∀ (w : World) (p : Nat) (f g : Val), R w (then_ w p f g).2
  hInvoked : ∀ (w : World) (f : Val) (p : Nat),
    R w { w with invoked := w.invoked ++ [(f, valueOf w p)] }
  hQueue : ∀ (w : World) (q : List Nat), R w { w with queue := q }
  hClear : ∀ (w : World) (p : Nat),
    R w (modifyPromise w p (fun pr => { pr with handlers := [] }))

/-- No stored outcome is a `CustomPromise` instance, and no reaction callback
was called with one. -/
def NoPromiseOutcome (w : World) : Prop :=
  (∀ i, isPromise (valueOf w i) = false) ∧ (∀ c ∈ w.invoked, isPromise c.2 = false)

/-- The body `c` of the executor of instance `q` in which every point where
`c` raises an error `e` is replaced by the call `reject(e)` followed by a
normal return.  Errors raised inside a nested executor are not errors of `c`:
the nested constructor catches them. -/
def rejectAtThrow (q : Nat) : Code → Code
  | Code.ret v => Code.ret v
  | Code.throw e => Code.reject q e (Code.ret Val.undefined)
  | Code.log v k => Code.log v (rejectAtThrow q k)
  | Code.resolve p v k => Code.resolve p v (rejectAtThrow q k)
  | Code.reject p v k => Code.reject p v (rejectAtThrow q k)
  | Code.thenCall p f g k =>
    match p with
    | Val.promise _ => Code.thenCall p f g (fun v => rejectAtThrow q (k v))
    | _ => Code.reject q typeError (Code.ret Val.undefined)
  | Code.catchCall p g k =>
    match p with
    | Val.promise _ => Code.catchCall p g (fun v => rejectAtThrow q (k v))
    | _ => Code.reject q typeError (Code.ret Val.undefined)
  | Code.finallyCall p cb k =>
    match p with
    | Val.promise _ => Code.finallyCall p cb (fun v => rejectAtThrow q (k v))
    | _ => Code.reject q typeError (Code.ret Val.undefined)
  | Code.construct ex k => Code.construct ex (fun v => rejectAtThrow q (k v))

/-- What a wrapper of `finally` returns or raises, given the outcome `x` it
was called with and the result of `cb()`: `(val) => { cb(); return val; }` in
state `fulfilled`, `(err) => { cb(); throw err; }` in state `rejected`. -/
def finallyResult (st : PState) (x : Val) : Except Val Val → Except Val Val
  | Except.ok _ => if st = PState.fulfilled then Except.ok x else Except.error x
  | Except.error e => Except.error e

/-- The states that follow `w0`: `w0` itself, and from any of them the state
after a task (user code run synchronously) or after one delivery unit. -/
inductive Later (funs : FunTable) (w0 : World) : World → Prop where
  | here : Later funs w0 w0
  | task (w : World) (c : Code) : Later funs w0 w → Later funs w0 (exec c w).2
  | unit (w : World) : Later funs w0 w → Later funs w0 (step funs w)

/-- The entry that processing reaction `r` adds to the trace of invoked
callbacks when the instance is in state `st` with outcome `x`: the handler for
`st`, called with `x`, if that handler is a function; nothing otherwise. -/
def calledHandler (st : PState) (x : Val) (r : Reaction) : Option (Val × Val) :=
  if callable (handlerFor st r.onFulfilled r.onRejected) then
    some (handlerFor st r.onFulfilled r.onRejected, x)
  else none

/-- The registry of reactions is well formed: the `resolve` of every registered
reaction is the capability of an allocated instance (the instance its `then`
returned), and no two registered reactions, on the same instance or on
different ones, share it. -/
def RegistryOk (w : World) : Prop :=
  (∀ i r, r ∈ handlersOf w i → ∃ q, q < w.heap.length ∧ r.resolve = Val.resolveFn q) ∧
  (∀ i, ((handlersOf w i).map Reaction.resolve).Nodup) ∧
  (∀ i j r r', r ∈ handlersOf w i → r' ∈ handlersOf w j → r.resolve = r'.resolve → i = j)

/-! ## States up to handlers that are never called -/

/-- A handler as `#runHandlers` sees it: a value that fails the test
`if (handler)` is never looked at again, so all such values count as
`undefined`. -/
def canonV (v : Val) : Val := if truthy v then v else Val.undefined

/-- A reaction with its `onFulfilled` read through `canonV`. -/
def canonR (r : Reaction) : Reaction := { r with onFulfilled := canonV r.onFulfilled }

/-- An instance with its reactions read through `canonR`. -/
def canonP (pr : Promise) : Promise := { pr with handlers := pr.handlers.map canonR }

/-- A state with every registered `onFulfilled` read through `canonV`.  Two
states with the same image differ at most in which non-truthy value (`null`,
`undefined`, `0`, ...) stands for an absent `onFulfilled`. -/
def canon (w : World) : World := { w with heap := w.heap.map canonP }

/-- A run of the program: each event is a task (user code run synchronously)
or, for `none`, one delivery unit. -/
def runEvents (funs : FunTable) : List (Option Code) → World → World
  | [], w => w
  | some c :: evs, w => runEvents funs evs (exec c w).2
  | none :: evs, w => runEvents funs evs (step funs w)

/-! ## Example programs -/

/-- Example function table: function `0` raises `Error("boom")`, every other
function returns `7`. -/
def exampleFuns : FunTable :=
  fun i _ => if i = 0 then Code.throw (Val.error "boom") else Code.ret (Val.num 7)

/-- Example state: `p = CustomPromise.resolve(1); p.then(f0); p.then(f1);`
before any microtask has run.  `p` is instance `0`, the two instances returned
by `then` are `1` and `2`. -/
def exampleTwoReactions : World :=
  (then_ (then_ (staticResolve World.empty (Val.num 1)).2 0 (Val.fn 0) Val.undefined).2
    0 (Val.fn 1) Val.undefined).2

/-- Example function table: function `i` is `(v) => { console.log(i); return i; }`. -/
def exampleLogFuns : FunTable :=
  fun i _ => Code.log (Val.num i) (Code.ret (Val.num i))

/-- What function `i` of `exampleLogFuns` returns, and what it prints. -/
def exampleLogResult : Val → Val
  | Val.fn i => Val.num i
  | _ => Val.undefined

/-- Example script: `b = CustomPromise.resolve(1);`
`o = new CustomPromise((res, rej) => rej(b)); o.then(f1, f1);`. -/
def exampleRejectWithPromise : Code :=
  Code.construct (fun b => Code.resolve b (Val.num 1) (Code.ret Val.undefined)) (fun b =>
    Code.construct (fun o => Code.reject o b (Code.ret Val.undefined)) (fun o =>
      Code.thenCall o (Val.fn 1) (Val.fn 1) (fun _ => Code.ret Val.undefined)))

/-- Example function table: function `0` is `() => { p.then(f1); }` for
the instance `p = 0`, every other function `i` prints `i` and returns `i`. -/
def exampleAttachFuns : FunTable :=
  fun i _ =>
    if i = 0 then
      Code.thenCall (Val.promise 0) (Val.fn 1) Val.undefined (fun _ => Code.ret Val.undefined)
    else Code.log (Val.num i) (Code.ret (Val.num i))

/-- Example state: `b = new CustomPromise(() => {})` (instance `0`, pending),
then `o = new CustomPromise((res) => { res(b); res(5); })` (instance `1`), then
`b` is resolved with `"X"`. -/
def exampleTwoCalls : World :=
  update (construct (construct World.empty (fun _ => Code.ret Val.undefined)).2
    (fun o => Code.resolve o (Val.promise 0)
      (Code.resolve o (Val.num 5) (Code.ret Val.undefined)))).2
    0 PState.fulfilled (Val.str "X")

/-- Example state: as `exampleTwoCalls`, with the first call alone:
`o = new CustomPromise((res) => { res(b); })`. -/
def exampleFirstCallOnly : World :=
  update (construct (construct World.empty (fun _ => Code.ret Val.undefined)).2
    (fun o => Code.resolve o (Val.promise 0) (Code.ret Val.undefined))).2
    0 PState.fulfilled (Val.str "X")

/-- Example function table: function `0` is `() => b` for the instance
`b = 0` (it returns the instance its reaction is attached to), every other
function `i` prints `i` and returns `i`. -/
def exampleReturnSelfFuns : FunTable :=
  fun i _ =>
    if i = 0 then Code.ret (Val.promise 0)
    else Code.log (Val.num i) (Code.ret (Val.num i))

/-- Example function table: function `0` is `() => { d = p.then(); }` for
the instance `p = 0`, every other function `i` prints `i` and returns `i`. -/
def exampleBareThenFuns : FunTable :=
  fun i _ =>
    if i = 0 then
      Code.thenCall (Val.promise 0) Val.undefined Val.undefined
        (fun _ => Code.ret Val.undefined)
    else Code.log (Val.num i) (Code.ret (Val.num i))

/-- Example function table: function `0` is `() => { p.then(undefined, f1); }`
for the instance `p = 0`, every other function `i` prints `i` and returns `i`. -/
def exampleAttachRejectedFuns : FunTable :=
  fun i _ =>
    if i = 0 then
      Code.thenCall (Val.promise 0) Val.undefined (Val.fn 1)
        (fun _ => Code.ret Val.undefined)
    else Code.log (Val.num i) (Code.ret (Val.num i))

/-- Example function table: function `0` is `() => { d = p.finally(f1); }` for
the instance `p = 0`, function `1` prints `1` and raises `Error("boom")`, every
other function `i` prints `i` and returns `i`. -/
def exampleFinallyInsideFuns : FunTable :=
  fun i _ =>
    if i = 0 then
      Code.finallyCall (Val.promise 0) (Val.fn 1) (fun _ => Code.ret Val.undefined)
    else if i = 1 then Code.log (Val.num 1) (Code.throw (Val.error "boom"))
    else Code.log (Val.num i) (Code.ret (Val.num i))

/-- Example function table: function `0` is `() => CustomPromise.resolve(9)`,
every other function returns `7`. -/
def exampleInstanceFuns : FunTable :=
  fun i _ =>
    if i = 0 then
      Code.construct (fun q => Code.resolve q (Val.num 9) (Code.ret Val.undefined))
        (fun v => Code.ret v)
    else Code.ret (Val.num 7)

/-! ## Field access after the basic operations -/

theorem getElem?_push_fresh (h : List Promise) (i : Nat) :
    (h ++ [Promise.fresh])[i]? = if i = h.length then some Promise.fresh else h[i]? := by
  rcases Nat.lt_trichotomy i h.length with hlt | heq | hgt
  · rw [List.getElem?_append_left hlt, if_neg (Nat.ne_of_lt hlt)]
  · subst heq; simp
  · rw [if_neg (Nat.ne_of_gt hgt), List.getElem?_eq_none (by simp; omega),
      List.getElem?_eq_none (by omega)]

theorem stateOf_modifyPromise (w : World) (p i : Nat) (f : Promise → Promise) :
    stateOf (modifyPromise w p f) i =
      if p = i then (match w.heap[i]? with | some pr => (f pr).state | none => PState.pending)
      else stateOf w i := by
  unfold stateOf modifyPromise
  simp only [List.getElem?_modify]
  by_cases h : p = i
  · subst h; cases w.heap[p]? <;> simp
  · simp [h]

@[simp] theorem stateOf_runHandlers (w : World) (p i : Nat) :
    stateOf (runHandlers w p) i = stateOf w i := by
  unfold runHandlers; split <;> rfl

@[simp] theorem valueOf_runHandlers (w : World) (p i : Nat) :
    valueOf (runHandlers w p) i = valueOf w i := by
  unfold runHandlers; split <;> rfl

@[simp] theorem handlersOf_runHandlers (w : World) (p i : Nat) :
    handlersOf (runHandlers w p) i = handlersOf w i := by
  unfold runHandlers; split <;> rfl

@[simp] theorem heap_runHandlers (w : World) (p : Nat) :
    (runHandlers w p).heap = w.heap := by
  unfold runHandlers; split <;> rfl

@[simp] theorem log_runHandlers (w : World) (p : Nat) :
    (runHandlers w p).log = w.log := by
  unfold runHandlers; split <;> rfl

@[simp] theorem invoked_runHandlers (w : World) (p : Nat) :
    (runHandlers w p).invoked = w.invoked := by
  unfold runHandlers; split <;> rfl

theorem queue_runHandlers (w : World) (p : Nat) :
    (runHandlers w p).queue =
      if stateOf w p = PState.pending then w.queue else w.queue ++ [p] := by
  unfold runHandlers; split <;> rfl

@[simp] theorem fst_then_ (w : World) (p : Nat) (f g : Val) :
    (then_ w p f g).1 = w.heap.length := rfl

@[simp] theorem stateOf_then_ (w : World) (p i : Nat) (f g : Val) :
    stateOf (then_ w p f g).2 i = stateOf w i := by
  simp only [then_, stateOf_runHandlers, stateOf_modifyPromise]
  simp only [stateOf, getElem?_push_fresh]
  by_cases hp : p = i
  · subst hp
    by_cases hl : p = w.heap.length
    · simp [hl, Promise.fresh]
    · simp [hl]
  · by_cases hl : i = w.heap.length
    · simp [hp, hl, Promise.fresh]
    · simp [hp, hl]

theorem valueOf_modifyPromise (w : World) (p i : Nat) (f : Promise → Promise) :
    valueOf (modifyPromise w p f) i =
      if p = i then (match w.heap[i]? with | some pr => (f pr).value | none => Val.undefined)
      else valueOf w i := by
  unfold valueOf modifyPromise
  simp only [List.getElem?_modify]
  by_cases h : p = i
  · subst h; cases w.heap[p]? <;> simp
  · simp [h]

theorem handlersOf_modifyPromise (w : World) (p i : Nat) (f : Promise → Promise) :
    handlersOf (modifyPromise w p f) i =
      if p = i then (match w.heap[i]? with | some pr => (f pr).handlers | none => [])
      else handlersOf w i := by
  unfold handlersOf modifyPromise
  simp only [List.getElem?_modify]
  by_cases h : p = i
  · subst h; cases w.heap[p]? <;> simp
  · simp [h]

@[simp] theorem valueOf_then_ (w : World) (p i : Nat) (f g : Val) :
    valueOf (then_ w p f g).2 i = valueOf w i := by
  simp only [then_, valueOf_runHandlers, valueOf_modifyPromise]
  simp only [valueOf, getElem?_push_fresh]
  by_cases hp : p = i
  · subst hp
    by_cases hl : p = w.heap.length
    · simp [hl, Promise.fresh]
    · simp [hl]
  · by_cases hl : i = w.heap.length
    · simp [hp, hl, Promise.fresh]
    · simp [hp, hl]

theorem handlersOf_then_ (w : World) (p i : Nat) (f g : Val) (hp : p < w.heap.length) :
    handlersOf (then_ w p f g).2 i =
      if i = p then handlersOf w p ++
        [⟨f, g, Val.resolveFn w.heap.length, Val.rejectFn w.heap.length⟩]
      else handlersOf w i := by
  simp only [then_, handlersOf_runHandlers, handlersOf_modifyPromise]
  simp only [handlersOf, getElem?_push_fresh]
  by_cases hpi : p = i
  · subst hpi
    have hl : p ≠ w.heap.length := Nat.ne_of_lt hp
    simp [hl, List.getElem?_eq_getElem hp]
  · have hip : i ≠ p := fun h => hpi h.symm
    by_cases hl : i = w.heap.length
    · have h1 : p ≠ w.heap.length := Nat.ne_of_lt hp
      have h2 : w.heap.length ≠ p := fun h => h1 h.symm
      simp [hl, h1, h2, Promise.fresh]
    · simp [hpi, hip, hl]

@[simp] theorem length_heap_then_ (w : World) (p : Nat) (f g : Val) :
    (then_ w p f g).2.heap.length = w.heap.length + 1 := by
  simp [then_, modifyPromise]

@[simp] theorem log_then_ (w : World) (p : Nat) (f g : Val) :
    (then_ w p f g).2.log = w.log := by
  simp [then_, modifyPromise]

@[simp] theorem invoked_then_ (w : World) (p : Nat) (f g : Val) :
    (then_ w p f g).2.invoked = w.invoked := by
  simp [then_, modifyPromise]

theorem queue_then_ (w : World) (p : Nat) (f g : Val) :
    (then_ w p f g).2.queue =
      if stateOf w p = PState.pending then w.queue else w.queue ++ [p] := by
  have h := stateOf_then_ w p p f g
  simp only [then_, stateOf_runHandlers] at h
  simp only [then_, queue_runHandlers, h]
  rfl

theorem update_of_settled (w : World) (p : Nat) (st : PState) (v : Val)
    (h : stateOf w p ≠ PState.pending) : update w p st v = w := by
  unfold update
  rw [if_pos h]

/-! ## One-shot settlement -/

/-- C1: on an instance that is already in a terminal state, every later call
of `#update`, through the resolve capability or through the reject capability
and with any value, changes nothing at all; the same holds for every sequence
of such calls. -/
theorem settle_after_terminal_is_noop (funs : FunTable) (w : World) (p : Nat)
    (h : stateOf w p ≠ PState.pending) :
    (∀ (st : PState) (v : Val), update w p st v = w) ∧
    (∀ v : Val, invoke funs (Val.resolveFn p) v w = (Except.ok Val.undefined, w)) ∧
    (∀ v : Val, invoke funs (Val.rejectFn p) v w = (Except.ok Val.undefined, w)) ∧
    (∀ calls : List (PState × Val),
      calls.foldl (fun acc c => update acc p c.1 c.2) w = w) := by
  have hu : ∀ (st : PState) (v : Val), update w p st v = w :=
    fun st v => update_of_settled w p st v h
  refine ⟨hu, ?_, ?_, ?_⟩
  · intro v
    simp only [invoke, hu]
  · intro v
    simp only [invoke, hu]
  · intro calls
    induction calls with
    | nil => rfl
    | cons c cs ih => simpa only [List.foldl_cons, hu] using ih

/-- C1 at `resolve(1)` followed by `reject(E)`: the instance stays fulfilled
with `1`. -/
theorem settle_after_terminal_is_noop_witness :
    stateOf (staticResolve World.empty (Val.num 1)).2 0 = PState.fulfilled ∧
    valueOf (staticResolve World.empty (Val.num 1)).2 0 = Val.num 1 ∧
    update (staticResolve World.empty (Val.num 1)).2 0 PState.rejected (Val.error "E")
      = (staticResolve World.empty (Val.num 1)).2 :=
  ⟨by decide, by decide,
    (settle_after_terminal_is_noop (fun _ _ => Code.ret Val.undefined)
      (staticResolve World.empty (Val.num 1)).2 0 (by decide)).1
      PState.rejected (Val.error "E")⟩

/-! ## Frames of `#update`, `then` and synchronous user code -/

theorem update_of_pending (w : World) (p : Nat) (st : PState) (v : Val)
    (hs : stateOf w p = PState.pending) (hv : isPromise v = false) :
    update w p st v = runHandlers (modifyPromise w p (fun pr =>
        { pr with state := st, value := v })) p := by
  unfold update
  rw [if_neg (by simp [hs])]
  cases v <;> first | rfl | simp [isPromise] at hv

theorem update_promise (w : World) (p b : Nat) (st : PState)
    (hs : stateOf w p = PState.pending) :
    update w p st (Val.promise b) = (then_ w b (Val.resolveFn p) (Val.rejectFn p)).2 := by
  unfold update
  rw [if_neg (by simp [hs])]

/-- `#update` never touches the console or the trace of invoked callbacks, and
only appends to the microtask queue. -/
theorem update_frame (w : World) (p : Nat) (st : PState) (v : Val) :
    (update w p st v).log = w.log ∧ (update w p st v).invoked = w.invoked ∧
    ∃ extra, (update w p st v).queue = w.queue ++ extra := by
  unfold update
  split
  · exact ⟨rfl, rfl, [], by simp⟩
  · split
    · refine ⟨by simp, by simp, ?_⟩
      rw [queue_then_]
      split
      · exact ⟨[], by simp⟩
      · exact ⟨_, rfl⟩
    · refine ⟨by simp [modifyPromise], by simp [modifyPromise], ?_⟩
      rw [queue_runHandlers]
      split
      · exact ⟨[], by simp [modifyPromise]⟩
      · exact ⟨_, rfl⟩

theorem then_frame (w : World) (p : Nat) (a b : Val) :
    (then_ w p a b).2.invoked = w.invoked ∧ (then_ w p a b).2.log = w.log ∧
    ∃ extra, (then_ w p a b).2.queue = w.queue ++ extra := by
  refine ⟨by simp, by simp, ?_⟩
  rw [queue_then_]
  split
  · exact ⟨[], by simp⟩
  · exact ⟨_, rfl⟩

theorem exec_invoked (c : Code) : ∀ w : World, (exec c w).2.invoked = w.invoked := by
  induction c with
  | ret v => intro w; rfl
  | throw v => intro w; rfl
  | log v k ih => intro w; simp only [exec]; rw [ih]
  | resolve p v k ih => intro w; simp only [exec]; rw [ih, (update_frame w p _ v).2.1]
  | reject p v k ih => intro w; simp only [exec]; rw [ih, (update_frame w p _ v).2.1]
  | thenCall p f g k ih =>
    intro w
    cases p <;> simp only [exec]
    rw [ih, invoked_then_]
  | catchCall p g k ih =>
    intro w
    cases p <;> simp only [exec]
    rw [ih, catch_, invoked_then_]
  | finallyCall p cb k ih =>
    intro w
    cases p <;> simp only [exec]
    rw [ih, finally_, invoked_then_]
  | construct ex k ihe ihk =>
    intro w
    simp only [exec]
    split
    · rw [ihk, ihe]
    · rw [ihk, (update_frame _ _ _ _).2.1, ihe]

/-- C7: no reaction callback runs inside `then`, `catch`, `finally` or a
settlement capability: on every state, each of these calls leaves the trace of
invoked callbacks and the console untouched and only appends units to the
microtask queue, whether or not the instance is already terminal; the same
holds for any synchronous run of user code, which can make any number of
such calls. -/
theorem no_callback_outside_scheduler_unit (funs : FunTable) (w : World) (p : Nat)
    (a b v : Val) (st : PState) :
    ((then_ w p a b).2.invoked = w.invoked ∧ (then_ w p a b).2.log = w.log ∧
      ∃ extra, (then_ w p a b).2.queue = w.queue ++ extra) ∧
    ((catch_ w p b).2.invoked = w.invoked ∧ (catch_ w p b).2.log = w.log ∧
      ∃ extra, (catch_ w p b).2.queue = w.queue ++ extra) ∧
    ((finally_ w p a).2.invoked = w.invoked ∧ (finally_ w p a).2.log = w.log ∧
      ∃ extra, (finally_ w p a).2.queue = w.queue ++ extra) ∧
    ((update w p st v).invoked = w.invoked ∧ (update w p st v).log = w.log ∧
      ∃ extra, (update w p st v).queue = w.queue ++ extra) ∧
    (invoke funs (Val.resolveFn p) v w).2.invoked = w.invoked ∧
    (invoke funs (Val.rejectFn p) v w).2.invoked = w.invoked ∧
    (∀ c : Code, (exec c w).2.invoked = w.invoked) := by
  refine ⟨then_frame w p a b, then_frame w p _ b, then_frame w p _ _, ?_, ?_, ?_, ?_⟩
  · exact ⟨(update_frame w p st v).2.1, (update_frame w p st v).1, (update_frame w p st v).2.2⟩
  · simp only [invoke]; exact (update_frame w p _ v).2.1
  · simp only [invoke]; exact (update_frame w p _ v).2.1
  · intro c; exact exec_invoked c w

/-- C8: `then` on an allocated instance, in any state and with any two
arguments, returns normally with a new instance: its id is not the receiver's,
was not allocated before the call, and on return it is pending with no outcome
and no reactions. -/
theorem then_returns_new_pending (w : World) (p : Nat) (a b : Val)
    (hp : p < w.heap.length) :
    (then_ w p a b).1 ≠ p ∧
    w.heap[(then_ w p a b).1]? = none ∧
    (then_ w p a b).1 < (then_ w p a b).2.heap.length ∧
    stateOf (then_ w p a b).2 (then_ w p a b).1 = PState.pending ∧
    valueOf (then_ w p a b).2 (then_ w p a b).1 = Val.undefined ∧
    handlersOf (then_ w p a b).2 (then_ w p a b).1 = [] ∧
    (∀ k : Val → Code, exec (Code.thenCall (Val.promise p) a b k) w =
      exec (k (Val.promise (then_ w p a b).1)) (then_ w p a b).2) := by
  have hne : w.heap.length ≠ p := Nat.ne_of_gt hp
  have hnone : w.heap[w.heap.length]? = none := List.getElem?_eq_none (Nat.le_refl _)
  refine ⟨hne, hnone, by simp, ?_, ?_, ?_, fun k => rfl⟩
  · rw [fst_then_, stateOf_then_]; simp [stateOf, hnone]
  · rw [fst_then_, valueOf_then_]; simp [valueOf, hnone]
  · rw [handlersOf_then_ w p _ a b hp, fst_then_, if_neg hne]
    simp [handlersOf, hnone]

/-- C8 at `CustomPromise.resolve(1).then(f)`: the receiver is already
fulfilled, the returned instance is another one and is pending. -/
theorem then_returns_new_pending_witness :
    stateOf (staticResolve World.empty (Val.num 1)).2 0 = PState.fulfilled ∧
    (then_ (staticResolve World.empty (Val.num 1)).2 0 (Val.fn 0) Val.undefined).1 ≠ 0 ∧
    stateOf (then_ (staticResolve World.empty (Val.num 1)).2 0 (Val.fn 0) Val.undefined).2
      (then_ (staticResolve World.empty (Val.num 1)).2 0 (Val.fn 0) Val.undefined).1
      = PState.pending :=
  ⟨by decide,
   (then_returns_new_pending (staticResolve World.empty (Val.num 1)).2 0 (Val.fn 0)
      Val.undefined (by decide)).1,
   (then_returns_new_pending (staticResolve World.empty (Val.num 1)).2 0 (Val.fn 0)
      Val.undefined (by decide)).2.2.2.1⟩

/-! ## Delivery units -/

@[simp] theorem queue_modifyPromise (w : World) (p : Nat) (f : Promise → Promise) :
    (modifyPromise w p f).queue = w.queue := rfl

@[simp] theorem log_modifyPromise (w : World) (p : Nat) (f : Promise → Promise) :
    (modifyPromise w p f).log = w.log := rfl

@[simp] theorem invoked_modifyPromise (w : World) (p : Nat) (f : Promise → Promise) :
    (modifyPromise w p f).invoked = w.invoked := rfl

@[simp] theorem stateOf_mk (w : World) (q : List Nat) (l : List Val)
    (iv : List (Val × Val)) (i : Nat) :
    stateOf { heap := w.heap, queue := q, log := l, invoked := iv } i = stateOf w i := rfl

@[simp] theorem valueOf_mk (w : World) (q : List Nat) (l : List Val)
    (iv : List (Val × Val)) (i : Nat) :
    valueOf { heap := w.heap, queue := q, log := l, invoked := iv } i = valueOf w i := rfl

@[simp] theorem handlersOf_mk (w : World) (q : List Nat) (l : List Val)
    (iv : List (Val × Val)) (i : Nat) :
    handlersOf { heap := w.heap, queue := q, log := l, invoked := iv } i = handlersOf w i := rfl

/-- Fields of an allocated pending instance after `#update` with a value that
is not an instance. -/
theorem update_plain_fields (w : World) (q : Nat) (st : PState) (v : Val)
    (hq : q < w.heap.length) (hs : stateOf w q = PState.pending)
    (hst : st ≠ PState.pending) (hv : isPromise v = false) :
    stateOf (update w q st v) q = st ∧ valueOf (update w q st v) q = v ∧
    (update w q st v).queue = w.queue ++ [q] ∧
    (∀ i, handlersOf (update w q st v) i = handlersOf w i) ∧
    (∀ i, i ≠ q → stateOf (update w q st v) i = stateOf w i ∧
      valueOf (update w q st v) i = valueOf w i) ∧
    (update w q st v).heap.length = w.heap.length := by
  rw [update_of_pending w q st v hs hv]
  have hg : w.heap[q]? = some w.heap[q] := List.getElem?_eq_getElem hq
  refine ⟨by simp [hg, stateOf_modifyPromise], by simp [hg, valueOf_modifyPromise], ?_, ?_, ?_,
    by simp [modifyPromise]⟩
  · rw [queue_runHandlers]; simp [hg, hst, stateOf_modifyPromise]
  · intro i
    by_cases h : q = i
    · subst h
      simp only [handlersOf_runHandlers, handlersOf_modifyPromise]
      simp [hg, handlersOf]
    · simp [h, handlersOf_modifyPromise]
  · intro i hi
    have h : ¬ q = i := fun h => hi h.symm
    simp [h, stateOf_modifyPromise, valueOf_modifyPromise]

@[simp] theorem stateOf_clear (w : World) (p i : Nat) :
    stateOf (modifyPromise w p (fun pr => { pr with handlers := [] })) i = stateOf w i := by
  rw [stateOf_modifyPromise]
  split
  · unfold stateOf; cases w.heap[i]? <;> rfl
  · rfl

@[simp] theorem valueOf_clear (w : World) (p i : Nat) :
    valueOf (modifyPromise w p (fun pr => { pr with handlers := [] })) i = valueOf w i := by
  rw [valueOf_modifyPromise]
  split
  · unfold valueOf; cases w.heap[i]? <;> rfl
  · rfl

@[simp] theorem handlersOf_clear (w : World) (p i : Nat) :
    handlersOf (modifyPromise w p (fun pr => { pr with handlers := [] })) i =
      if p = i then [] else handlersOf w i := by
  rw [handlersOf_modifyPromise]
  split
  · cases w.heap[i]? <;> rfl
  · rfl

theorem invoke_not_callable (funs : FunTable) (h arg : Val) (w : World)
    (hc : callable h = false) : invoke funs h arg w = (Except.error typeError, w) := by
  cases h <;> first | rfl | simp [callable] at hc

theorem runAll_queue_nil (funs : FunTable) (n : Nat) (w : World) (h : w.queue = []) :
    runAll funs n w = w := by
  cases n with
  | zero => rfl
  | succ n => simp only [runAll, h]

theorem runAll_queue_cons (funs : FunTable) (n : Nat) (w : World) (p : Nat) (rest : List Nat)
    (h : w.queue = p :: rest) :
    runAll funs (n + 1) w = runAll funs n (runMicrotask funs { w with queue := rest } p) := by
  simp only [runAll, step, h]

/-- A reaction whose callback for the state of `p` is not truthy settles its
downstream instance with the state and outcome of `p`. -/
theorem processReaction_absent (funs : FunTable) (w : World) (p q : Nat) (f g : Val)
    (st : PState) (hs : stateOf w p = st)
    (habs : (st = PState.fulfilled ∧ truthy f = false) ∨
      (st = PState.rejected ∧ truthy g = false)) :
    processReaction funs p w ⟨f, g, Val.resolveFn q, Val.rejectFn q⟩ =
      update w q st (valueOf w p) := by
  rcases habs with ⟨h1, h2⟩ | ⟨h1, h2⟩
  · subst h1
    simp [processReaction, tryReaction, hs, h2, invoke]
  · subst h1
    simp [processReaction, tryReaction, hs, h2, invoke]

/-- A unit that finds no reactions changes nothing but the (already empty)
handler list. -/
theorem runMicrotask_no_handlers (funs : FunTable) (w : World) (q : Nat)
    (h : handlersOf w q = []) :
    runMicrotask funs w q = modifyPromise w q (fun pr => { pr with handlers := [] }) := by
  simp [runMicrotask, h]

/-- Clearing a handler list that is already empty changes nothing. -/
theorem clear_eq_self (w : World) (p : Nat) (h : handlersOf w p = []) :
    modifyPromise w p (fun pr => { pr with handlers := [] }) = w := by
  have hheap : w.heap.modify (fun pr => { pr with handlers := [] }) p = w.heap := by
    apply List.ext_getElem?
    intro i
    rw [List.getElem?_modify]
    by_cases hpi : p = i
    · subst hpi
      unfold handlersOf at h
      cases hg : w.heap[p]? with
      | none => rfl
      | some pr =>
        rw [hg] at h
        simp only [if_true, Option.map_eq_map, Option.map_some']
        simp only at h
        rw [← h]
    · simp [hpi]
  unfold modifyPromise
  rw [hheap]

/-- Units queued for an instance that has no reactions left do nothing. -/
theorem runAll_idle_units (funs : FunTable) (p : Nat) (rest : List Nat) (n : Nat) :
    ∀ (k : Nat) (w : World), w.queue = List.replicate k p ++ rest → handlersOf w p = [] →
      runAll funs (n + k) w = runAll funs n { w with queue := rest } := by
  intro k
  induction k with
  | zero =>
    intro w hq _
    have : ({ w with queue := rest } : World) = w := by
      simp only [List.replicate_zero, List.nil_append] at hq
      rw [← hq]
    rw [this]; rfl
  | succ k ih =>
    intro w hq hh
    have hq1 : w.queue = p :: (List.replicate k p ++ rest) := by
      rw [hq, List.replicate_succ]; rfl
    rw [← Nat.add_assoc, runAll_queue_cons funs (n + k) w p _ hq1,
      runMicrotask_no_handlers _ _ _ (by simpa using hh), clear_eq_self _ _ (by simpa using hh),
      ih _ rfl (by simpa using hh)]

/-- What is left of a delivery unit of `p` once its single reaction has
settled the pending downstream instance `q` with a value that is not
an instance: the remaining `k` units of `p` and the unit of `q` find nothing to
do, and the queue empties. -/
theorem deliver_after_process (funs : FunTable) (w0 : World) (p q : Nat) (y : Val)
    (st : PState) (n k : Nat)
    (hqueue : w0.queue = List.replicate k p)
    (hst : st ≠ PState.pending) (hne : q ≠ p) (hq : q < w0.heap.length)
    (hqs : stateOf w0 q = PState.pending) (hqh : handlersOf w0 q = [])
    (hy : isPromise y = false) :
    stateOf (runAll funs (n + 1 + k) (modifyPromise (update w0 q st y) p
      (fun pr => { pr with handlers := [] }))) q = st ∧
    valueOf (runAll funs (n + 1 + k) (modifyPromise (update w0 q st y) p
      (fun pr => { pr with handlers := [] }))) q = y ∧
    (runAll funs (n + 1 + k) (modifyPromise (update w0 q st y) p
      (fun pr => { pr with handlers := [] }))).queue = [] ∧
    (runAll funs (n + 1 + k) (modifyPromise (update w0 q st y) p
      (fun pr => { pr with handlers := [] }))).invoked = w0.invoked ∧
    (runAll funs (n + 1 + k) (modifyPromise (update w0 q st y) p
      (fun pr => { pr with handlers := [] }))).log = w0.log ∧
    (∀ i, i ≠ q → stateOf (runAll funs (n + 1 + k) (modifyPromise (update w0 q st y) p
        (fun pr => { pr with handlers := [] }))) i = stateOf w0 i ∧
      valueOf (runAll funs (n + 1 + k) (modifyPromise (update w0 q st y) p
        (fun pr => { pr with handlers := [] }))) i = valueOf w0 i) ∧
    handlersOf (runAll funs (n + 1 + k) (modifyPromise (update w0 q st y) p
      (fun pr => { pr with handlers := [] }))) p = [] ∧
    (runAll funs (n + 1 + k) (modifyPromise (update w0 q st y) p
      (fun pr => { pr with handlers := [] }))).heap.length = w0.heap.length := by
  obtain ⟨u1, u2, u3, u4, u5, u6⟩ := update_plain_fields w0 q st y hq hqs hst hy
  have uf := update_frame w0 q st y
  have hpq : ¬ p = q := fun h => hne h.symm
  rw [runAll_idle_units funs p [q] (n + 1) k _ (by simp [u3, hqueue]) (by simp),
    runAll_queue_cons funs n _ q [] rfl,
    runMicrotask_no_handlers _ _ _ (by simp [hpq, u4, hqh]), runAll_queue_nil _ _ _ rfl]
  refine ⟨by simp [u1], by simp [u2], rfl, by simpa using uf.2.1, by simpa using uf.1, ?_,
    by simp, by simpa [modifyPromise] using u6⟩
  intro i hi
  simp [u5 i hi]

theorem replicate_append_singleton (k p : Nat) :
    List.replicate k p ++ [p] = p :: List.replicate k p := by
  rw [← List.replicate_succ, List.replicate_succ']

/-- Delivery to a single reaction whose handler for the state of `p` is not
truthy. -/
theorem deliver_single_absent (funs : FunTable) (w : World) (p q : Nat) (f g x : Val)
    (st : PState) (n k : Nat)
    (hqueue : w.queue = p :: List.replicate k p)
    (hh : handlersOf w p = [⟨f, g, Val.resolveFn q, Val.rejectFn q⟩])
    (hs : stateOf w p = st) (hv : valueOf w p = x)
    (hne : q ≠ p) (hq : q < w.heap.length) (hqs : stateOf w q = PState.pending)
    (hqh : handlersOf w q = []) (hx : isPromise x = false)
    (habs : (st = PState.fulfilled ∧ truthy f = false) ∨
      (st = PState.rejected ∧ truthy g = false)) :
    stateOf (runAll funs (k + 2 + n) w) q = st ∧ valueOf (runAll funs (k + 2 + n) w) q = x ∧
    (runAll funs (k + 2 + n) w).queue = [] ∧
    (runAll funs (k + 2 + n) w).invoked = w.invoked ∧
    (runAll funs (k + 2 + n) w).log = w.log ∧
    stateOf (runAll funs (k + 2 + n) w) p = st ∧ valueOf (runAll funs (k + 2 + n) w) p = x := by
  have hst : st ≠ PState.pending := by
    rcases habs with ⟨h, _⟩ | ⟨h, _⟩ <;> simp [h]
  have hfuel : k + 2 + n = (n + 1 + k) + 1 := by omega
  rw [hfuel, runAll_queue_cons funs (n + 1 + k) w p _ hqueue]
  have e1 : runMicrotask funs { w with queue := List.replicate k p } p =
      modifyPromise (update { w with queue := List.replicate k p } q st x) p
        (fun pr => { pr with handlers := [] }) := by
    have := processReaction_absent funs { w with queue := List.replicate k p } p q f g st hs habs
    simp only [runMicrotask, handlersOf_mk, hh, List.foldl_cons, List.foldl_nil, this,
      valueOf_mk, hv]
  rw [e1]
  obtain ⟨d1, d2, d3, d4, d5, d6, _⟩ := deliver_after_process funs
    { w with queue := List.replicate k p } p q x st n k rfl hst hne hq hqs hqh hx
  have d6p := d6 p (fun h => hne h.symm)
  exact ⟨d1, d2, d3, d4, d5, by rw [d6p.1]; exact hs, by rw [d6p.2]; exact hv⟩

theorem stateOf_unallocated (w : World) (i : Nat) (h : w.heap.length ≤ i) :
    stateOf w i = PState.pending ∧ valueOf w i = Val.undefined ∧ handlersOf w i = [] := by
  have : w.heap[i]? = none := List.getElem?_eq_none h
  simp [stateOf, valueOf, handlersOf, this]

/-- The state reached by `p.then(f, g)` on a settled instance with no
reactions and `k` units of its own still queued: one more unit for `p`, whose
only reaction is the new one. -/
theorem then_on_settled_shape (w : World) (p : Nat) (f g : Val) (k : Nat)
    (hp : p < w.heap.length) (hq : w.queue = List.replicate k p) (hh : handlersOf w p = [])
    (hs : stateOf w p ≠ PState.pending) :
    (then_ w p f g).2.queue = p :: List.replicate k p ∧
    handlersOf (then_ w p f g).2 p =
      [⟨f, g, Val.resolveFn w.heap.length, Val.rejectFn w.heap.length⟩] ∧
    w.heap.length ≠ p ∧ w.heap.length < (then_ w p f g).2.heap.length ∧
    stateOf (then_ w p f g).2 w.heap.length = PState.pending ∧
    handlersOf (then_ w p f g).2 w.heap.length = [] := by
  have hne : w.heap.length ≠ p := Nat.ne_of_gt hp
  obtain ⟨a1, _, a3⟩ := stateOf_unallocated w w.heap.length (Nat.le_refl _)
  refine ⟨?_, ?_, hne, by simp, by simp [a1], ?_⟩
  · rw [queue_then_, if_neg hs, hq, replicate_append_singleton]
  · rw [handlersOf_then_ w p p f g hp, if_pos rfl, hh]; rfl
  · rw [handlersOf_then_ w p _ f g hp, if_neg hne, a3]

/-- The state reached by `p.then(f, g)` on a quiet pending instance followed
by settling `p` with a value that is not an instance. -/
theorem then_on_pending_shape (w : World) (p : Nat) (f g x : Val) (st : PState)
    (hp : p < w.heap.length) (hq : w.queue = []) (hh : handlersOf w p = [])
    (hs : stateOf w p = PState.pending) (hst : st ≠ PState.pending)
    (hx : isPromise x = false) :
    (update (then_ w p f g).2 p st x).queue = [p] ∧
    handlersOf (update (then_ w p f g).2 p st x) p =
      [⟨f, g, Val.resolveFn w.heap.length, Val.rejectFn w.heap.length⟩] ∧
    stateOf (update (then_ w p f g).2 p st x) p = st ∧
    valueOf (update (then_ w p f g).2 p st x) p = x ∧
    w.heap.length ≠ p ∧ w.heap.length < (update (then_ w p f g).2 p st x).heap.length ∧
    stateOf (update (then_ w p f g).2 p st x) w.heap.length = PState.pending ∧
    handlersOf (update (then_ w p f g).2 p st x) w.heap.length = [] ∧
    (update (then_ w p f g).2 p st x).invoked = w.invoked ∧
    (update (then_ w p f g).2 p st x).log = w.log := by
  have hne : w.heap.length ≠ p := Nat.ne_of_gt hp
  obtain ⟨a1, _, a3⟩ := stateOf_unallocated w w.heap.length (Nat.le_refl _)
  have hp1 : p < (then_ w p f g).2.heap.length := by simp; omega
  have hs1 : stateOf (then_ w p f g).2 p = PState.pending := by simp [hs]
  obtain ⟨u1, u2, u3, u4, u5, u6⟩ :=
    update_plain_fields (then_ w p f g).2 p st x hp1 hs1 hst hx
  have uf := update_frame (then_ w p f g).2 p st x
  refine ⟨?_, ?_, u1, u2, hne, by rw [u6]; simp, ?_, ?_, by simp [uf.2.1], by simp [uf.1]⟩
  · rw [u3, queue_then_, if_pos hs, hq]; rfl
  · rw [u4, handlersOf_then_ w p p f g hp, if_pos rfl, hh]; rfl
  · rw [(u5 _ hne).1]; simp [a1]
  · rw [u4, handlersOf_then_ w p _ f g hp, if_neg hne, a3]

/-- Pass-through when `then` is called outside the delivery units of `p`:
`p.then(f, g)` where the handler for the terminal state of `p` is absent
(`undefined`, `null`, or any value that fails the test `if (handler)`). Either
`p` is already settled with outcome `x` when `then` is called, has no reactions
left and `k` delivery units of its own still queued (`k = 1` just after
`CustomPromise.resolve(x)`), or `p` is pending without reactions, the queue is
empty and `p` is settled with `x` after the call. Running the microtask queue
(`k + 2` units suffice, and the queue is then empty) leaves the instance
returned by `then` in the state of `p` with the same outcome `x`, and no
callback was invoked. -/
theorem absent_handler_passes_through (funs : FunTable) (w : World) (p : Nat) (f g x : Val)
    (st : PState) (n k : Nat)
    (hp : p < w.heap.length) (hh : handlersOf w p = [])
    (hx : isPromise x = false)
    (habs : (st = PState.fulfilled ∧ truthy f = false) ∨
      (st = PState.rejected ∧ truthy g = false)) :
    (stateOf w p = st → valueOf w p = x → w.queue = List.replicate k p →
      stateOf (runAll funs (k + 2 + n) (then_ w p f g).2) (then_ w p f g).1 = st ∧
      valueOf (runAll funs (k + 2 + n) (then_ w p f g).2) (then_ w p f g).1 = x ∧
      (runAll funs (k + 2 + n) (then_ w p f g).2).queue = [] ∧
      (runAll funs (k + 2 + n) (then_ w p f g).2).invoked = w.invoked) ∧
    (stateOf w p = PState.pending → w.queue = [] →
      stateOf (runAll funs (2 + n) (update (then_ w p f g).2 p st x)) (then_ w p f g).1 = st ∧
      valueOf (runAll funs (2 + n) (update (then_ w p f g).2 p st x)) (then_ w p f g).1 = x ∧
      (runAll funs (2 + n) (update (then_ w p f g).2 p st x)).queue = [] ∧
      (runAll funs (2 + n) (update (then_ w p f g).2 p st x)).invoked = w.invoked) := by
  have hst : st ≠ PState.pending := by
    rcases habs with ⟨h, _⟩ | ⟨h, _⟩ <;> simp [h]
  constructor
  · intro hs hv hq
    obtain ⟨s1, s2, s3, s4, s5, s6⟩ :=
      then_on_settled_shape w p f g k hp hq hh (by rw [hs]; exact hst)
    obtain ⟨d1, d2, d3, d4, _⟩ := deliver_single_absent funs (then_ w p f g).2 p
      w.heap.length f g x st n k s1 s2 (by simp [hs]) (by simp [hv]) s3 s4 s5 s6 hx habs
    exact ⟨d1, d2, d3, by rw [d4, invoked_then_]⟩
  · intro hs hq
    obtain ⟨s1, s2, s3, s4, s5, s6, s7, s8, s9, _⟩ :=
      then_on_pending_shape w p f g x st hp hq hh hs hst hx
    obtain ⟨d1, d2, d3, d4, _⟩ := deliver_single_absent funs _ p
      w.heap.length f g x st n 0 s1 s2 s3 s4 s5 s6 s7 s8 hx habs
    exact ⟨d1, d2, d3, by rw [d4, s9]⟩

/-- Pass-through at `CustomPromise.reject(new Error("failed")).then()`: the
returned instance ends rejected with the same error. -/
theorem absent_handler_passes_through_witness :
    stateOf (runAll (fun _ _ => Code.ret Val.undefined) 3
      (then_ (staticReject World.empty (Val.error "failed")).2 0
        Val.undefined Val.undefined).2) 1 = PState.rejected ∧
    valueOf (runAll (fun _ _ => Code.ret Val.undefined) 3
      (then_ (staticReject World.empty (Val.error "failed")).2 0
        Val.undefined Val.undefined).2) 1 = Val.error "failed" :=
  ⟨((absent_handler_passes_through (fun _ _ => Code.ret Val.undefined)
      (staticReject World.empty (Val.error "failed")).2 0 Val.undefined Val.undefined
      (Val.error "failed") PState.rejected 0 1 (by decide) (by decide) (by decide)
      (by decide)).1 (by decide) (by decide) (by decide)).1,
   ((absent_handler_passes_through (fun _ _ => Code.ret Val.undefined)
      (staticReject World.empty (Val.error "failed")).2 0 Val.undefined Val.undefined
      (Val.error "failed") PState.rejected 0 1 (by decide) (by decide) (by decide)
      (by decide)).1 (by decide) (by decide) (by decide)).2.1⟩

/-- Calling a value never adds to the trace of invoked reaction callbacks:
only `#runHandlers` does, at its two call sites. -/
theorem invoke_invoked (funs : FunTable) (h : Val) :
    ∀ (arg : Val) (w : World), (invoke funs h arg w).2.invoked = w.invoked := by
  induction h with
  | resolveFn p => intro arg w; simp only [invoke]; exact (update_frame w p _ arg).2.1
  | rejectFn p => intro arg w; simp only [invoke]; exact (update_frame w p _ arg).2.1
  | fn i => intro arg w; simp only [invoke]; exact exec_invoked _ w
  | finallyFulfilled cb ih =>
    intro arg w
    have := ih Val.undefined w
    simp only [invoke]
    split <;> rename_i heq <;> rw [heq] at this <;> exact this
  | finallyRejected cb ih =>
    intro arg w
    have := ih Val.undefined w
    simp only [invoke]
    split <;> rename_i heq <;> rw [heq] at this <;> exact this
  | _ => intros; rfl

/-- The body of `forEach` for a reaction whose handler for the state of `p` is
a function: the handler is called with the outcome of `p`; its return value
goes to the downstream `resolve`, an error it raises to the downstream
`reject`. -/
theorem processReaction_callable (funs : FunTable) (w w1 : World) (p q : Nat) (f g h : Val)
    (st : PState) (res : Except Val Val) (hs : stateOf w p = st)
    (hcase : (st = PState.fulfilled ∧ h = f) ∨ (st = PState.rejected ∧ h = g))
    (hc : callable h = true)
    (hret : invoke funs h (valueOf w p)
      { w with invoked := w.invoked ++ [(h, valueOf w p)] } = (res, w1)) :
    processReaction funs p w ⟨f, g, Val.resolveFn q, Val.rejectFn q⟩ =
      match res with
      | Except.ok y => update w1 q PState.fulfilled y
      | Except.error e => update w1 q PState.rejected e := by
  have ht : truthy h = true := by
    cases h <;> first | rfl | simp [callable] at hc
  rcases hcase with ⟨h1, h2⟩ | ⟨h1, h2⟩
  · subst h1; subst h2
    simp only [processReaction, tryReaction, hs, ht, if_true, invokeCallback, hc, hret]
    cases res <;> simp [invoke]
  · subst h1; subst h2
    simp only [processReaction, tryReaction, hs, ht, if_true, invokeCallback, hc, hret]
    cases res <;> simp [invoke]

/-- C3: the code at `CustomPromise.resolve(1).then(2)` and at
`CustomPromise.reject(new Error("failed")).then(2, 2)`.  The number `2` passes
the test `if (onFulfilled)` (resp. `if (onRejected)`), calling it raises a
`TypeError`, and the returned instance ends rejected with that `TypeError`:
not fulfilled with `1`, and not rejected with the original error. -/
theorem truthy_noncallable_handler_rejects_with_typeError :
    stateOf (runAll (fun _ _ => Code.ret Val.undefined) 3
      (then_ (staticResolve World.empty (Val.num 1)).2 0 (Val.num 2) Val.undefined).2) 1
      = PState.rejected ∧
    valueOf (runAll (fun _ _ => Code.ret Val.undefined) 3
      (then_ (staticResolve World.empty (Val.num 1)).2 0 (Val.num 2) Val.undefined).2) 1
      = typeError ∧
    (runAll (fun _ _ => Code.ret Val.undefined) 3
      (then_ (staticResolve World.empty (Val.num 1)).2 0 (Val.num 2) Val.undefined).2).queue
      = [] ∧
    stateOf (runAll (fun _ _ => Code.ret Val.undefined) 3
      (then_ (staticReject World.empty (Val.error "failed")).2 0 (Val.num 2) (Val.num 2)).2) 1
      = PState.rejected ∧
    valueOf (runAll (fun _ _ => Code.ret Val.undefined) 3
      (then_ (staticReject World.empty (Val.error "failed")).2 0 (Val.num 2) (Val.num 2)).2) 1
      = typeError ∧
    typeError ≠ Val.error "failed" := by
  decide

/-- One reaction with a present handler: inside a delivery unit of `p`, settled
in state `st` with outcome `x`, take a reaction registered by `then(f, g)`
whose handler `h` for `st` (`f` if fulfilled, `g` if rejected) is a function,
and suppose the call `h(x)` returns `y`. Then exactly that one call is entered
in the trace, with argument `x`, and the reaction calls the downstream
`resolve` with `y` in both states; when `y` is not an instance and the
downstream instance `q` is still pending, `q` becomes fulfilled with `y`. -/
theorem present_handler_result_resolves_downstream (funs : FunTable) (w w1 : World)
    (p q : Nat) (f g h x y : Val) (st : PState)
    (hs : stateOf w p = st) (hv : valueOf w p = x)
    (hcase : (st = PState.fulfilled ∧ h = f) ∨ (st = PState.rejected ∧ h = g))
    (hc : callable h = true)
    (hret : invoke funs h x { w with invoked := w.invoked ++ [(h, x)] } = (Except.ok y, w1)) :
    processReaction funs p w ⟨f, g, Val.resolveFn q, Val.rejectFn q⟩ =
      update w1 q PState.fulfilled y ∧
    w1.invoked = w.invoked ++ [(h, x)] ∧
    (isPromise y = false → q < w1.heap.length → stateOf w1 q = PState.pending →
      stateOf (processReaction funs p w ⟨f, g, Val.resolveFn q, Val.rejectFn q⟩) q
        = PState.fulfilled ∧
      valueOf (processReaction funs p w ⟨f, g, Val.resolveFn q, Val.rejectFn q⟩) q = y) := by
  subst hv
  have e := processReaction_callable funs w w1 p q f g h st (Except.ok y) hs hcase hc hret
  have hi := invoke_invoked funs h (valueOf w p)
    { w with invoked := w.invoked ++ [(h, valueOf w p)] }
  rw [hret] at hi
  refine ⟨e, hi, ?_⟩
  intro hy hq hqs
  rw [e]
  obtain ⟨u1, u2, _⟩ := update_plain_fields w1 q PState.fulfilled y hq hqs (by simp) hy
  exact ⟨u1, u2⟩

/-- A present handler at
`CustomPromise.reject(new Error("failed")).then(undefined, g)` with `g`
returning `7`: the downstream instance is fulfilled with `7`. -/
theorem present_handler_result_resolves_downstream_witness :
    stateOf (processReaction (fun _ _ => Code.ret (Val.num 7)) 0
      (then_ (staticReject World.empty (Val.error "failed")).2 0 Val.undefined (Val.fn 0)).2
      ⟨Val.undefined, Val.fn 0, Val.resolveFn 1, Val.rejectFn 1⟩) 1 = PState.fulfilled ∧
    valueOf (processReaction (fun _ _ => Code.ret (Val.num 7)) 0
      (then_ (staticReject World.empty (Val.error "failed")).2 0 Val.undefined (Val.fn 0)).2
      ⟨Val.undefined, Val.fn 0, Val.resolveFn 1, Val.rejectFn 1⟩) 1 = Val.num 7 :=
  (present_handler_result_resolves_downstream (fun _ _ => Code.ret (Val.num 7))
    (then_ (staticReject World.empty (Val.error "failed")).2 0 Val.undefined (Val.fn 0)).2
    _ 0 1 Val.undefined (Val.fn 0) (Val.fn 0) (Val.error "failed") (Val.num 7)
    PState.rejected (by decide) (by decide) (Or.inr ⟨rfl, rfl⟩) rfl rfl).2.2
    (by decide) (by decide) (by decide)

/-- C6: inside a delivery unit of `p`, settled in state `st` with outcome `x`,
take the first reaction of `#handlers`, registered by `then(f, g)`, whose
handler `h` for `st` is a function, and suppose the call `h(x)` raises `e`.
The error is caught: the reaction calls the downstream `reject` with `e`, the
unit goes on with the remaining reactions from the state so reached, and when
`e` is an error value (not an instance) and the downstream instance `q` is
still pending, `q` becomes rejected with `e`. -/
theorem callback_error_rejects_downstream (funs : FunTable) (w w1 : World)
    (p q : Nat) (f g h x e : Val) (st : PState) (rest : List Reaction)
    (hs : stateOf w p = st) (hv : valueOf w p = x)
    (hcase : (st = PState.fulfilled ∧ h = f) ∨ (st = PState.rejected ∧ h = g))
    (hc : callable h = true)
    (hret : invoke funs h x { w with invoked := w.invoked ++ [(h, x)] } =
      (Except.error e, w1))
    (hh : handlersOf w p = ⟨f, g, Val.resolveFn q, Val.rejectFn q⟩ :: rest) :
    processReaction funs p w ⟨f, g, Val.resolveFn q, Val.rejectFn q⟩ =
      update w1 q PState.rejected e ∧
    runMicrotask funs w p =
      modifyPromise (rest.foldl (processReaction funs p) (update w1 q PState.rejected e)) p
        (fun pr => { pr with handlers := [] }) ∧
    (isPromise e = false → q < w1.heap.length → stateOf w1 q = PState.pending →
      stateOf (update w1 q PState.rejected e) q = PState.rejected ∧
      valueOf (update w1 q PState.rejected e) q = e) := by
  subst hv
  have e1 := processReaction_callable funs w w1 p q f g h st (Except.error e) hs hcase hc hret
  refine ⟨e1, ?_, ?_⟩
  · simp only [runMicrotask, hh, List.foldl_cons, e1]
  · intro he hq hqs
    obtain ⟨u1, u2, _⟩ := update_plain_fields w1 q PState.rejected e hq hqs (by simp) he
    exact ⟨u1, u2⟩

/-- C6 at `exampleTwoReactions`, where the first callback raises
`Error("boom")`: the first downstream instance is rejected with that error and
the unit still processes the second reaction, whose downstream instance is
fulfilled with `7`. -/
theorem callback_error_rejects_downstream_witness :
    processReaction exampleFuns 0 exampleTwoReactions
      ⟨Val.fn 0, Val.undefined, Val.resolveFn 1, Val.rejectFn 1⟩ =
      update { exampleTwoReactions with invoked := [(Val.fn 0, Val.num 1)] } 1
        PState.rejected (Val.error "boom") ∧
    stateOf (runMicrotask exampleFuns exampleTwoReactions 0) 1 = PState.rejected ∧
    valueOf (runMicrotask exampleFuns exampleTwoReactions 0) 1 = Val.error "boom" ∧
    stateOf (runMicrotask exampleFuns exampleTwoReactions 0) 2 = PState.fulfilled ∧
    valueOf (runMicrotask exampleFuns exampleTwoReactions 0) 2 = Val.num 7 :=
  ⟨(callback_error_rejects_downstream exampleFuns exampleTwoReactions
      { exampleTwoReactions with invoked := [(Val.fn 0, Val.num 1)] }
      0 1 (Val.fn 0) Val.undefined (Val.fn 0) (Val.num 1) (Val.error "boom")
      PState.fulfilled [⟨Val.fn 1, Val.undefined, Val.resolveFn 2, Val.rejectFn 2⟩]
      (by decide) (by decide) (Or.inl ⟨rfl, rfl⟩) rfl rfl (by decide)).1,
   by decide, by decide, by decide, by decide⟩

/-! ## Delivery in attachment order, late attachment -/

theorem thenAll_fields (p : Nat) (cbs : List (Val × Val)) :
    ∀ w : World, p < w.heap.length →
      (thenAll w p cbs).heap.length = w.heap.length + cbs.length ∧
      (∀ i, stateOf (thenAll w p cbs) i = stateOf w i) ∧
      (∀ i, valueOf (thenAll w p cbs) i = valueOf w i) ∧
      handlersOf (thenAll w p cbs) p = handlersOf w p ++ reactionsFrom w.heap.length cbs ∧
      (∀ i, i ≠ p → handlersOf (thenAll w p cbs) i = handlersOf w i) ∧
      (thenAll w p cbs).invoked = w.invoked ∧ (thenAll w p cbs).log = w.log ∧
      (thenAll w p cbs).queue =
        if stateOf w p = PState.pending then w.queue
        else w.queue ++ List.replicate cbs.length p := by
  induction cbs with
  | nil =>
    intro w _
    simp [thenAll, reactionsFrom]
  | cons c cs ih =>
    intro w hp
    obtain ⟨h1, h2, h3, h4, h5, h6, h7, h8⟩ := ih (then_ w p c.1 c.2).2 (by simp; omega)
    simp only [thenAll]
    refine ⟨?_, ?_, ?_, ?_, ?_, ?_, ?_, ?_⟩
    · rw [h1]; simp; omega
    · intro i; rw [h2, stateOf_then_]
    · intro i; rw [h3, valueOf_then_]
    · rw [h4, handlersOf_then_ w p p c.1 c.2 hp, if_pos rfl, length_heap_then_]
      simp [reactionsFrom]
    · intro i hi; rw [h5 i hi, handlersOf_then_ w p i c.1 c.2 hp, if_neg hi]
    · rw [h6, invoked_then_]
    · rw [h7, log_then_]
    · rw [h8, stateOf_then_, queue_then_]
      split
      · rfl
      · rw [List.append_assoc, List.length_cons, List.replicate_succ]; rfl

theorem handlerFor_case (st : PState) (f g : Val) (hst : st ≠ PState.pending) :
    (st = PState.fulfilled ∧ handlerFor st f g = f) ∨
    (st = PState.rejected ∧ handlerFor st f g = g) := by
  cases st
  · exact absurd rfl hst
  · exact Or.inl ⟨rfl, rfl⟩
  · exact Or.inr ⟨rfl, rfl⟩

/-- The loop of a delivery unit over reactions whose handlers return a value
and only write to the console: the handlers are called in list order, and the
downstream instances are fulfilled, and their units queued, in list order. -/
theorem foldl_processReaction_logOnly (funs : FunTable) (p : Nat) (x : Val) (st : PState)
    (ret out : Val → Val) (hst : st ≠ PState.pending) (cbs : List (Val × Val)) :
    ∀ (base : Nat) (W : World), stateOf W p = st → valueOf W p = x → p < base →
      base + cbs.length ≤ W.heap.length →
      (∀ i, i < cbs.length → stateOf W (base + i) = PState.pending) →
      (∀ c ∈ cbs, callable (handlerFor st c.1 c.2) = true ∧
        isPromise (ret (handlerFor st c.1 c.2)) = false ∧
        ∀ V : World, invoke funs (handlerFor st c.1 c.2) x V =
          (Except.ok (ret (handlerFor st c.1 c.2)),
            { V with log := V.log ++ [out (handlerFor st c.1 c.2)] })) →
      ((reactionsFrom base cbs).foldl (processReaction funs p) W).invoked =
        W.invoked ++ cbs.map (fun c => (handlerFor st c.1 c.2, x)) ∧
      ((reactionsFrom base cbs).foldl (processReaction funs p) W).log =
        W.log ++ cbs.map (fun c => out (handlerFor st c.1 c.2)) ∧
      ((reactionsFrom base cbs).foldl (processReaction funs p) W).queue =
        W.queue ++ List.range' base cbs.length ∧
      ((reactionsFrom base cbs).foldl (processReaction funs p) W).heap.length =
        W.heap.length ∧
      (∀ j, (j < base ∨ base + cbs.length ≤ j) →
        stateOf ((reactionsFrom base cbs).foldl (processReaction funs p) W) j = stateOf W j ∧
        valueOf ((reactionsFrom base cbs).foldl (processReaction funs p) W) j = valueOf W j) ∧
      (∀ j, handlersOf ((reactionsFrom base cbs).foldl (processReaction funs p) W) j =
        handlersOf W j) ∧
      (∀ i c, cbs[i]? = some c →
        stateOf ((reactionsFrom base cbs).foldl (processReaction funs p) W) (base + i) =
          PState.fulfilled ∧
        valueOf ((reactionsFrom base cbs).foldl (processReaction funs p) W) (base + i) =
          ret (handlerFor st c.1 c.2)) := by
  induction cbs with
  | nil =>
    intro base W _ _ _ _ _ _
    simp [reactionsFrom]
  | cons c cs ih =>
    intro base W hs hv hpb hlen hpend hcb
    obtain ⟨hc, hy, hinv⟩ := hcb c (List.mem_cons_self _ _)
    have hlen' : base + (cs.length + 1) ≤ W.heap.length := by simpa using hlen
    have e := processReaction_callable funs W _ p base c.1 c.2 (handlerFor st c.1 c.2) st
      (Except.ok (ret (handlerFor st c.1 c.2))) hs (handlerFor_case st c.1 c.2 hst) hc
      (by rw [hv]; exact hinv _)
    simp only at e
    have hb0 : stateOf W (base + 0) = PState.pending := hpend 0 (by simp)
    obtain ⟨u1, u2, u3, u4, u5, u6⟩ := update_plain_fields
      { W with invoked := W.invoked ++ [(handlerFor st c.1 c.2, x)],
               log := W.log ++ [out (handlerFor st c.1 c.2)] }
      base PState.fulfilled (ret (handlerFor st c.1 c.2))
      (by show base < W.heap.length; omega) (by simpa using hb0) (by simp) hy
    have uf := update_frame
      { W with invoked := W.invoked ++ [(handlerFor st c.1 c.2, x)],
               log := W.log ++ [out (handlerFor st c.1 c.2)] }
      base PState.fulfilled (ret (handlerFor st c.1 c.2))
    have hpne : p ≠ base := Nat.ne_of_lt hpb
    obtain ⟨i1, i2, i3, i4, i5, i6, i7⟩ := ih (base + 1) _
      (by rw [(u5 p hpne).1]; simpa using hs) (by rw [(u5 p hpne).2]; simpa using hv)
      (by omega) (by rw [u6]; show base + 1 + cs.length ≤ W.heap.length; omega)
      (by
        intro i hi
        rw [(u5 (base + 1 + i) (by omega)).1]
        have := hpend (i + 1) (by simpa using hi)
        rw [stateOf_mk]
        rw [show base + 1 + i = base + (i + 1) by omega]
        exact this)
      (fun c' hc' => hcb c' (List.mem_cons_of_mem _ hc'))
    simp only [reactionsFrom, List.foldl_cons, e]
    refine ⟨?_, ?_, ?_, ?_, ?_, ?_, ?_⟩
    · rw [i1, uf.2.1]; simp
    · rw [i2, uf.1]; simp
    · rw [i3, u3]; simp [List.range'_succ]
    · rw [i4, u6]
    · intro j hj
      simp only [List.length_cons] at hj
      have hjb : j ≠ base := by omega
      have := i5 j (by omega)
      rw [this.1, this.2, (u5 j hjb).1, (u5 j hjb).2]
      exact ⟨rfl, rfl⟩
    · intro j; rw [i6, u4]; rfl
    · intro i c' hi
      cases i with
      | zero =>
        simp only [List.getElem?_cons_zero, Option.some.injEq] at hi
        subst hi
        have := i5 base (Or.inl (by omega))
        exact ⟨this.1.trans u1, this.2.trans u2⟩
      | succ i =>
        simp only [List.getElem?_cons_succ] at hi
        have := i7 i c' hi
        rw [show base + (i + 1) = base + 1 + i by omega]
        exact this

/-- One delivery unit of `p` over reactions whose handlers return a value and
only write to the console. -/
theorem step_logOnly (funs : FunTable) (p : Nat) (x : Val) (st : PState)
    (ret out : Val → Val) (hst : st ≠ PState.pending) (cbs : List (Val × Val))
    (base : Nat) (rest : List Nat) (W : World)
    (hqueue : W.queue = p :: rest) (hh : handlersOf W p = reactionsFrom base cbs)
    (hs : stateOf W p = st) (hv : valueOf W p = x) (hpb : p < base)
    (hlen : base + cbs.length ≤ W.heap.length)
    (hpend : ∀ i, i < cbs.length → stateOf W (base + i) = PState.pending)
    (hcb : ∀ c ∈ cbs, callable (handlerFor st c.1 c.2) = true ∧
        isPromise (ret (handlerFor st c.1 c.2)) = false ∧
        ∀ V : World, invoke funs (handlerFor st c.1 c.2) x V =
          (Except.ok (ret (handlerFor st c.1 c.2)),
            { V with log := V.log ++ [out (handlerFor st c.1 c.2)] })) :
    (step funs W).invoked = W.invoked ++ cbs.map (fun c => (handlerFor st c.1 c.2, x)) ∧
    (step funs W).log = W.log ++ cbs.map (fun c => out (handlerFor st c.1 c.2)) ∧
    (step funs W).queue = rest ++ List.range' base cbs.length ∧
    handlersOf (step funs W) p = [] ∧
    (∀ i c, cbs[i]? = some c →
      stateOf (step funs W) (base + i) = PState.fulfilled ∧
      valueOf (step funs W) (base + i) = ret (handlerFor st c.1 c.2)) := by
  obtain ⟨i1, i2, i3, _, _, _, i7⟩ := foldl_processReaction_logOnly funs p x st ret out hst cbs
    base { W with queue := rest } (by simpa using hs) (by simpa using hv) hpb hlen
    (by intro i hi; simpa using hpend i hi) hcb
  have e : step funs W = modifyPromise
      ((reactionsFrom base cbs).foldl (processReaction funs p) { W with queue := rest }) p
      (fun pr => { pr with handlers := [] }) := by
    simp only [step, hqueue, runMicrotask, handlersOf_mk, hh]
  rw [e]
  refine ⟨by simpa using i1, by simpa using i2, by simpa using i3, by simp, ?_⟩
  intro i c hi
  simpa using i7 i c hi

/-- Delivery to handlers that only print: reactions attached to `p` with
`then`, in the order of the list `cbs`, whose handlers for the state of `p` are
functions that return a value and only write to the console. Whether `p` is
already settled when they are attached (with `k` units of its own still queued)
or is pending and settled afterwards, the next delivery unit calls the handlers
in attachment order, each with the outcome `x` (trace and console grow in that
order), settles the downstream instances in that order (their units are queued
in that order), fulfils the `i`-th one with the `i`-th handler's return value,
and leaves `p` without reactions. -/
theorem reactions_delivered_in_attachment_order (funs : FunTable) (w : World) (p : Nat)
    (x : Val) (st : PState) (ret out : Val → Val) (cbs : List (Val × Val)) (k : Nat)
    (hp : p < w.heap.length) (hh : handlersOf w p = []) (hst : st ≠ PState.pending)
    (hne : cbs ≠ [])
    (hcb : ∀ c ∈ cbs, callable (handlerFor st c.1 c.2) = true ∧
        isPromise (ret (handlerFor st c.1 c.2)) = false ∧
        ∀ V : World, invoke funs (handlerFor st c.1 c.2) x V =
          (Except.ok (ret (handlerFor st c.1 c.2)),
            { V with log := V.log ++ [out (handlerFor st c.1 c.2)] })) :
    (stateOf w p = st → valueOf w p = x → w.queue = List.replicate k p →
      ∀ W, W = step funs (thenAll w p cbs) →
        W.invoked = w.invoked ++ cbs.map (fun c => (handlerFor st c.1 c.2, x)) ∧
        W.log = w.log ++ cbs.map (fun c => out (handlerFor st c.1 c.2)) ∧
        W.queue = List.replicate (k + cbs.length - 1) p ++
          List.range' w.heap.length cbs.length ∧
        handlersOf W p = [] ∧
        (∀ i c, cbs[i]? = some c →
          stateOf W (w.heap.length + i) = PState.fulfilled ∧
          valueOf W (w.heap.length + i) = ret (handlerFor st c.1 c.2))) ∧
    (stateOf w p = PState.pending → w.queue = [] → isPromise x = false →
      ∀ W, W = step funs (update (thenAll w p cbs) p st x) →
        W.invoked = w.invoked ++ cbs.map (fun c => (handlerFor st c.1 c.2, x)) ∧
        W.log = w.log ++ cbs.map (fun c => out (handlerFor st c.1 c.2)) ∧
        W.queue = List.range' w.heap.length cbs.length ∧
        handlersOf W p = [] ∧
        (∀ i c, cbs[i]? = some c →
          stateOf W (w.heap.length + i) = PState.fulfilled ∧
          valueOf W (w.heap.length + i) = ret (handlerFor st c.1 c.2))) := by
  obtain ⟨t1, t2, t3, t4, t5, t6, t7, t8⟩ := thenAll_fields p cbs w hp
  have hpos : 0 < cbs.length := List.length_pos.mpr hne
  have hun : ∀ i, stateOf w (w.heap.length + i) = PState.pending :=
    fun i => (stateOf_unallocated w _ (Nat.le_add_right _ _)).1
  constructor
  · intro hs hv hq W hW
    subst hW
    have hqueue : (thenAll w p cbs).queue = p :: List.replicate (k + cbs.length - 1) p := by
      rw [t8, if_neg (by rw [hs]; exact hst), hq, ← List.replicate_succ]
      rw [show k + cbs.length - 1 + 1 = k + cbs.length by omega, List.replicate_add]
    obtain ⟨s1, s2, s3, s4, s5⟩ := step_logOnly funs p x st ret out hst cbs w.heap.length _
      (thenAll w p cbs) hqueue (by rw [t4, hh]; rfl) (by rw [t2, hs]) (by rw [t3, hv]) hp
      (by rw [t1]) (fun i _ => by rw [t2]; exact hun i) hcb
    exact ⟨by rw [s1, t6], by rw [s2, t7], s3, s4, s5⟩
  · intro hs hq hx W hW
    subst hW
    obtain ⟨u1, u2, u3, u4, u5, u6⟩ := update_plain_fields (thenAll w p cbs) p st x
      (by rw [t1]; omega) (by rw [t2, hs]) hst hx
    have uf := update_frame (thenAll w p cbs) p st x
    obtain ⟨s1, s2, s3, s4, s5⟩ := step_logOnly funs p x st ret out hst cbs w.heap.length []
      (update (thenAll w p cbs) p st x) (by rw [u3, t8, if_pos hs, hq]; rfl)
      (by rw [u4, t4, hh]; rfl) u1 u2 hp (by rw [u6, t1])
      (fun i _ => by rw [(u5 _ (by omega)).1, t2]; exact hun i) hcb
    exact ⟨by rw [s1, uf.2.1, t6], by rw [s2, uf.1, t7], by simpa using s3, s4, s5⟩

/-- Two printing handlers,
`p = CustomPromise.resolve(1); p.then(f0); p.then(f1);`: the first unit calls `f0` then `f1`, both with `1`, prints `0`
then `1`, and queues the units of the two downstream instances `1`, `2` in that
order behind the two remaining units of `p`. -/
theorem reactions_delivered_in_attachment_order_witness :
    (step exampleLogFuns (thenAll (staticResolve World.empty (Val.num 1)).2 0
      [(Val.fn 0, Val.undefined), (Val.fn 1, Val.undefined)])).invoked =
      [(Val.fn 0, Val.num 1), (Val.fn 1, Val.num 1)] ∧
    (step exampleLogFuns (thenAll (staticResolve World.empty (Val.num 1)).2 0
      [(Val.fn 0, Val.undefined), (Val.fn 1, Val.undefined)])).log =
      [Val.num 0, Val.num 1] ∧
    (step exampleLogFuns (thenAll (staticResolve World.empty (Val.num 1)).2 0
      [(Val.fn 0, Val.undefined), (Val.fn 1, Val.undefined)])).queue = [0, 0, 1, 2] :=
  have h := (reactions_delivered_in_attachment_order exampleLogFuns
    (staticResolve World.empty (Val.num 1)).2 0 (Val.num 1) PState.fulfilled
    exampleLogResult exampleLogResult
    [(Val.fn 0, Val.undefined), (Val.fn 1, Val.undefined)] 1
    (by decide) (by decide) (by decide) (by decide)
    (by
      intro c hc
      simp only [List.mem_cons, List.mem_singleton, List.not_mem_nil, or_false] at hc
      rcases hc with rfl | rfl <;> exact ⟨rfl, rfl, fun _ => rfl⟩)).1
    (by decide) (by decide) (by decide) _ rfl
  ⟨h.1, h.2.1, h.2.2.1⟩

/-- Delivery to a single reaction whose handler for the state of `p` is a
function that returns `y` and only writes `o` to the console, on a state whose
queue holds just the unit of `p`. -/
theorem deliver_single_logOnly (funs : FunTable) (W : World) (p q : Nat) (f g x y o : Val)
    (st : PState) (n : Nat)
    (hqueue : W.queue = [p])
    (hh : handlersOf W p = [⟨f, g, Val.resolveFn q, Val.rejectFn q⟩])
    (hs : stateOf W p = st) (hv : valueOf W p = x) (hst : st ≠ PState.pending)
    (hne : q ≠ p) (hq : q < W.heap.length) (hqs : stateOf W q = PState.pending)
    (hqh : handlersOf W q = [])
    (hc : callable (handlerFor st f g) = true) (hy : isPromise y = false)
    (hinv : ∀ V : World, invoke funs (handlerFor st f g) x V =
      (Except.ok y, { V with log := V.log ++ [o] })) :
    (runAll funs (2 + n) W).invoked = W.invoked ++ [(handlerFor st f g, x)] ∧
    (runAll funs (2 + n) W).log = W.log ++ [o] ∧
    (runAll funs (2 + n) W).queue = [] ∧
    stateOf (runAll funs (2 + n) W) q = PState.fulfilled ∧
    valueOf (runAll funs (2 + n) W) q = y ∧
    stateOf (runAll funs (2 + n) W) p = st ∧ valueOf (runAll funs (2 + n) W) p = x ∧
    handlersOf (runAll funs (2 + n) W) p = [] ∧
    (runAll funs (2 + n) W).heap.length = W.heap.length := by
  have hfuel : 2 + n = (n + 1 + 0) + 1 := by omega
  rw [hfuel, runAll_queue_cons funs (n + 1 + 0) W p [] hqueue]
  have e := processReaction_callable funs { W with queue := [] } _ p q f g (handlerFor st f g)
    st (Except.ok y) hs (handlerFor_case st f g hst) hc (by rw [valueOf_mk, hv]; exact hinv _)
  simp only at e
  have e1 : runMicrotask funs { W with queue := [] } p =
      modifyPromise (update (⟨W.heap, [], W.log ++ [o],
        W.invoked ++ [(handlerFor st f g, x)]⟩ : World) q PState.fulfilled y) p
        (fun pr => { pr with handlers := [] }) := by
    simp only [runMicrotask, handlersOf_mk, hh, List.foldl_cons, List.foldl_nil, e]
  rw [e1]
  obtain ⟨d1, d2, d3, d4, d5, d6, d7, d8⟩ := deliver_after_process funs
    (⟨W.heap, [], W.log ++ [o], W.invoked ++ [(handlerFor st f g, x)]⟩ : World) p q y PState.fulfilled n 0 rfl (by simp) hne hq hqs hqh hy
  have d6p := d6 p (fun h => hne h.symm)
  exact ⟨d4, d5, d3, d1, d2, by rw [d6p.1]; exact hs, by rw [d6p.2]; exact hv, d7, d8⟩

/-- C9: `p` is pending, without reactions, and the queue is empty.  A first
reaction is attached with `then(f1, g1)`, `p` is settled in state `st` with
`x`, and the queue is run to empty (state `w3`); only then a second reaction
is attached with `then(f2, g2)`, from outside any unit, and the queue is run
to empty again (state `w5`).  The handlers for `st` are functions that return
a value and only write to the console.  Then the first handler was called
once with `x` before the late attachment, the late handler is called once with
the same `x`, the trace holds exactly these two calls, both queues ran empty,
and each downstream instance is fulfilled with its handler's return value. -/
theorem late_reaction_is_delivered (funs : FunTable) (w : World) (p : Nat)
    (f1 g1 f2 g2 x y1 o1 y2 o2 : Val) (st : PState) (n m : Nat)
    (hp : p < w.heap.length) (hs : stateOf w p = PState.pending)
    (hh : handlersOf w p = []) (hq : w.queue = [])
    (hst : st ≠ PState.pending) (hx : isPromise x = false)
    (hc1 : callable (handlerFor st f1 g1) = true) (hy1 : isPromise y1 = false)
    (hinv1 : ∀ V : World, invoke funs (handlerFor st f1 g1) x V =
      (Except.ok y1, { V with log := V.log ++ [o1] }))
    (hc2 : callable (handlerFor st f2 g2) = true) (hy2 : isPromise y2 = false)
    (hinv2 : ∀ V : World, invoke funs (handlerFor st f2 g2) x V =
      (Except.ok y2, { V with log := V.log ++ [o2] })) :
    ∀ w3 w5 : World, w3 = runAll funs (2 + n) (update (then_ w p f1 g1).2 p st x) →
      w5 = runAll funs (2 + m) (then_ w3 p f2 g2).2 →
      w3.queue = [] ∧ w3.invoked = w.invoked ++ [(handlerFor st f1 g1, x)] ∧
      stateOf w3 (then_ w p f1 g1).1 = PState.fulfilled ∧
      valueOf w3 (then_ w p f1 g1).1 = y1 ∧
      w5.queue = [] ∧
      w5.invoked = w.invoked ++ [(handlerFor st f1 g1, x), (handlerFor st f2 g2, x)] ∧
      w5.log = w.log ++ [o1, o2] ∧
      stateOf w5 (then_ w3 p f2 g2).1 = PState.fulfilled ∧
      valueOf w5 (then_ w3 p f2 g2).1 = y2 := by
  intro w3 w5 h3 h5
  obtain ⟨s1, s2, s3, s4, s5, s6, s7, s8, s9, s10⟩ :=
    then_on_pending_shape w p f1 g1 x st hp hq hh hs hst hx
  obtain ⟨a1, a2, a3, a4, a5, a6, a7, a8, a9⟩ := deliver_single_logOnly funs _ p
    w.heap.length f1 g1 x y1 o1 st n s1 s2 s3 s4 hst s5 s6 s7 s8 hc1 hy1 hinv1
  rw [← h3] at a1 a2 a3 a4 a5 a6 a7 a8 a9
  have hp3 : p < w3.heap.length := by rw [a9]; omega
  obtain ⟨b1, b2, b3, b4, b5, b6⟩ := then_on_settled_shape w3 p f2 g2 0 hp3
    (by rw [a3]; rfl) a8 (by rw [a6]; exact hst)
  obtain ⟨c1, c2, c3, c4, c5, _⟩ := deliver_single_logOnly funs (then_ w3 p f2 g2).2 p
    w3.heap.length f2 g2 x y2 o2 st m b1 b2 (by rw [stateOf_then_, a6])
    (by rw [valueOf_then_, a7]) hst b3 b4 b5 b6 hc2 hy2 hinv2
  rw [← h5] at c1 c2 c3 c4 c5
  refine ⟨a3, by rw [a1, s9], a4, a5, c3, ?_, ?_, c4, c5⟩
  · rw [c1, invoked_then_, a1, s9]; simp
  · rw [c2, log_then_, a2, s10]; simp

/-- C9 at the scenario of `2.then-run-immediately.js`: a pending instance, a
reaction attached before it is resolved with `" world "`, and a second one
attached after the first was delivered; the trace holds one call of each
handler, both with `" world "`. -/
theorem late_reaction_is_delivered_witness :
    (runAll exampleLogFuns 2 (then_ (runAll exampleLogFuns 2
      (update (then_ (construct World.empty (fun _ => Code.ret Val.undefined)).2 0
        (Val.fn 0) Val.undefined).2 0 PState.fulfilled (Val.str " world "))) 0
      (Val.fn 1) Val.undefined).2).invoked =
      [(Val.fn 0, Val.str " world "), (Val.fn 1, Val.str " world ")] :=
  (late_reaction_is_delivered exampleLogFuns
    (construct World.empty (fun _ => Code.ret Val.undefined)).2 0
    (Val.fn 0) Val.undefined (Val.fn 1) Val.undefined (Val.str " world ")
    (Val.num 0) (Val.num 0) (Val.num 1) (Val.num 1) PState.fulfilled 0 0
    (by decide) (by decide) (by decide) (by decide) (by decide) (by decide)
    rfl rfl (fun _ => rfl) rfl rfl (fun _ => rfl) _ _ rfl rfl).2.2.2.2.2.1

/-! ## Chains of adoptions -/

theorem settledWith_promise (w : World) (cap : PState) (b : Nat) :
    (settledWith w cap (Val.promise b)).1 = w.heap.length ∧
    (settledWith w cap (Val.promise b)).2 =
      (then_ { w with heap := w.heap ++ [Promise.fresh] } b
        (Val.resolveFn w.heap.length) (Val.rejectFn w.heap.length)).2 := by
  have hs : stateOf { w with heap := w.heap ++ [Promise.fresh] } w.heap.length
      = PState.pending := by
    simp [stateOf, Promise.fresh]
  cases cap <;>
    simp only [settledWith, construct, exec, update_promise _ _ _ _ hs, and_self]

theorem alloc_fields (w : World) (i : Nat) :
    stateOf { w with heap := w.heap ++ [Promise.fresh] } i = stateOf w i ∧
    valueOf { w with heap := w.heap ++ [Promise.fresh] } i = valueOf w i ∧
    handlersOf { w with heap := w.heap ++ [Promise.fresh] } i = handlersOf w i := by
  simp only [stateOf, valueOf, handlersOf, getElem?_push_fresh]
  by_cases h : i = w.heap.length
  · subst h
    have : w.heap[w.heap.length]? = none := List.getElem?_eq_none (Nat.le_refl _)
    simp [this, Promise.fresh]
  · simp [h]

/-- Fields after `new CustomPromise((resolve, reject) => cap(b))` for an
allocated instance `b`: the new instance is `w.heap.length`, the instance
returned by the `then` of its adoption is `w.heap.length + 1`. -/
theorem settledWith_promise_fields (w : World) (cap : PState) (b : Nat)
    (hb : b < w.heap.length) :
    (settledWith w cap (Val.promise b)).1 = w.heap.length ∧
    (settledWith w cap (Val.promise b)).2.heap.length = w.heap.length + 2 ∧
    (∀ i, stateOf (settledWith w cap (Val.promise b)).2 i = stateOf w i) ∧
    (∀ i, valueOf (settledWith w cap (Val.promise b)).2 i = valueOf w i) ∧
    (∀ i, handlersOf (settledWith w cap (Val.promise b)).2 i =
      if i = b then handlersOf w b ++ [adoptReaction w.heap.length (w.heap.length + 1)]
      else handlersOf w i) ∧
    (settledWith w cap (Val.promise b)).2.queue =
      (if stateOf w b = PState.pending then w.queue else w.queue ++ [b]) ∧
    (settledWith w cap (Val.promise b)).2.invoked = w.invoked ∧
    (settledWith w cap (Val.promise b)).2.log = w.log := by
  obtain ⟨e1, e2⟩ := settledWith_promise w cap b
  rw [e2]
  have hb1 : b < ({ w with heap := w.heap ++ [Promise.fresh] } : World).heap.length := by
    simp; omega
  refine ⟨e1, by simp, ?_, ?_, ?_, ?_, by simp, by simp⟩
  · intro i; rw [stateOf_then_]; exact (alloc_fields w i).1
  · intro i; rw [valueOf_then_]; exact (alloc_fields w i).2.1
  · intro i
    rw [handlersOf_then_ _ b i _ _ hb1, (alloc_fields w i).2.2, (alloc_fields w b).2.2]
    simp [adoptReaction]
  · rw [queue_then_, (alloc_fields w b).1]

theorem chainNode_lt (b base d : Nat) : chainNode b base d < base + 2 * d ∨
    (d = 0 ∧ chainNode b base d = b) := by
  cases d with
  | zero => exact Or.inr ⟨rfl, rfl⟩
  | succ d => left; simp only [chainNode]; omega

theorem chainNode_ne (b base i d : Nat) (hb : b < base) (hid : i < d) :
    chainNode b base i ≠ chainNode b base d := by
  cases d with
  | zero => omega
  | succ d =>
    cases i with
    | zero => simp only [chainNode]; omega
    | succ i => simp only [chainNode]; omega

theorem chainNode_ne_odd (b base i d : Nat) (hb : b < base) :
    base + 2 * i + 1 ≠ chainNode b base d := by
  cases d with
  | zero => simp only [chainNode]; omega
  | succ d => simp only [chainNode]; omega

/-- One more adoption at the outer end of a chain. -/
theorem Built_step (w : World) (cap : PState) (b base d : Nat)
    (hB : Built w b base d) (hlen : base + 2 * d = w.heap.length) :
    Built (settledWith w cap (Val.promise (chainNode b base d))).2 b base (d + 1) := by
  obtain ⟨hb, _, hH, hlast, hpend, hodd⟩ := hB
  have hcur : chainNode b base d < w.heap.length := by
    rcases chainNode_lt b base d with h | ⟨_, h⟩ <;> omega
  obtain ⟨_, f2, f3, _, f5, _, _, _⟩ :=
    settledWith_promise_fields w cap (chainNode b base d) hcur
  have hun : ∀ i, w.heap.length ≤ i → stateOf w i = PState.pending ∧ handlersOf w i = [] :=
    fun i hi => ⟨(stateOf_unallocated w i hi).1, (stateOf_unallocated w i hi).2.2⟩
  refine ⟨hb, by rw [f2]; omega, ?_, ?_, ?_, ?_⟩
  · intro i hi
    rw [f5]
    by_cases hid : i = d
    · subst hid
      rw [if_pos rfl, hlast, ← hlen]; rfl
    · rw [if_neg (chainNode_ne b base i d hb (by omega)), hH i (by omega)]
  · rw [f5, if_neg (chainNode_ne b base d (d + 1) hb (by omega)).symm]
    exact (hun _ (by simp only [chainNode]; omega)).2
  · intro j hj
    rw [f3]
    by_cases hjd : j < 2 * d
    · exact hpend j hjd
    · exact (hun _ (by omega)).1
  · intro i hi
    rw [f5, if_neg (chainNode_ne_odd b base i d hb)]
    by_cases hid : i < d
    · exact hodd i hid
    · exact (hun _ (by omega)).2

/-- The chain built by `adoptChain` around a pending end node. -/
theorem adoptChain_Built (b base : Nat) (caps : List PState) :
    ∀ (w : World) (d : Nat), Built w b base d → base + 2 * d = w.heap.length →
      stateOf w (chainNode b base d) = PState.pending →
      (adoptChain w (chainNode b base d) caps).1 = chainNode b base (d + caps.length) ∧
      Built (adoptChain w (chainNode b base d) caps).2 b base (d + caps.length) ∧
      base + 2 * (d + caps.length) = (adoptChain w (chainNode b base d) caps).2.heap.length ∧
      (∀ i, stateOf (adoptChain w (chainNode b base d) caps).2 i = stateOf w i) ∧
      (∀ i, valueOf (adoptChain w (chainNode b base d) caps).2 i = valueOf w i) ∧
      (adoptChain w (chainNode b base d) caps).2.queue = w.queue ∧
      (adoptChain w (chainNode b base d) caps).2.invoked = w.invoked ∧
      (adoptChain w (chainNode b base d) caps).2.log = w.log := by
  induction caps with
  | nil =>
    intro w d hB hlen _
    exact ⟨rfl, hB, hlen, fun _ => rfl, fun _ => rfl, rfl, rfl, rfl⟩
  | cons cap rest ih =>
    intro w d hB hlen hpend
    have hcur : chainNode b base d < w.heap.length := by
      rcases chainNode_lt b base d with h | ⟨_, h⟩
      · omega
      · have := hB.1; omega
    obtain ⟨f1, f2, f3, f4, _, f6, f7, f8⟩ :=
      settledWith_promise_fields w cap (chainNode b base d) hcur
    have hB1 := Built_step w cap b base d hB hlen
    have hnode : (settledWith w cap (Val.promise (chainNode b base d))).1 =
        chainNode b base (d + 1) := by
      rw [f1, ← hlen]; rfl
    simp only [adoptChain]
    rw [hnode]
    obtain ⟨g1, g2, g3, g4, g5, g6, g7, g8⟩ := ih _ (d + 1) hB1 (by rw [f2]; omega)
      (by rw [f3]; exact (stateOf_unallocated w _ (by simp only [chainNode]; omega)).1)
    have hd : d + 1 + rest.length = d + (cap :: rest).length := by
      simp only [List.length_cons]; omega
    rw [hd] at g1 g2 g3
    refine ⟨g1, g2, g3, fun i => by rw [g4, f3], fun i => by rw [g5, f4], ?_, ?_, ?_⟩
    · rw [g6, f6, if_pos hpend]
    · rw [g7, f7]
    · rw [g8, f8]

theorem chainNode_shift (b base i : Nat) :
    chainNode base (base + 2) i = chainNode b base (i + 1) := by
  cases i with
  | zero => rfl
  | succ i => simp only [chainNode]; omega

/-- The adoption continuation for the state of the adopted instance settles
the adopting instance `o` in that same state. -/
theorem invoke_adopt_handler (funs : FunTable) (o : Nat) (st : PState) (x : Val) (V : World)
    (hst : st ≠ PState.pending) :
    callable (handlerFor st (Val.resolveFn o) (Val.rejectFn o)) = true ∧
    invoke funs (handlerFor st (Val.resolveFn o) (Val.rejectFn o)) x V =
      (Except.ok Val.undefined, update V o st x) := by
  cases st
  · exact absurd rfl hst
  · exact ⟨rfl, rfl⟩
  · exact ⟨rfl, rfl⟩

/-- The delivery unit of a settled node of a chain: the next node is settled
in the same state with the same outcome, the instance returned by the `then`
of the adoption is fulfilled with `undefined`, and their units are queued. -/
theorem runMicrotask_chain (funs : FunTable) (W : World) (b base d : Nat) (st : PState)
    (x : Val) (hB : Built W b base (d + 1)) (hs : stateOf W b = st) (hv : valueOf W b = x)
    (hst : st ≠ PState.pending) (hx : isPromise x = false) :
    Built (runMicrotask funs W b) base (base + 2) d ∧
    stateOf (runMicrotask funs W b) base = st ∧ valueOf (runMicrotask funs W b) base = x ∧
    (runMicrotask funs W b).queue = W.queue ++ [base, base + 1] ∧
    (∀ i, handlersOf (runMicrotask funs W b) i = if i = b then [] else handlersOf W i) := by
  obtain ⟨hb, hlen, hH, hlast, hpend, hodd⟩ := hB
  have hh0 : handlersOf W b = [adoptReaction base (base + 1)] := hH 0 (by omega)
  obtain ⟨hc, hinv⟩ := invoke_adopt_handler funs base st x
    { W with invoked := W.invoked ++
      [(handlerFor st (Val.resolveFn base) (Val.rejectFn base), x)] } hst
  have e := processReaction_callable funs W _ b (base + 1) (Val.resolveFn base)
    (Val.rejectFn base) _ st (Except.ok Val.undefined) hs
    (handlerFor_case st _ _ hst) hc (by rw [hv]; exact hinv)
  simp only at e
  have e1 : runMicrotask funs W b = modifyPromise (update (update
      { W with invoked := W.invoked ++
        [(handlerFor st (Val.resolveFn base) (Val.rejectFn base), x)] } base st x)
      (base + 1) PState.fulfilled Val.undefined) b (fun pr => { pr with handlers := [] }) := by
    simp only [runMicrotask, hh0, List.foldl_cons, List.foldl_nil]
    rw [← e]; rfl
  obtain ⟨u1, u2, u3, u4, u5, u6⟩ := update_plain_fields
    { W with invoked := W.invoked ++
      [(handlerFor st (Val.resolveFn base) (Val.rejectFn base), x)] } base st x
    (by show base < W.heap.length; omega) (by simpa using hpend 0 (by omega)) hst hx
  obtain ⟨v1, v2, v3, v4, v5, v6⟩ := update_plain_fields _ (base + 1) PState.fulfilled
    Val.undefined (by rw [u6]; show base + 1 < W.heap.length; omega)
    (by rw [(u5 (base + 1) (by omega)).1]; simpa using hpend 1 (by omega)) (by simp) rfl
  have hst2 : ∀ i, i ≠ base → i ≠ base + 1 → stateOf (runMicrotask funs W b) i = stateOf W i := by
    intro i h1 h2
    rw [e1, stateOf_clear, (v5 i h2).1, (u5 i h1).1]; rfl
  have hh2 : ∀ i, handlersOf (runMicrotask funs W b) i = if i = b then [] else handlersOf W i := by
    intro i
    rw [e1, handlersOf_clear, v4, u4]
    by_cases h : b = i
    · subst h; simp
    · have h' : ¬ i = b := fun hh => h hh.symm
      simp [h, h']
  have hnb : ∀ k, chainNode b base (k + 1) ≠ b := fun k => by
    simp only [chainNode]; omega
  refine ⟨⟨by omega, ?_, ?_, ?_, ?_, ?_⟩, ?_, ?_, ?_, hh2⟩
  · rw [e1]; simp only [modifyPromise, List.length_modify]; rw [v6, u6]
    show base + 2 + 2 * d ≤ W.heap.length; omega
  · intro i hi
    rw [chainNode_shift b base i, hh2, if_neg (hnb i),
      hH (i + 1) (by omega)]
    rw [show base + 2 * (i + 1) = base + 2 + 2 * i by omega]
  · rw [chainNode_shift b base d, hh2,
      if_neg (hnb d), hlast]
  · intro j hj
    rw [hst2 _ (by omega) (by omega)]
    have := hpend (j + 2) (by omega)
    rw [show base + 2 + j = base + (j + 2) by omega]
    exact this
  · intro i hi
    rw [hh2, if_neg (by omega)]
    have := hodd (i + 1) (by omega)
    rw [show base + 2 + 2 * i + 1 = base + 2 * (i + 1) + 1 by omega]
    exact this
  · rw [e1, stateOf_clear, (v5 base (by omega)).1]; exact u1
  · rw [e1, valueOf_clear, (v5 base (by omega)).2]; exact u2
  · rw [e1]; simp only [queue_modifyPromise]; rw [v3, u3]; simp

/-- Units queued for instances without reactions do nothing. -/
theorem runAll_idle_list (funs : FunTable) (rest : List Nat) (n : Nat) (idle : List Nat) :
    ∀ W : World, W.queue = idle ++ rest → (∀ i ∈ idle, handlersOf W i = []) →
      runAll funs (n + idle.length) W = runAll funs n { W with queue := rest } := by
  induction idle with
  | nil =>
    intro W hq _
    have : ({ W with queue := rest } : World) = W := by
      simp only [List.nil_append] at hq
      rw [← hq]
    rw [this]; rfl
  | cons a idle ih =>
    intro W hq hh
    have ha : handlersOf W a = [] := hh a (List.mem_cons_self _ _)
    rw [List.length_cons, ← Nat.add_assoc,
      runAll_queue_cons funs (n + idle.length) W a (idle ++ rest) (by rw [hq]; rfl),
      runMicrotask_no_handlers _ _ _ (by simpa using ha), clear_eq_self _ _ (by simpa using ha),
      ih _ rfl (fun i hi => by simpa using hh i (List.mem_cons_of_mem _ hi))]

/-- Running the queue over a chain whose innermost node `b` is settled: the
outermost node ends in the state of `b` with the outcome of `b`, and the queue
is empty after one unit per queued entry and two per adoption. -/
theorem runAll_chain (funs : FunTable) (st : PState) (x : Val) (hst : st ≠ PState.pending)
    (hx : isPromise x = false) (n : Nat) (d : Nat) :
    ∀ (W : World) (b base : Nat) (idle : List Nat), Built W b base d →
      stateOf W b = st → valueOf W b = x → W.queue = b :: idle →
      (∀ i ∈ idle, i = b ∨ handlersOf W i = []) →
      stateOf (runAll funs (n + (1 + idle.length + 2 * d)) W) (chainNode b base d) = st ∧
      valueOf (runAll funs (n + (1 + idle.length + 2 * d)) W) (chainNode b base d) = x ∧
      (runAll funs (n + (1 + idle.length + 2 * d)) W).queue = [] := by
  induction d with
  | zero =>
    intro W b base idle hB hs hv hq hidle
    have hb0 : handlersOf W b = [] := hB.2.2.2.1
    have := runAll_idle_list funs [] n (b :: idle) W (by rw [hq]; simp)
      (fun i hi => by
        rcases List.mem_cons.mp hi with h | h
        · rw [h]; exact hb0
        · rcases hidle i h with h' | h'
          · rw [h']; exact hb0
          · exact h')
    rw [show n + (1 + idle.length + 2 * 0) = n + (b :: idle).length by
      simp only [List.length_cons]; omega, this, runAll_queue_nil _ _ _ rfl]
    exact ⟨by simpa [chainNode] using hs, by simpa [chainNode] using hv, rfl⟩
  | succ d ih =>
    intro W b base idle hB hs hv hq hidle
    have hB' : Built { W with queue := idle } b base (d + 1) := hB
    obtain ⟨c1, c2, c3, c4, c5⟩ := runMicrotask_chain funs { W with queue := idle } b base d
      st x hB' hs hv hst hx
    have hodd0 : handlersOf W (base + 1) = [] := by
      have := hB.2.2.2.2.2 0 (by omega)
      simpa using this
    have hbb : b < base := hB.1
    rw [show n + (1 + idle.length + 2 * (d + 1)) = (n + (1 + 1 + 2 * d) + idle.length) + 1 by
      omega, runAll_queue_cons funs _ W b idle hq,
      runAll_idle_list funs [base, base + 1] _ idle _ c4 (fun i hi => by
        rw [c5]
        split
        · rfl
        · rename_i hne
          rcases hidle i hi with h | h
          · exact absurd h hne
          · exact h)]
    have hB3 : Built { runMicrotask funs { W with queue := idle } b with
        queue := [base, base + 1] } base (base + 2) d := c1
    have := ih _ base (base + 2) [base + 1] hB3 c2 c3 rfl (fun i hi => by
      right
      rw [List.mem_singleton] at hi
      subst hi
      show handlersOf (runMicrotask funs { W with queue := idle } b) (base + 1) = []
      rw [c5, if_neg (by omega)]
      exact hodd0)
    rw [chainNode_shift b base d] at this
    exact this

theorem Built_of_agree (W W' : World) (b base d : Nat) (hB : Built W b base d)
    (hlen : W'.heap.length = W.heap.length)
    (hh : ∀ i, handlersOf W' i = handlersOf W i)
    (hs : ∀ i, i ≠ b → stateOf W' i = stateOf W i) : Built W' b base d := by
  obtain ⟨hb, h1, h2, h3, h4, h5⟩ := hB
  refine ⟨hb, by rw [hlen]; exact h1, ?_, ?_, ?_, ?_⟩
  · intro i hi; rw [hh]; exact h2 i hi
  · rw [hh]; exact h3
  · intro j hj; rw [hs _ (by omega)]; exact h4 j hj
  · intro i hi; rw [hh]; exact h5 i hi

theorem Built_zero (w : World) (b : Nat) (hb : b < w.heap.length) (hh : handlersOf w b = []) :
    Built w b w.heap.length 0 :=
  ⟨hb, Nat.le_refl _, fun _ hi => absurd hi (Nat.not_lt_zero _), hh,
    fun _ hj => absurd hj (by omega), fun _ hi => absurd hi (Nat.not_lt_zero _)⟩

/-- Adoption through a chain, innermost instance pending when the chain is
built and settled afterwards. -/
theorem adoptChain_pending_then_settled (funs : FunTable) (w : World) (b : Nat)
    (caps : List PState) (st : PState) (x : Val) (n : Nat)
    (hb : b < w.heap.length) (hh : handlersOf w b = []) (hst : st ≠ PState.pending)
    (hx : isPromise x = false) (hs : stateOf w b = PState.pending) (hq : w.queue = []) :
    stateOf (runAll funs (n + (1 + 2 * caps.length)) (update (adoptChain w b caps).2 b st x))
      (adoptChain w b caps).1 = st ∧
    valueOf (runAll funs (n + (1 + 2 * caps.length)) (update (adoptChain w b caps).2 b st x))
      (adoptChain w b caps).1 = x ∧
    (runAll funs (n + (1 + 2 * caps.length))
      (update (adoptChain w b caps).2 b st x)).queue = [] := by
  obtain ⟨g1, g2, g3, g4, _, g6, _, _⟩ := adoptChain_Built b w.heap.length caps w 0
    (Built_zero w b hb hh) rfl hs
  simp only [Nat.zero_add] at g1 g2 g3
  have hc : chainNode b w.heap.length 0 = b := rfl
  rw [hc] at g1 g2 g3 g4 g6
  obtain ⟨u1, u2, u3, u4, u5, u6⟩ := update_plain_fields (adoptChain w b caps).2 b st x
    (by omega) (by rw [g4]; exact hs) hst hx
  have hB := Built_of_agree _ _ b w.heap.length caps.length g2 u6 u4 (fun i hi => (u5 i hi).1)
  have := runAll_chain funs st x hst hx n caps.length _ b w.heap.length [] hB u1 u2
    (by rw [u3, g6, hq]; rfl) (fun i hi => absurd hi (List.not_mem_nil _))
  rw [g1]
  simpa using this

/-- Adoption through a chain whose innermost instance is already settled when
the chain is built, with `k` units of its own still queued. -/
theorem adoptChain_already_settled (funs : FunTable) (w : World) (b : Nat)
    (cap : PState) (rest : List PState) (st : PState) (x : Val) (n k : Nat)
    (hb : b < w.heap.length) (hh : handlersOf w b = []) (hst : st ≠ PState.pending)
    (hx : isPromise x = false) (hs : stateOf w b = st) (hv : valueOf w b = x)
    (hq : w.queue = List.replicate k b) :
    stateOf (runAll funs (n + (1 + k + 2 * (cap :: rest).length)) (adoptChain w b (cap :: rest)).2)
      (adoptChain w b (cap :: rest)).1 = st ∧
    valueOf (runAll funs (n + (1 + k + 2 * (cap :: rest).length)) (adoptChain w b (cap :: rest)).2)
      (adoptChain w b (cap :: rest)).1 = x ∧
    (runAll funs (n + (1 + k + 2 * (cap :: rest).length))
      (adoptChain w b (cap :: rest)).2).queue = [] := by
  have hB1 : Built (settledWith w cap (Val.promise b)).2 b w.heap.length 1 :=
    Built_step w cap b w.heap.length 0 (Built_zero w b hb hh) rfl
  obtain ⟨f1, f2, f3, f4, _, f6, _, _⟩ := settledWith_promise_fields w cap b hb
  have hnode : (settledWith w cap (Val.promise b)).1 = chainNode b w.heap.length 1 := f1
  obtain ⟨g1, g2, g3, g4, g5, g6, _, _⟩ := adoptChain_Built b w.heap.length rest
    (settledWith w cap (Val.promise b)).2 1 hB1 (by rw [f2])
    (by rw [f3]; exact (stateOf_unallocated w _ (Nat.le_refl _)).1)
  rw [← hnode] at g1 g2 g3 g4 g5 g6
  have hq2 : (adoptChain w b (cap :: rest)).2.queue = b :: List.replicate k b := by
    simp only [adoptChain]
    rw [g6, f6, if_neg (by rw [hs]; exact hst), hq, replicate_append_singleton]
  have := runAll_chain funs st x hst hx n (1 + rest.length) (adoptChain w b (cap :: rest)).2 b
    w.heap.length (List.replicate k b) g2 (by simp only [adoptChain]; rw [g4, f3, hs])
    (by simp only [adoptChain]; rw [g5, f4, hv]) hq2
    (fun i hi => Or.inl (List.eq_of_mem_replicate hi))
  have hlen : (cap :: rest).length = 1 + rest.length := by
    simp only [List.length_cons]; omega
  rw [hlen]
  have hout : (adoptChain w b (cap :: rest)).1 = chainNode b w.heap.length (1 + rest.length) := g1
  rw [hout]
  simpa using this

/-- Adoption registered outside the delivery units of `b`: a chain of
nested instances of any depth around an allocated instance `b` without
reactions: `cap :: rest` lists, from the inside out, the capability (`resolve` or `reject`)
through which each new instance is settled with the instance made just before
it. Whether `b` is pending when the chain is built (empty queue) and settled
with the value `x` (not an instance) in state `st` afterwards, or is already
settled so, with `k` units of its own still queued, running the queue (one unit
per queued entry and two per adoption suffice, and the queue is then empty)
leaves the outermost instance in state `st` with outcome `x`: fulfilled with
`x` if the chain ends in fulfilment, rejected with `x` if it ends in rejection,
and never holding an instance as outcome. -/
theorem nested_adoption_reaches_inner_outcome (funs : FunTable) (w : World) (b : Nat)
    (cap : PState) (rest : List PState) (st : PState) (x : Val) (n k : Nat)
    (hb : b < w.heap.length) (hh : handlersOf w b = []) (hst : st ≠ PState.pending)
    (hx : isPromise x = false) :
    (stateOf w b = PState.pending → w.queue = [] →
      ∀ W, W = runAll funs (n + (1 + 2 * (cap :: rest).length))
          (update (adoptChain w b (cap :: rest)).2 b st x) →
        stateOf W (adoptChain w b (cap :: rest)).1 = st ∧
        valueOf W (adoptChain w b (cap :: rest)).1 = x ∧
        valueOf W (adoptChain w b (cap :: rest)).1 ≠ Val.promise b ∧ W.queue = []) ∧
    (stateOf w b = st → valueOf w b = x → w.queue = List.replicate k b →
      ∀ W, W = runAll funs (n + (1 + k + 2 * (cap :: rest).length))
          (adoptChain w b (cap :: rest)).2 →
        stateOf W (adoptChain w b (cap :: rest)).1 = st ∧
        valueOf W (adoptChain w b (cap :: rest)).1 = x ∧
        valueOf W (adoptChain w b (cap :: rest)).1 ≠ Val.promise b ∧ W.queue = []) := by
  have hxb : x ≠ Val.promise b := by
    intro h; rw [h] at hx; simp [isPromise] at hx
  constructor
  · intro hs hq W hW
    subst hW
    obtain ⟨a1, a2, a3⟩ := adoptChain_pending_then_settled funs w b (cap :: rest) st x n
      hb hh hst hx hs hq
    exact ⟨a1, a2, by rw [a2]; exact hxb, a3⟩
  · intro hs hv hq W hW
    subst hW
    obtain ⟨a1, a2, a3⟩ := adoptChain_already_settled funs w b cap rest st x n k
      hb hh hst hx hs hv hq
    exact ⟨a1, a2, by rw [a2]; exact hxb, a3⟩

/-- A chain of depth two: `B` pending, `o1 = new CustomPromise(res => res(B))`,
`o2 = new CustomPromise((_, rej) => rej(o1))`, then `B` fulfilled with `"X"`:
after five units `o2` (instance `3`) is fulfilled with `"X"`. -/
theorem nested_adoption_reaches_inner_outcome_witness :
    stateOf (runAll exampleFuns 5 (update (adoptChain
      (construct World.empty (fun _ => Code.ret Val.undefined)).2 0
      [PState.fulfilled, PState.rejected]).2 0 PState.fulfilled (Val.str "X"))) 3
      = PState.fulfilled ∧
    valueOf (runAll exampleFuns 5 (update (adoptChain
      (construct World.empty (fun _ => Code.ret Val.undefined)).2 0
      [PState.fulfilled, PState.rejected]).2 0 PState.fulfilled (Val.str "X"))) 3
      = Val.str "X" :=
  have h := (nested_adoption_reaches_inner_outcome exampleFuns
    (construct World.empty (fun _ => Code.ret Val.undefined)).2 0
    PState.fulfilled [PState.rejected] PState.fulfilled (Val.str "X") 0 0
    (by decide) (by decide) (by decide) (by decide)).1 (by decide) (by decide) _ rfl
  ⟨h.1, h.2.1⟩

/-! ## Relations closed under the elementary steps -/

theorem StepClosed.exec {R : World → World → Prop} (hR : StepClosed R) (c : Code) :
    ∀ w : World, R w (exec c w).2 := by
  induction c with
  | ret v => intro w; exact hR.hRefl w
  | throw v => intro w; exact hR.hRefl w
  | log v k ih => intro w; exact hR.hTrans _ _ _ (hR.hLog w v) (ih _)
  | resolve p v k ih => intro w; exact hR.hTrans _ _ _ (hR.hUpdate w p _ v) (ih _)
  | reject p v k ih => intro w; exact hR.hTrans _ _ _ (hR.hUpdate w p _ v) (ih _)
  | thenCall p f g k ih =>
    intro w
    cases p <;> simp only [CustomPromise.exec] <;> first
      | exact hR.hRefl w
      | exact hR.hTrans _ _ _ (hR.hThen w _ f g) (ih _ _)
  | catchCall p g k ih =>
    intro w
    cases p <;> simp only [CustomPromise.exec] <;> first
      | exact hR.hRefl w
      | exact hR.hTrans _ _ _ (hR.hThen w _ _ g) (ih _ _)
  | finallyCall p cb k ih =>
    intro w
    cases p <;> simp only [CustomPromise.exec] <;> first
      | exact hR.hRefl w
      | exact hR.hTrans _ _ _ (hR.hThen w _ _ _) (ih _ _)
  | construct ex k ihe ihk =>
    intro w
    simp only [CustomPromise.exec]
    have h1 := hR.hTrans _ _ _ (hR.hAlloc w) (ihe w.heap.length _)
    split
    · exact hR.hTrans _ _ _ h1 (ihk _ _)
    · exact hR.hTrans _ _ _ (hR.hTrans _ _ _ h1 (hR.hUpdate _ _ _ _)) (ihk _ _)

theorem StepClosed.invoke {R : World → World → Prop} (hR : StepClosed R) (funs : FunTable)
    (h : Val) : ∀ (arg : Val) (w : World), R w (invoke funs h arg w).2 := by
  induction h with
  | resolveFn p => intro arg w; exact hR.hUpdate w p _ arg
  | rejectFn p => intro arg w; exact hR.hUpdate w p _ arg
  | fn i => intro arg w; exact hR.exec _ w
  | finallyFulfilled cb ih =>
    intro arg w
    have := ih Val.undefined w
    simp only [CustomPromise.invoke]
    split <;> rename_i heq <;> rw [heq] at this <;> exact this
  | finallyRejected cb ih =>
    intro arg w
    have := ih Val.undefined w
    simp only [CustomPromise.invoke]
    split <;> rename_i heq <;> rw [heq] at this <;> exact this
  | _ => intros; exact hR.hRefl _

theorem StepClosed.invokeCallback {R : World → World → Prop} (hR : StepClosed R)
    (funs : FunTable) (f : Val) (p : Nat) (w : World) :
    R w (invokeCallback funs f (valueOf w p) w).2 := by
  unfold CustomPromise.invokeCallback
  split
  · exact hR.hTrans _ _ _ (hR.hInvoked w f p) (hR.invoke funs f _ _)
  · exact hR.invoke funs f _ _

theorem StepClosed.tryReaction {R : World → World → Prop} (hR : StepClosed R)
    (funs : FunTable) (p : Nat) (r : Reaction) (w : World) :
    R w (tryReaction funs w p r).2 := by
  unfold CustomPromise.tryReaction
  split
  · split
    · have h := hR.invokeCallback funs r.onFulfilled p w
      split <;> rename_i heq <;> rw [heq] at h
      · exact hR.hTrans _ _ _ h (hR.invoke funs _ _ _)
      · exact h
    · exact hR.invoke funs _ _ _
  · split
    · have h := hR.invokeCallback funs r.onRejected p w
      split <;> rename_i heq <;> rw [heq] at h
      · exact hR.hTrans _ _ _ h (hR.invoke funs _ _ _)
      · exact h
    · exact hR.invoke funs _ _ _
  · exact hR.hRefl w

theorem StepClosed.processReaction {R : World → World → Prop} (hR : StepClosed R)
    (funs : FunTable) (p : Nat) (r : Reaction) (w : World) :
    R w (processReaction funs p w r) := by
  have h := hR.tryReaction funs p r w
  unfold CustomPromise.processReaction
  split <;> rename_i heq <;> rw [heq] at h
  · exact h
  · exact hR.hTrans _ _ _ h (hR.invoke funs _ _ _)

theorem StepClosed.foldl {R : World → World → Prop} (hR : StepClosed R)
    (funs : FunTable) (p : Nat) (rs : List Reaction) :
    ∀ w : World, R w (rs.foldl (CustomPromise.processReaction funs p) w) := by
  induction rs with
  | nil => intro w; exact hR.hRefl w
  | cons r rs ih =>
    intro w
    exact hR.hTrans _ _ _ (hR.processReaction funs p r w) (ih _)

theorem StepClosed.runMicrotask {R : World → World → Prop} (hR : StepClosed R)
    (funs : FunTable) (p : Nat) (w : World) : R w (runMicrotask funs w p) :=
  hR.hTrans _ _ _ (hR.foldl funs p _ w) (hR.hClear _ p)

theorem StepClosed.step {R : World → World → Prop} (hR : StepClosed R)
    (funs : FunTable) (w : World) : R w (step funs w) := by
  unfold CustomPromise.step
  split
  · exact hR.hRefl w
  · exact hR.hTrans _ _ _ (hR.hQueue w _) (hR.runMicrotask funs _ _)

theorem StepClosed.runAll {R : World → World → Prop} (hR : StepClosed R)
    (funs : FunTable) (n : Nat) : ∀ w : World, R w (runAll funs n w) := by
  induction n with
  | zero => intro w; exact hR.hRefl w
  | succ n ih =>
    intro w
    unfold CustomPromise.runAll
    split
    · exact hR.hRefl w
    · exact hR.hTrans _ _ _ (hR.step funs w) (ih _)

theorem StepClosed.construct {R : World → World → Prop} (hR : StepClosed R)
    (ex : Nat → Code) (w : World) : R w (construct w ex).2 := by
  unfold CustomPromise.construct
  have h1 := hR.hTrans _ _ _ (hR.hAlloc w) (hR.exec (ex w.heap.length) _)
  simp only
  split
  · exact h1
  · exact hR.hTrans _ _ _ h1 (hR.hUpdate _ _ _ _)

/-- The three ways `#update` can go. -/
theorem update_cases (w : World) (p : Nat) (st : PState) (v : Val) :
    update w p st v = w ∨
    (∃ b, update w p st v = (then_ w b (Val.resolveFn p) (Val.rejectFn p)).2) ∨
    (stateOf w p = PState.pending ∧ isPromise v = false ∧
      update w p st v = runHandlers (modifyPromise w p (fun pr =>
        { pr with state := st, value := v })) p) := by
  by_cases hs : stateOf w p = PState.pending
  · by_cases hv : isPromise v = false
    · exact Or.inr (Or.inr ⟨hs, hv, update_of_pending w p st v hs hv⟩)
    · cases v <;> simp [isPromise] at hv
      exact Or.inr (Or.inl ⟨_, update_promise w p _ st hs⟩)
  · exact Or.inl (update_of_settled w p st v hs)

/-- The heap never shrinks. -/
theorem stepClosed_heapLength :
    StepClosed (fun w w' => w.heap.length ≤ w'.heap.length) where
  hRefl := fun _ => Nat.le_refl _
  hTrans := fun _ _ _ h1 h2 => Nat.le_trans h1 h2
  hLog := fun _ _ => Nat.le_refl _
  hAlloc := fun w => by simp
  hUpdate := fun w p st v => by
    rcases update_cases w p st v with h | ⟨b, h⟩ | ⟨_, _, h⟩ <;> rw [h]
    · simp
    · simp [modifyPromise]
  hThen := fun w p f g => by simp
  hInvoked := fun _ _ _ => Nat.le_refl _
  hQueue := fun _ _ => Nat.le_refl _
  hClear := fun w p => by simp [modifyPromise]

/-- A terminal state and its outcome never change. -/
theorem stepClosed_stable :
    StepClosed (fun w w' => ∀ i, stateOf w i ≠ PState.pending →
      stateOf w' i = stateOf w i ∧ valueOf w' i = valueOf w i) where
  hRefl := fun _ _ _ => ⟨rfl, rfl⟩
  hTrans := fun a b c h1 h2 i hi => by
    obtain ⟨s1, v1⟩ := h1 i hi
    obtain ⟨s2, v2⟩ := h2 i (by rw [s1]; exact hi)
    exact ⟨s2.trans s1, v2.trans v1⟩
  hLog := fun _ _ _ _ => ⟨rfl, rfl⟩
  hAlloc := fun w i _ => ⟨(alloc_fields w i).1, (alloc_fields w i).2.1⟩
  hUpdate := fun w p st v i hi => by
    rcases update_cases w p st v with h | ⟨b, h⟩ | ⟨hp, _, h⟩ <;> rw [h]
    · exact ⟨rfl, rfl⟩
    · exact ⟨stateOf_then_ _ _ _ _ _, valueOf_then_ _ _ _ _ _⟩
    · have hne : ¬ p = i := fun hh => hi (hh ▸ hp)
      simp [stateOf_modifyPromise, valueOf_modifyPromise, hne]
  hThen := fun w p f g i _ => ⟨stateOf_then_ _ _ _ _ _, valueOf_then_ _ _ _ _ _⟩
  hInvoked := fun _ _ _ _ _ => ⟨rfl, rfl⟩
  hQueue := fun _ _ _ _ => ⟨rfl, rfl⟩
  hClear := fun w p i _ => ⟨stateOf_clear w p i, valueOf_clear w p i⟩

theorem stepClosed_noPromiseOutcome :
    StepClosed (fun w w' => NoPromiseOutcome w → NoPromiseOutcome w') where
  hRefl := fun _ h => h
  hTrans := fun _ _ _ h1 h2 h => h2 (h1 h)
  hLog := fun _ _ h => h
  hAlloc := fun w h => ⟨fun i => by rw [(alloc_fields w i).2.1]; exact h.1 i, h.2⟩
  hUpdate := fun w p st v h => by
    rcases update_cases w p st v with e | ⟨b, e⟩ | ⟨_, hv, e⟩ <;> rw [e]
    · exact h
    · exact ⟨fun i => by rw [valueOf_then_]; exact h.1 i, by rw [invoked_then_]; exact h.2⟩
    · refine ⟨fun i => ?_, by simpa [modifyPromise] using h.2⟩
      rw [valueOf_runHandlers, valueOf_modifyPromise]
      split
      · split
        · exact hv
        · rfl
      · exact h.1 i
  hThen := fun w p f g h =>
    ⟨fun i => by rw [valueOf_then_]; exact h.1 i, by rw [invoked_then_]; exact h.2⟩
  hInvoked := fun w f p h => ⟨h.1, fun c hc => by
    rcases List.mem_append.mp hc with h1 | h1
    · exact h.2 c h1
    · rw [List.mem_singleton.mp h1]; exact h.1 p⟩
  hQueue := fun _ _ h => h
  hClear := fun w p h => ⟨fun i => by rw [valueOf_clear]; exact h.1 i, h.2⟩

/-- C19: in every reachable state no stored outcome (`#value`) is a
`CustomPromise` instance, whichever capability settled the instance and
whatever the callbacks returned or raised, and every reaction callback
(`onFulfilled`, `onRejected`, the two wrappers of `finally`, which forward
their argument) was called with a value that is not an instance. -/
theorem outcome_is_never_an_instance (funs : FunTable) (w : World)
    (h : Reachable funs w) : NoPromiseOutcome w := by
  induction h with
  | init => exact ⟨fun _ => rfl, fun _ hc => absurd hc (List.not_mem_nil _)⟩
  | task w c _ ih => exact stepClosed_noPromiseOutcome.exec c w ih
  | unit w _ ih => exact stepClosed_noPromiseOutcome.step funs w ih

/-- C19 at `exampleRejectWithPromise` followed by one delivery unit:
the instance whose executor called `reject` with an instance holds no instance as
outcome. -/
theorem outcome_is_never_an_instance_witness :
    NoPromiseOutcome (step exampleFuns (exec exampleRejectWithPromise World.empty).2) :=
  outcome_is_never_an_instance exampleFuns _
    (Reachable.unit _ (Reachable.task _ exampleRejectWithPromise Reachable.init))

/-- Running the body with `reject(e)` in place of each raise: same state as
running the body and, if it raised `e`, calling `reject(e)` at that point. -/
theorem exec_rejectAtThrow (q : Nat) (c : Code) :
    ∀ w : World, exec (rejectAtThrow q c) w =
      match exec c w with
      | (Except.ok v, w1) => (Except.ok v, w1)
      | (Except.error e, w1) => (Except.ok Val.undefined, update w1 q PState.rejected e) := by
  induction c with
  | ret v => intro w; rfl
  | throw v => intro w; rfl
  | log v k ih => intro w; simp only [rejectAtThrow, exec]; exact ih _
  | resolve p v k ih => intro w; simp only [rejectAtThrow, exec]; exact ih _
  | reject p v k ih => intro w; simp only [rejectAtThrow, exec]; exact ih _
  | thenCall p f g k ih =>
    intro w
    cases p <;> simp only [rejectAtThrow, exec]
    exact ih _ _
  | catchCall p g k ih =>
    intro w
    cases p <;> simp only [rejectAtThrow, exec]
    exact ih _ _
  | finallyCall p cb k ih =>
    intro w
    cases p <;> simp only [rejectAtThrow, exec]
    exact ih _ _
  | construct ex k _ ihk =>
    intro w
    simp only [rejectAtThrow, exec]
    split
    · exact ihk _ _
    · exact ihk _ _

/-- C11: `new CustomPromise(executor)` never raises (the script goes on with
the new instance), and it yields the same instance and the same state as the
executor in which every raise of an error `e` is replaced by `reject(e)` and a
normal return.  In particular, when the executor raises the error value `e`
(not an instance) while the new instance is still pending, the new instance is
rejected with `e`. -/
theorem executor_failure_is_rejection (w : World) (ex : Nat → Code) :
    (∀ k : Val → Code, exec (Code.construct ex k) w =
      exec (k (Val.promise (construct w ex).1)) (construct w ex).2) ∧
    construct w ex = construct w (fun q => rejectAtThrow q (ex q)) ∧
    (∀ (e : Val) (w1 : World),
      exec (ex w.heap.length) { w with heap := w.heap ++ [Promise.fresh] } =
        (Except.error e, w1) →
      (construct w ex).2 = update w1 w.heap.length PState.rejected e ∧
      (stateOf w1 w.heap.length = PState.pending → isPromise e = false →
        stateOf (construct w ex).2 (construct w ex).1 = PState.rejected ∧
        valueOf (construct w ex).2 (construct w ex).1 = e)) := by
  refine ⟨?_, ?_, ?_⟩
  · intro k
    simp only [exec, construct]
    split <;> rename_i heq <;> simp only [heq]
  · simp only [construct, exec_rejectAtThrow]
    cases hr : exec (ex w.heap.length) { w with heap := w.heap ++ [Promise.fresh] } with
    | mk r w1 => cases r <;> rfl
  · intro e w1 he
    have hc : construct w ex = (w.heap.length, update w1 w.heap.length PState.rejected e) := by
      simp only [construct, he]
    refine ⟨by rw [hc], ?_⟩
    intro hs hv
    have hlen : w.heap.length < w1.heap.length := by
      have := stepClosed_heapLength.exec (ex w.heap.length)
        { w with heap := w.heap ++ [Promise.fresh] }
      rw [he] at this
      simp at this
      omega
    rw [hc]
    obtain ⟨u1, u2, _⟩ := update_plain_fields w1 w.heap.length PState.rejected e hlen hs
      (by simp) hv
    exact ⟨u1, u2⟩

/-- C11 at `new CustomPromise(() => { throw new Error("boom") })`: the
new instance is rejected with the error. -/
theorem executor_failure_is_rejection_witness :
    stateOf (construct World.empty (fun _ => Code.throw (Val.error "boom"))).2 0
      = PState.rejected ∧
    valueOf (construct World.empty (fun _ => Code.throw (Val.error "boom"))).2 0
      = Val.error "boom" :=
  ((executor_failure_is_rejection World.empty
    (fun _ => Code.throw (Val.error "boom"))).2.2 (Val.error "boom") _ rfl).2
    (by decide) (by decide)

/-! ## `finally` -/

theorem staticResolve_eq (w : World) (v : Val) :
    staticResolve w v = (w.heap.length,
      update { w with heap := w.heap ++ [Promise.fresh] } w.heap.length PState.fulfilled v) :=
  rfl

theorem staticReject_eq (w : World) (v : Val) :
    staticReject w v = (w.heap.length,
      update { w with heap := w.heap ++ [Promise.fresh] } w.heap.length PState.rejected v) :=
  rfl

/-- Fields of a fresh instance settled at once with a value that is not
an instance. -/
theorem alloc_update_plain_fields (w : World) (st : PState) (v : Val)
    (hst : st ≠ PState.pending) (hv : isPromise v = false) :
    stateOf (update { w with heap := w.heap ++ [Promise.fresh] } w.heap.length st v)
      w.heap.length = st ∧
    valueOf (update { w with heap := w.heap ++ [Promise.fresh] } w.heap.length st v)
      w.heap.length = v ∧
    handlersOf (update { w with heap := w.heap ++ [Promise.fresh] } w.heap.length st v)
      w.heap.length = [] ∧
    (update { w with heap := w.heap ++ [Promise.fresh] } w.heap.length st v).queue
      = w.queue ++ [w.heap.length] ∧
    (update { w with heap := w.heap ++ [Promise.fresh] } w.heap.length st v).heap.length
      = w.heap.length + 1 ∧
    (update { w with heap := w.heap ++ [Promise.fresh] } w.heap.length st v).log = w.log ∧
    (update { w with heap := w.heap ++ [Promise.fresh] } w.heap.length st v).invoked
      = w.invoked := by
  have hun := stateOf_unallocated w w.heap.length (Nat.le_refl _)
  obtain ⟨u1, u2, u3, u4, _, u6⟩ := update_plain_fields
    { w with heap := w.heap ++ [Promise.fresh] } w.heap.length st v (by simp)
    (by rw [(alloc_fields w _).1]; exact hun.1) hst hv
  have uf := update_frame { w with heap := w.heap ++ [Promise.fresh] } w.heap.length st v
  refine ⟨u1, u2, ?_, u3, by rw [u6]; simp, uf.1, uf.2.1⟩
  rw [u4, (alloc_fields w _).2.2]; exact hun.2.2

/-- Delivery to a single reaction whose handler for the state of `p` is a
function that returns or raises `y` and only writes `l` to the console, with
`k` further units of `p` queued: the downstream instance `q` is fulfilled with
`y` if the handler returned it and rejected with `y` if the handler raised it. -/
theorem deliver_single_effect (funs : FunTable) (W : World) (p q : Nat) (f g x y : Val)
    (l : List Val) (st st' : PState) (res : Except Val Val) (n k : Nat)
    (hqueue : W.queue = p :: List.replicate k p)
    (hh : handlersOf W p = [⟨f, g, Val.resolveFn q, Val.rejectFn q⟩])
    (hs : stateOf W p = st) (hv : valueOf W p = x) (hst : st ≠ PState.pending)
    (hne : q ≠ p) (hq : q < W.heap.length) (hqs : stateOf W q = PState.pending)
    (hqh : handlersOf W q = [])
    (hc : callable (handlerFor st f g) = true) (hy : isPromise y = false)
    (hres : (res = Except.ok y ∧ st' = PState.fulfilled) ∨
      (res = Except.error y ∧ st' = PState.rejected))
    (hinv : ∀ V : World, invoke funs (handlerFor st f g) x V =
      (res, { V with log := V.log ++ l })) :
    (runAll funs (k + 2 + n) W).invoked = W.invoked ++ [(handlerFor st f g, x)] ∧
    (runAll funs (k + 2 + n) W).log = W.log ++ l ∧
    (runAll funs (k + 2 + n) W).queue = [] ∧
    stateOf (runAll funs (k + 2 + n) W) q = st' ∧
    valueOf (runAll funs (k + 2 + n) W) q = y := by
  have hfuel : k + 2 + n = (n + 1 + k) + 1 := by omega
  rw [hfuel, runAll_queue_cons funs (n + 1 + k) W p _ hqueue]
  have hst' : st' ≠ PState.pending := by
    rcases hres with ⟨_, h⟩ | ⟨_, h⟩ <;> simp [h]
  have e1 : runMicrotask funs { W with queue := List.replicate k p } p =
      modifyPromise (update (⟨W.heap, List.replicate k p, W.log ++ l,
        W.invoked ++ [(handlerFor st f g, x)]⟩ : World) q st' y) p
        (fun pr => { pr with handlers := [] }) := by
    rcases hres with ⟨h1, h2⟩ | ⟨h1, h2⟩
    · subst h1; subst h2
      have e := processReaction_callable funs { W with queue := List.replicate k p } _ p q f g
        (handlerFor st f g) st (Except.ok y) hs (handlerFor_case st f g hst) hc
        (by rw [valueOf_mk, hv]; exact hinv _)
      simp only at e
      simp only [runMicrotask, handlersOf_mk, hh, List.foldl_cons, List.foldl_nil, e]
    · subst h1; subst h2
      have e := processReaction_callable funs { W with queue := List.replicate k p } _ p q f g
        (handlerFor st f g) st (Except.error y) hs (handlerFor_case st f g hst) hc
        (by rw [valueOf_mk, hv]; exact hinv _)
      simp only at e
      simp only [runMicrotask, handlersOf_mk, hh, List.foldl_cons, List.foldl_nil, e]
  rw [e1]
  obtain ⟨d1, d2, d3, d4, d5, _⟩ := deliver_after_process funs
    (⟨W.heap, List.replicate k p, W.log ++ l,
      W.invoked ++ [(handlerFor st f g, x)]⟩ : World) p q y st' n k rfl hst' hne hq hqs hqh hy
  exact ⟨d4, d5, d3, d1, d2⟩

/-- What the two wrappers of `finally` do with the result of `cb()`: a normal
return of `cb` forwards the outcome `x` in the state of the instance, an error
raised by `cb` replaces it. -/
theorem invoke_finally_handler (funs : FunTable) (cb x : Val) (st : PState)
    (rcb : Except Val Val) (l : List Val) (hst : st ≠ PState.pending)
    (hcb : ∀ V : World, invoke funs cb Val.undefined V = (rcb, { V with log := V.log ++ l })) :
    callable (handlerFor st (Val.finallyFulfilled cb) (Val.finallyRejected cb)) = true ∧
    ∀ V : World, invoke funs (handlerFor st (Val.finallyFulfilled cb) (Val.finallyRejected cb))
      x V =
      (finallyResult st x rcb, { V with log := V.log ++ l }) := by
  cases st with
  | pending => exact absurd rfl hst
  | fulfilled =>
    refine ⟨rfl, fun V => ?_⟩
    simp only [handlerFor, invoke, hcb]
    cases rcb <;> rfl
  | rejected =>
    refine ⟨rfl, fun V => ?_⟩
    simp only [handlerFor, invoke, hcb]
    cases rcb <;> rfl

/-- Delivery of `p.finally(cb)` on a settled instance without reactions and
with `k` units of its own queued, for a `cb` that returns or raises and only
writes `l` to the console. -/
theorem finally_on_settled (funs : FunTable) (w : World) (p : Nat) (cb x y : Val)
    (st st' : PState) (rcb : Except Val Val) (l : List Val) (n k : Nat)
    (hp : p < w.heap.length) (hh : handlersOf w p = []) (hq : w.queue = List.replicate k p)
    (hs : stateOf w p = st) (hv : valueOf w p = x) (hst : st ≠ PState.pending)
    (hy : isPromise y = false)
    (hcb : ∀ V : World, invoke funs cb Val.undefined V = (rcb, { V with log := V.log ++ l }))
    (hres : (∃ r, rcb = Except.ok r ∧ st' = st ∧ y = x) ∨
      (rcb = Except.error y ∧ st' = PState.rejected)) :
    stateOf (runAll funs (k + 2 + n) (finally_ w p cb).2) (finally_ w p cb).1 = st' ∧
    valueOf (runAll funs (k + 2 + n) (finally_ w p cb).2) (finally_ w p cb).1 = y ∧
    (runAll funs (k + 2 + n) (finally_ w p cb).2).log = w.log ++ l ∧
    (runAll funs (k + 2 + n) (finally_ w p cb).2).queue = [] := by
  obtain ⟨s1, s2, s3, s4, s5, s6⟩ := then_on_settled_shape w p (Val.finallyFulfilled cb)
    (Val.finallyRejected cb) k hp hq hh (by rw [hs]; exact hst)
  obtain ⟨hc, hinv⟩ := invoke_finally_handler funs cb x st rcb l hst hcb
  have hres' : (finallyResult st x rcb = Except.ok y ∧ st' = PState.fulfilled) ∨
      (finallyResult st x rcb = Except.error y ∧ st' = PState.rejected) := by
    rcases hres with ⟨r, h1, h2, h3⟩ | ⟨h1, h2⟩
    · subst h1; subst h2; subst h3
      cases st' with
      | pending => exact absurd rfl hst
      | fulfilled => exact Or.inl ⟨rfl, rfl⟩
      | rejected => exact Or.inr ⟨rfl, rfl⟩
    · subst h1; exact Or.inr ⟨rfl, h2⟩
  obtain ⟨_, d2, d3, d4, d5⟩ := deliver_single_effect funs (finally_ w p cb).2 p w.heap.length
    (Val.finallyFulfilled cb) (Val.finallyRejected cb) x y l st st' _ n k s1 s2
    (by rw [finally_, stateOf_then_, hs]) (by rw [finally_, valueOf_then_, hv]) hst s3 s4 s5 s6
    hc hy hres' hinv
  exact ⟨d4, d5, by rw [d2, finally_, log_then_], d3⟩

/-- C13 (amended): `cb` is a function that, called without argument, returns
some value `r` and only writes `l` to the console. Starting from a state with
an empty queue, for every value `v` that is not an instance,
`CustomPromise.resolve(v).finally(cb)` ends fulfilled with `v` and
`CustomPromise.reject(v).finally(cb)` ends rejected with `v`, after three
units, with the queue empty; the console has grown by exactly one run of `cb`,
and the result does not depend on `r`. -/
theorem finally_passes_outcome_through (funs : FunTable) (w : World) (cb v r : Val)
    (l : List Val) (n : Nat) (hq : w.queue = []) (hv : isPromise v = false)
    (hcb : ∀ V : World, invoke funs cb Val.undefined V =
      (Except.ok r, { V with log := V.log ++ l })) :
    (∀ W, W = runAll funs (3 + n)
        (finally_ (staticResolve w v).2 (staticResolve w v).1 cb).2 →
      stateOf W (finally_ (staticResolve w v).2 (staticResolve w v).1 cb).1
        = PState.fulfilled ∧
      valueOf W (finally_ (staticResolve w v).2 (staticResolve w v).1 cb).1 = v ∧
      W.log = w.log ++ l ∧ W.queue = []) ∧
    (∀ W, W = runAll funs (3 + n)
        (finally_ (staticReject w v).2 (staticReject w v).1 cb).2 →
      stateOf W (finally_ (staticReject w v).2 (staticReject w v).1 cb).1
        = PState.rejected ∧
      valueOf W (finally_ (staticReject w v).2 (staticReject w v).1 cb).1 = v ∧
      W.log = w.log ++ l ∧ W.queue = []) := by
  have h3 : 3 + n = 1 + 2 + n := by omega
  constructor
  · intro W hW
    subst hW
    obtain ⟨a1, a2, a3, a4, a5, a6, _⟩ :=
      alloc_update_plain_fields w PState.fulfilled v (by simp) hv
    rw [staticResolve_eq, h3]
    obtain ⟨d1, d2, d3, d4⟩ := finally_on_settled funs _ w.heap.length cb v v
      PState.fulfilled PState.fulfilled (Except.ok r) l n 1 (by rw [a5]; omega) a3
      (by rw [a4, hq]; rfl) a1 a2 (by simp) hv hcb (Or.inl ⟨r, rfl, rfl, rfl⟩)
    exact ⟨d1, d2, by rw [d3, a6], d4⟩
  · intro W hW
    subst hW
    obtain ⟨a1, a2, a3, a4, a5, a6, _⟩ :=
      alloc_update_plain_fields w PState.rejected v (by simp) hv
    rw [staticReject_eq, h3]
    obtain ⟨d1, d2, d3, d4⟩ := finally_on_settled funs _ w.heap.length cb v v
      PState.rejected PState.rejected (Except.ok r) l n 1 (by rw [a5]; omega) a3
      (by rw [a4, hq]; rfl) a1 a2 (by simp) hv hcb (Or.inl ⟨r, rfl, rfl, rfl⟩)
    exact ⟨d1, d2, by rw [d3, a6], d4⟩

/-- C13 (amended) at `CustomPromise.reject(new Error("failed")).finally(f3)`
where `f3` prints `3` and returns `3`: the returned instance (`1`) ends
rejected with the same error, and `3` was printed once. -/
theorem finally_passes_outcome_through_witness :
    stateOf (runAll exampleLogFuns 3 (finally_ (staticReject World.empty
      (Val.error "failed")).2 0 (Val.fn 3)).2) 1 = PState.rejected ∧
    valueOf (runAll exampleLogFuns 3 (finally_ (staticReject World.empty
      (Val.error "failed")).2 0 (Val.fn 3)).2) 1 = Val.error "failed" ∧
    (runAll exampleLogFuns 3 (finally_ (staticReject World.empty
      (Val.error "failed")).2 0 (Val.fn 3)).2).log = [Val.num 3] :=
  have h := (finally_passes_outcome_through exampleLogFuns World.empty (Val.fn 3)
    (Val.error "failed") (Val.num 3) [Val.num 3] 0 rfl rfl (fun _ => rfl)).2 _ rfl
  ⟨h.1, h.2.1, h.2.2.1⟩

/-- The error of a `finally` callback, when `finally` is called outside the
delivery units of `p`: `cb` is a function that, called without argument, raises
the error value `F` (not an instance) and only writes `l` to the console; `p`
is an allocated instance without reactions. Whether `p` is already settled in
any state `st` with any outcome `x` when `finally` is called (with `k` units of
its own still queued) or is pending (empty queue) and settled so afterwards,
running the queue leaves the instance returned by `p.finally(cb)` rejected with
`F`, not with the outcome of `p`, and the queue empty. -/
theorem finally_callback_error_overrides (funs : FunTable) (w : World) (p : Nat)
    (cb x F : Val) (st : PState) (l : List Val) (n k : Nat)
    (hp : p < w.heap.length) (hh : handlersOf w p = []) (hst : st ≠ PState.pending)
    (hx : isPromise x = false) (hF : isPromise F = false)
    (hcb : ∀ V : World, invoke funs cb Val.undefined V =
      (Except.error F, { V with log := V.log ++ l })) :
    (stateOf w p = st → valueOf w p = x → w.queue = List.replicate k p →
      ∀ W, W = runAll funs (k + 2 + n) (finally_ w p cb).2 →
        stateOf W (finally_ w p cb).1 = PState.rejected ∧
        valueOf W (finally_ w p cb).1 = F ∧ W.queue = []) ∧
    (stateOf w p = PState.pending → w.queue = [] →
      ∀ W, W = runAll funs (2 + n) (update (finally_ w p cb).2 p st x) →
        stateOf W (finally_ w p cb).1 = PState.rejected ∧
        valueOf W (finally_ w p cb).1 = F ∧ W.queue = []) := by
  constructor
  · intro hs hv hq W hW
    subst hW
    obtain ⟨d1, d2, _, d4⟩ := finally_on_settled funs w p cb x F st PState.rejected
      (Except.error F) l n k hp hh hq hs hv hst hF hcb (Or.inr ⟨rfl, rfl⟩)
    exact ⟨d1, d2, d4⟩
  · intro hs hq W hW
    subst hW
    obtain ⟨s1, s2, s3, s4, s5, s6, s7, s8, _, _⟩ := then_on_pending_shape w p
      (Val.finallyFulfilled cb) (Val.finallyRejected cb) x st hp hq hh hs hst hx
    obtain ⟨hc, hinv⟩ := invoke_finally_handler funs cb x st (Except.error F) l hst hcb
    obtain ⟨_, _, d3, d4, d5⟩ := deliver_single_effect funs
      (update (finally_ w p cb).2 p st x) p w.heap.length
      (Val.finallyFulfilled cb) (Val.finallyRejected cb) x F l st PState.rejected _ n 0
      s1 s2 s3 s4 hst s5 s6 s7 s8 hc hF (Or.inr ⟨rfl, rfl⟩) hinv
    rw [show 2 + n = 0 + 2 + n by omega]
    exact ⟨d4, d5, d3⟩

/-- The same at `CustomPromise.resolve(5).finally(f0)` where `f0` raises
`Error("boom")`: the returned instance ends rejected with that error. -/
theorem finally_callback_error_overrides_witness :
    stateOf (runAll exampleFuns 3 (finally_ (staticResolve World.empty (Val.num 5)).2 0
      (Val.fn 0)).2) 1 = PState.rejected ∧
    valueOf (runAll exampleFuns 3 (finally_ (staticResolve World.empty (Val.num 5)).2 0
      (Val.fn 0)).2) 1 = Val.error "boom" :=
  have h := (finally_callback_error_overrides exampleFuns
    (staticResolve World.empty (Val.num 5)).2 0 (Val.fn 0) (Val.num 5) (Val.error "boom")
    PState.fulfilled [] 0 1 (by decide) (by decide) (by decide) rfl rfl
    (fun V => by simp [invoke, exampleFuns, exec])).1
    (by decide) (by decide) (by decide) _ rfl
  ⟨h.1, h.2.1⟩

/-! ## Where the code departs from the specification -/

/-- C15: the code at `CustomPromise.reject(b)` for `b = CustomPromise.resolve(1)`
(instance `0`).  `#update` runs its `instanceof` test for the reject capability
too, so the reason is adopted: the instance returned (`1`) is still pending on
return, with no outcome, and after the queue has run it is fulfilled with `1`;
it is never rejected with `b`. -/
theorem static_reject_adopts_instance_reason :
    (staticReject (staticResolve World.empty (Val.num 1)).2 (Val.promise 0)).1 = 1 ∧
    stateOf (staticReject (staticResolve World.empty (Val.num 1)).2 (Val.promise 0)).2 1
      = PState.pending ∧
    valueOf (staticReject (staticResolve World.empty (Val.num 1)).2 (Val.promise 0)).2 1
      = Val.undefined ∧
    stateOf (runAll exampleFuns 4
      (staticReject (staticResolve World.empty (Val.num 1)).2 (Val.promise 0)).2) 1
      = PState.fulfilled ∧
    valueOf (runAll exampleFuns 4
      (staticReject (staticResolve World.empty (Val.num 1)).2 (Val.promise 0)).2) 1
      = Val.num 1 ∧
    (runAll exampleFuns 4
      (staticReject (staticResolve World.empty (Val.num 1)).2 (Val.promise 0)).2).queue
      = [] := by
  decide

/-- C17: the code at `p = CustomPromise.resolve(1); p.then(f0);` where `f0`
is `() => { p.then(f1); }`.  The reaction that `f0` attaches during the
delivery unit of `p` is not visited by the running `forEach`, and the
assignment `this.#handlers = []` after the loop drops it: once the queue has
run to empty, `f1` was never called (the only call in the trace is `f0(1)`,
nothing was printed), `p` has no reaction left, and the instance that the
inner `then` returned (`2`) is still pending. -/
theorem reaction_attached_during_unit_is_dropped :
    (runAll exampleAttachFuns 4
      (then_ (staticResolve World.empty (Val.num 1)).2 0 (Val.fn 0) Val.undefined).2).queue
      = [] ∧
    (runAll exampleAttachFuns 4
      (then_ (staticResolve World.empty (Val.num 1)).2 0 (Val.fn 0) Val.undefined).2).invoked
      = [(Val.fn 0, Val.num 1)] ∧
    (runAll exampleAttachFuns 4
      (then_ (staticResolve World.empty (Val.num 1)).2 0 (Val.fn 0) Val.undefined).2).log
      = [] ∧
    handlersOf (runAll exampleAttachFuns 4
      (then_ (staticResolve World.empty (Val.num 1)).2 0 (Val.fn 0) Val.undefined).2) 0
      = [] ∧
    stateOf (runAll exampleAttachFuns 4
      (then_ (staticResolve World.empty (Val.num 1)).2 0 (Val.fn 0) Val.undefined).2) 2
      = PState.pending ∧
    handlersOf (step exampleAttachFuns
      (then_ (staticResolve World.empty (Val.num 1)).2 0 (Val.fn 0) Val.undefined).2) 0
      = [] ∧
    (step exampleAttachFuns
      (then_ (staticResolve World.empty (Val.num 1)).2 0 (Val.fn 0) Val.undefined).2).queue
      = [0, 0, 1] := by
  decide

/-- C16, counterexample: `o = new CustomPromise((res) => { res(b); res(5); })`
with `b` pending, then `b` resolved with `"X"` and the queue run to empty.
The instance `o` (`1`) ends fulfilled with `5`, the value of the second call;
with the first call alone it ends fulfilled with `"X"`. -/
theorem later_call_after_pending_adoption_wins :
    stateOf (runAll exampleFuns 3 exampleTwoCalls) 1 = PState.fulfilled ∧
    valueOf (runAll exampleFuns 3 exampleTwoCalls) 1 = Val.num 5 ∧
    (runAll exampleFuns 3 exampleTwoCalls).queue = [] ∧
    stateOf (runAll exampleFuns 3 exampleFirstCallOnly) 1 = PState.fulfilled ∧
    valueOf (runAll exampleFuns 3 exampleFirstCallOnly) 1 = Val.str "X" ∧
    (runAll exampleFuns 3 exampleFirstCallOnly).queue = [] ∧
    valueOf (runAll exampleFuns 3 exampleTwoCalls) 1 ≠
      valueOf (runAll exampleFuns 3 exampleFirstCallOnly) 1 := by
  decide

/-- C18, counterexample: a pending instance settled through `resolve` with a
foreign thenable (an object that is not a `CustomPromise`) is fulfilled at once
and stores the thenable itself as its outcome. -/
theorem foreign_thenable_is_stored_as_outcome :
    stateOf (construct World.empty (fun _ => Code.ret Val.undefined)).2 0 = PState.pending ∧
    stateOf (update (construct World.empty (fun _ => Code.ret Val.undefined)).2 0
      PState.fulfilled (Val.obj 7)) 0 = PState.fulfilled ∧
    valueOf (update (construct World.empty (fun _ => Code.ret Val.undefined)).2 0
      PState.fulfilled (Val.obj 7)) 0 = Val.obj 7 := by
  decide

theorem StepClosed.runEvents {R : World → World → Prop} (hR : StepClosed R)
    (funs : FunTable) (evs : List (Option Code)) :
    ∀ w : World, R w (runEvents funs evs w) := by
  induction evs with
  | nil => intro w; exact hR.hRefl w
  | cons ev evs ih =>
    intro w
    cases ev with
    | none => exact hR.hTrans _ _ _ (hR.step funs w) (ih _)
    | some c => exact hR.hTrans _ _ _ (hR.exec c w) (ih _)

/-- C16 (amended): a call of a settlement capability is ignored exactly when
the instance is already terminal at the moment of the call.  For every state
`w` and allocated instance `p`: (1) when `p` is terminal, a call of either
capability with any value changes nothing, and state and outcome of `p` stay
the same through every run that follows (tasks of user code, among them
further calls of the capabilities, and delivery units, in any order); (2)
when `p` is pending, a call that passes a value `v` that is not an instance
settles `p` at once in the state `st` of the capability used with outcome
`v`, and state and outcome stay so through every run that follows: this
call decides, whatever calls were made before it and whatever calls come
after it; (3) when `p` is pending, a call that passes an instance `b` leaves
`p` pending and only registers on `b` the reaction whose callbacks are the
capabilities of `p`, so that `p` is still open to the next call. -/
theorem first_settling_call_decides (w : World) (p : Nat) (hp : p < w.heap.length) :
    (stateOf w p ≠ PState.pending →
      (∀ (st : PState) (v : Val), update w p st v = w) ∧
      (∀ (funs : FunTable) (evs : List (Option Code)),
        stateOf (runEvents funs evs w) p = stateOf w p ∧
        valueOf (runEvents funs evs w) p = valueOf w p)) ∧
    (stateOf w p = PState.pending →
      ∀ (st : PState) (v : Val), st ≠ PState.pending → isPromise v = false →
        stateOf (update w p st v) p = st ∧ valueOf (update w p st v) p = v ∧
        (∀ (st' : PState) (v' : Val),
          update (update w p st v) p st' v' = update w p st v) ∧
        (∀ (funs : FunTable) (evs : List (Option Code)),
          stateOf (runEvents funs evs (update w p st v)) p = st ∧
          valueOf (runEvents funs evs (update w p st v)) p = v)) ∧
    (stateOf w p = PState.pending →
      ∀ (st : PState) (b : Nat), b < w.heap.length →
        stateOf (update w p st (Val.promise b)) p = PState.pending ∧
        p < (update w p st (Val.promise b)).heap.length ∧
        handlersOf (update w p st (Val.promise b)) b =
          handlersOf w b ++ [adoptReaction p w.heap.length]) := by
  refine ⟨?_, ?_, ?_⟩
  · intro hs
    exact ⟨fun st v => update_of_settled w p st v hs,
      fun funs evs => stepClosed_stable.runEvents funs evs w p hs⟩
  · intro hs st v hst hv
    obtain ⟨u1, u2, _⟩ := update_plain_fields w p st v hp hs hst hv
    have hne : stateOf (update w p st v) p ≠ PState.pending := by rw [u1]; exact hst
    refine ⟨u1, u2, fun st' v' => update_of_settled _ p st' v' hne, ?_⟩
    intro funs evs
    obtain ⟨a1, a2⟩ := stepClosed_stable.runEvents funs evs _ p hne
    exact ⟨by rw [a1, u1], by rw [a2, u2]⟩
  · intro hs st b hb
    rw [update_promise w p b st hs]
    refine ⟨by rw [stateOf_then_]; exact hs, by simp; omega, ?_⟩
    rw [handlersOf_then_ w b b _ _ hb, if_pos rfl]
    rfl

/-- C16 (amended) at `o = new CustomPromise((res) => { res(b); res(5); })`
with `b` (instance `0`) pending: the call `res(b)` leaves `o` (instance `1`)
pending, the call `res(5)` fulfils it with `5`, and it is still fulfilled with
`5` after `b` was resolved with `"X"`, two delivery units ran and `res(7)`
was called. -/
theorem first_settling_call_decides_witness :
    stateOf (update (construct (construct World.empty (fun _ => Code.ret Val.undefined)).2
      (fun _ => Code.ret Val.undefined)).2 1 PState.fulfilled (Val.promise 0)) 1
      = PState.pending ∧
    stateOf (runEvents exampleFuns
      [some (Code.resolve 0 (Val.str "X") (Code.ret Val.undefined)), none, none,
        some (Code.resolve 1 (Val.num 7) (Code.ret Val.undefined))]
      (update (update (construct (construct World.empty
        (fun _ => Code.ret Val.undefined)).2 (fun _ => Code.ret Val.undefined)).2
        1 PState.fulfilled (Val.promise 0)) 1 PState.fulfilled (Val.num 5))) 1
      = PState.fulfilled ∧
    valueOf (runEvents exampleFuns
      [some (Code.resolve 0 (Val.str "X") (Code.ret Val.undefined)), none, none,
        some (Code.resolve 1 (Val.num 7) (Code.ret Val.undefined))]
      (update (update (construct (construct World.empty
        (fun _ => Code.ret Val.undefined)).2 (fun _ => Code.ret Val.undefined)).2
        1 PState.fulfilled (Val.promise 0)) 1 PState.fulfilled (Val.num 5))) 1
      = Val.num 5 :=
  have h1 := ((first_settling_call_decides
    (construct (construct World.empty (fun _ => Code.ret Val.undefined)).2
      (fun _ => Code.ret Val.undefined)).2 1 (by decide)).2.2 (by decide)
    PState.fulfilled 0 (by decide)).1
  have h2 := ((first_settling_call_decides
    (update (construct (construct World.empty (fun _ => Code.ret Val.undefined)).2
      (fun _ => Code.ret Val.undefined)).2 1 PState.fulfilled (Val.promise 0)) 1
    (by decide)).2.1 (by decide) PState.fulfilled (Val.num 5) (by decide) rfl).2.2.2
    exampleFuns
    [some (Code.resolve 0 (Val.str "X") (Code.ret Val.undefined)), none, none,
      some (Code.resolve 1 (Val.num 7) (Code.ret Val.undefined))]
  ⟨h1, h2.1, h2.2⟩

/-- C18 (amended): adoption is decided by the test `value instanceof
CustomPromise`.  Settling a pending instance `p` with a value that is not a
`CustomPromise` instance (a foreign thenable included) stores that value as the
outcome at once, in the state of the capability used, and queues the delivery
unit of `p`; settling it with an instance `b` leaves `p` pending and registers
on `b` the reaction whose two callbacks settle `p`. -/
theorem adoption_is_by_instance_test (w : World) (p : Nat) (st : PState) (v : Val)
    (hp : p < w.heap.length) (hs : stateOf w p = PState.pending) (hst : st ≠ PState.pending) :
    (isPromise v = false →
      stateOf (update w p st v) p = st ∧ valueOf (update w p st v) p = v ∧
      (update w p st v).queue = w.queue ++ [p]) ∧
    (∀ b, b < w.heap.length → v = Val.promise b →
      stateOf (update w p st v) p = PState.pending ∧
      valueOf (update w p st v) p = valueOf w p ∧
      handlersOf (update w p st v) b =
        handlersOf w b ++ [adoptReaction p w.heap.length]) := by
  constructor
  · intro hv
    obtain ⟨u1, u2, u3, _⟩ := update_plain_fields w p st v hp hs hst hv
    exact ⟨u1, u2, u3⟩
  · intro b hb hvb
    subst hvb
    rw [update_promise w p b st hs]
    refine ⟨by rw [stateOf_then_]; exact hs, by rw [valueOf_then_], ?_⟩
    rw [handlersOf_then_ w b b _ _ hb, if_pos rfl]
    rfl

/-- C18 (amended) at a pending instance resolved with the foreign thenable
`obj 7`: it is fulfilled with `obj 7` itself. -/
theorem adoption_is_by_instance_test_witness :
    stateOf (update (construct World.empty (fun _ => Code.ret Val.undefined)).2 0
      PState.fulfilled (Val.obj 7)) 0 = PState.fulfilled ∧
    valueOf (update (construct World.empty (fun _ => Code.ret Val.undefined)).2 0
      PState.fulfilled (Val.obj 7)) 0 = Val.obj 7 :=
  have h := (adoption_is_by_instance_test
    (construct World.empty (fun _ => Code.ret Val.undefined)).2 0 PState.fulfilled
    (Val.obj 7) (by decide) (by decide) (by decide)).1 rfl
  ⟨h.1, h.2.1⟩

/-! ## Each reaction is processed at most once -/

theorem callable_truthy (h : Val) (hc : callable h = true) : truthy h = true := by
  cases h <;> first | rfl | simp [callable] at hc

theorem invokeCallback_invoked (funs : FunTable) (h arg : Val) (w : World) :
    (invokeCallback funs h arg w).2.invoked =
      w.invoked ++ (if callable h then [(h, arg)] else []) := by
  unfold invokeCallback
  rw [invoke_invoked]
  split <;> simp

theorem tryReaction_invoked (funs : FunTable) (p : Nat) (r : Reaction) (w : World) :
    (tryReaction funs w p r).2.invoked =
      w.invoked ++ (calledHandler (stateOf w p) (valueOf w p) r).toList := by
  unfold tryReaction calledHandler
  cases hs : stateOf w p with
  | pending => simp [handlerFor, callable]
  | fulfilled =>
    simp only [handlerFor]
    by_cases ht : truthy r.onFulfilled = true
    · rw [if_pos ht]
      have h := invokeCallback_invoked funs r.onFulfilled (valueOf w p) w
      split <;> rename_i heq <;> rw [heq] at h
      · rw [invoke_invoked]; simp only at h; rw [h]; split <;> simp
      · simp only at h ⊢; rw [h]; split <;> simp
    · rw [if_neg ht, invoke_invoked]
      have hc : callable r.onFulfilled = false := by
        cases hcc : callable r.onFulfilled with
        | false => rfl
        | true => exact absurd (callable_truthy _ hcc) ht
      simp [hc]
  | rejected =>
    simp only [handlerFor]
    by_cases ht : truthy r.onRejected = true
    · rw [if_pos ht]
      have h := invokeCallback_invoked funs r.onRejected (valueOf w p) w
      split <;> rename_i heq <;> rw [heq] at h
      · rw [invoke_invoked]; simp only at h; rw [h]; split <;> simp
      · simp only at h ⊢; rw [h]; split <;> simp
    · rw [if_neg ht, invoke_invoked]
      have hc : callable r.onRejected = false := by
        cases hcc : callable r.onRejected with
        | false => rfl
        | true => exact absurd (callable_truthy _ hcc) ht
      simp [hc]

theorem processReaction_invoked (funs : FunTable) (p : Nat) (r : Reaction) (w : World) :
    (processReaction funs p w r).invoked =
      w.invoked ++ (calledHandler (stateOf w p) (valueOf w p) r).toList := by
  have h := tryReaction_invoked funs p r w
  unfold processReaction
  split <;> rename_i heq <;> rw [heq] at h
  · exact h
  · rw [invoke_invoked]; exact h

theorem processReaction_pending (funs : FunTable) (p : Nat) (r : Reaction) (w : World)
    (hs : stateOf w p = PState.pending) : processReaction funs p w r = w := by
  simp [processReaction, tryReaction, hs]

theorem processReaction_same_outcome (funs : FunTable) (p : Nat) (r : Reaction) (w : World) :
    stateOf (processReaction funs p w r) p = stateOf w p ∧
    valueOf (processReaction funs p w r) p = valueOf w p := by
  by_cases hs : stateOf w p = PState.pending
  · rw [processReaction_pending funs p r w hs]; exact ⟨rfl, rfl⟩
  · exact stepClosed_stable.processReaction funs p r w p hs

/-- The trace of a `forEach` loop: one entry per reaction whose handler for the
state of `p` is a function, in list order, all with the outcome of `p`. -/
theorem foldl_processReaction_invoked (funs : FunTable) (p : Nat) (rs : List Reaction) :
    ∀ w : World, (rs.foldl (processReaction funs p) w).invoked =
      w.invoked ++ rs.filterMap (calledHandler (stateOf w p) (valueOf w p)) := by
  induction rs with
  | nil => intro w; simp
  | cons r rs ih =>
    intro w
    obtain ⟨h1, h2⟩ := processReaction_same_outcome funs p r w
    rw [List.foldl_cons, ih, h1, h2, processReaction_invoked, List.filterMap_cons]
    cases calledHandler (stateOf w p) (valueOf w p) r <;> simp

theorem runMicrotask_invoked (funs : FunTable) (p : Nat) (w : World) :
    (runMicrotask funs w p).invoked =
      w.invoked ++ (handlersOf w p).filterMap (calledHandler (stateOf w p) (valueOf w p)) := by
  unfold runMicrotask
  rw [invoked_modifyPromise, foldl_processReaction_invoked]

/-- The handler lists after `then`, for any receiver id. -/
theorem handlersOf_then_general (w : World) (b i : Nat) (f g : Val) :
    handlersOf (then_ w b f g).2 i =
      if i = b ∧ b ≤ w.heap.length then
        handlersOf w b ++ [⟨f, g, Val.resolveFn w.heap.length, Val.rejectFn w.heap.length⟩]
      else handlersOf w i := by
  simp only [then_, handlersOf_runHandlers, handlersOf_modifyPromise]
  by_cases hbi : b = i
  · subst hbi
    rw [if_pos rfl]
    simp only [getElem?_push_fresh]
    rcases Nat.lt_trichotomy b w.heap.length with h | h | h
    · have hg : w.heap[b]? = some w.heap[b] := List.getElem?_eq_getElem h
      simp [Nat.ne_of_lt h, Nat.le_of_lt h, hg, handlersOf]
    · have hun := (stateOf_unallocated w b (Nat.le_of_eq h.symm)).2.2
      subst h
      simp [Promise.fresh, hun]
    · have hun := (stateOf_unallocated w b (Nat.le_of_lt h)).2.2
      have hn : w.heap[b]? = none := List.getElem?_eq_none (Nat.le_of_lt h)
      simp [Nat.ne_of_gt h, Nat.not_le_of_gt h, hn, hun]
  · have hib : ¬ i = b := fun h => hbi h.symm
    rw [if_neg hbi]
    simp [hib, (alloc_fields w i).2.2]

theorem handlersOf_setState (w : World) (p i : Nat) (st : PState) (v : Val) :
    handlersOf (modifyPromise w p (fun pr => { pr with state := st, value := v })) i =
      handlersOf w i := by
  rw [handlersOf_modifyPromise]
  split
  · unfold handlersOf; cases w.heap[i]? <;> rfl
  · rfl

theorem RegistryOk_of_sublist (w w' : World) (hlen : w.heap.length ≤ w'.heap.length)
    (hsub : ∀ i, (handlersOf w' i).Sublist (handlersOf w i)) (h : RegistryOk w) :
    RegistryOk w' := by
  obtain ⟨ha, hb, hc⟩ := h
  refine ⟨?_, ?_, ?_⟩
  · intro i r hr
    obtain ⟨q, hq, e⟩ := ha i r ((hsub i).subset hr)
    exact ⟨q, Nat.lt_of_lt_of_le hq hlen, e⟩
  · intro i
    exact List.Nodup.sublist ((hsub i).map Reaction.resolve) (hb i)
  · intro i j r r' hr hr' e
    exact hc i j r r' ((hsub i).subset hr) ((hsub j).subset hr') e

theorem RegistryOk_then_ (w : World) (b : Nat) (f g : Val) (h : RegistryOk w) :
    RegistryOk (then_ w b f g).2 := by
  obtain ⟨ha, hb, hc⟩ := h
  have hmem : ∀ i r, r ∈ handlersOf (then_ w b f g).2 i →
      r ∈ handlersOf w i ∨
      (i = b ∧ r = ⟨f, g, Val.resolveFn w.heap.length, Val.rejectFn w.heap.length⟩) := by
    intro i r hr
    rw [handlersOf_then_general] at hr
    split at hr
    · rename_i hcnd
      rcases List.mem_append.mp hr with h1 | h1
      · left; rw [hcnd.1]; exact h1
      · right; exact ⟨hcnd.1, List.mem_singleton.mp h1⟩
    · exact Or.inl hr
  have hold : ∀ i r, r ∈ handlersOf w i → r.resolve ≠ Val.resolveFn w.heap.length := by
    intro i r hr e
    obtain ⟨q, hq, e'⟩ := ha i r hr
    rw [e'] at e
    injection e with e
    omega
  refine ⟨?_, ?_, ?_⟩
  · intro i r hr
    rcases hmem i r hr with h1 | ⟨_, h1⟩
    · obtain ⟨q, hq, e⟩ := ha i r h1
      exact ⟨q, by simp; omega, e⟩
    · exact ⟨w.heap.length, by simp, by rw [h1]⟩
  · intro i
    rw [handlersOf_then_general]
    split
    · rename_i hcnd
      rw [List.map_append, List.map_singleton]
      refine List.Nodup.append (hb b) (List.nodup_singleton _) ?_
      intro x hx hx'
      rw [List.mem_singleton] at hx'
      obtain ⟨r, hr, e⟩ := List.mem_map.mp hx
      exact hold b r hr (e.trans hx')
    · exact hb i
  · intro i j r r' hr hr' e
    rcases hmem i r hr with h1 | ⟨h1, h1'⟩ <;> rcases hmem j r' hr' with h2 | ⟨h2, h2'⟩
    · exact hc i j r r' h1 h2 e
    · exact absurd (e.trans (by rw [h2'])) (hold i r h1)
    · exact absurd (e.symm.trans (by rw [h1'])) (hold j r' h2)
    · rw [h1, h2]

theorem stepClosed_registryOk : StepClosed (fun w w' => RegistryOk w → RegistryOk w') where
  hRefl := fun _ h => h
  hTrans := fun _ _ _ h1 h2 h => h2 (h1 h)
  hLog := fun _ _ h => h
  hAlloc := fun w h => RegistryOk_of_sublist w _ (by simp)
    (fun i => by rw [(alloc_fields w i).2.2]) h
  hUpdate := fun w p st v h => by
    rcases update_cases w p st v with e | ⟨b, e⟩ | ⟨_, _, e⟩ <;> rw [e]
    · exact h
    · exact RegistryOk_then_ w b _ _ h
    · exact RegistryOk_of_sublist w _ (by simp [modifyPromise])
        (fun i => by rw [handlersOf_runHandlers, handlersOf_setState]) h
  hThen := fun w p f g h => RegistryOk_then_ w p f g h
  hInvoked := fun _ _ _ h => h
  hQueue := fun _ _ h => h
  hClear := fun w p h => RegistryOk_of_sublist w _ (by simp [modifyPromise])
    (fun i => by
      rw [handlersOf_clear]
      split
      · exact List.nil_sublist _
      · exact List.Sublist.refl _) h

/-- A reaction whose downstream instance is already allocated is never
registered anew: if it is registered somewhere later, it was registered there
before. -/
theorem stepClosed_noReRegistration :
    StepClosed (fun w w' => w.heap.length ≤ w'.heap.length ∧
      ∀ i r q, q < w.heap.length → r ∈ handlersOf w' i → r.resolve = Val.resolveFn q →
        r ∈ handlersOf w i) where
  hRefl := fun _ => ⟨Nat.le_refl _, fun _ _ _ _ h _ => h⟩
  hTrans := fun a b c h1 h2 => ⟨Nat.le_trans h1.1 h2.1, fun i r q hq hr e =>
    h1.2 i r q hq (h2.2 i r q (Nat.lt_of_lt_of_le hq h1.1) hr e) e⟩
  hLog := fun _ _ => ⟨Nat.le_refl _, fun _ _ _ _ h _ => h⟩
  hAlloc := fun w => ⟨by simp, fun i r q _ hr _ => by
    rw [(alloc_fields w i).2.2] at hr; exact hr⟩
  hUpdate := fun w p st v => by
    rcases update_cases w p st v with e | ⟨b, e⟩ | ⟨_, _, e⟩ <;> rw [e]
    · exact ⟨Nat.le_refl _, fun _ _ _ _ h _ => h⟩
    · refine ⟨by simp, fun i r q hq hr e' => ?_⟩
      rw [handlersOf_then_general] at hr
      split at hr
      · rename_i hcnd
        rcases List.mem_append.mp hr with h1 | h1
        · rw [hcnd.1]; exact h1
        · rw [List.mem_singleton.mp h1] at e'
          injection e' with e'
          omega
      · exact hr
    · exact ⟨by simp [modifyPromise], fun i r q _ hr _ => by
        rw [handlersOf_runHandlers, handlersOf_setState] at hr; exact hr⟩
  hThen := fun w b f g => by
    refine ⟨by simp, fun i r q hq hr e' => ?_⟩
    rw [handlersOf_then_general] at hr
    split at hr
    · rename_i hcnd
      rcases List.mem_append.mp hr with h1 | h1
      · rw [hcnd.1]; exact h1
      · rw [List.mem_singleton.mp h1] at e'
        injection e' with e'
        omega
    · exact hr
  hInvoked := fun _ _ _ => ⟨Nat.le_refl _, fun _ _ _ _ h _ => h⟩
  hQueue := fun _ _ => ⟨Nat.le_refl _, fun _ _ _ _ h _ => h⟩
  hClear := fun w p => ⟨by simp [modifyPromise], fun i r q _ hr _ => by
    rw [handlersOf_clear] at hr
    split at hr
    · exact absurd hr (List.not_mem_nil _)
    · exact hr⟩

/-- A relation closed under the elementary steps holds between a state and
every state that follows it. -/
theorem StepClosed.later {R : World → World → Prop} (hR : StepClosed R) (funs : FunTable)
    (w0 w : World) (h : Later funs w0 w) : R w0 w := by
  induction h with
  | here => exact hR.hRefl w0
  | task w c _ ih => exact hR.hTrans _ _ _ ih (hR.exec c w)
  | unit w _ ih => exact hR.hTrans _ _ _ ih (hR.step funs w)

theorem registryOk_of_reachable (funs : FunTable) (w : World) (h : Reachable funs w) :
    RegistryOk w := by
  induction h with
  | init =>
    exact ⟨fun _ _ hr => absurd hr (List.not_mem_nil _), fun _ => List.nodup_nil,
      fun _ _ _ _ hr => absurd hr (List.not_mem_nil _)⟩
  | task w c _ ih => exact stepClosed_registryOk.exec c w ih
  | unit w _ ih => exact stepClosed_registryOk.step funs w ih

/-- C20: in every reachable state `w` the registry of reactions is well formed
(each reaction registered by a `then` call sits in exactly one handler list,
once), and for every delivery unit run from `w`, for any instance `p` and
whatever else is queued: the unit adds to the trace, for each reaction
registered on `p` and in registration order, at most one call, namely the
handler that matches the state of `p` (`onFulfilled` if fulfilled,
`onRejected` if rejected, none while pending), called with the outcome of `p`;
after the unit `p` has no reaction left; and in no state that follows, through
any user code and any further delivery units (of `p` or of other instances),
is a reaction of that unit registered again, so none of them is processed a
second time. -/
theorem reaction_processed_at_most_once (funs : FunTable) (w : World)
    (h : Reachable funs w) :
    RegistryOk w ∧
    ∀ (p : Nat) (rest : List Nat),
      (runMicrotask funs { w with queue := rest } p).invoked =
        w.invoked ++ (handlersOf w p).filterMap (calledHandler (stateOf w p) (valueOf w p)) ∧
      handlersOf (runMicrotask funs { w with queue := rest } p) p = [] ∧
      ∀ (r : Reaction) (w2 : World), r ∈ handlersOf w p →
        Later funs (runMicrotask funs { w with queue := rest } p) w2 →
        ∀ i r', r' ∈ handlersOf w2 i → r'.resolve ≠ r.resolve := by
  have hok := registryOk_of_reachable funs w h
  refine ⟨hok, fun p rest => ⟨?_, ?_, ?_⟩⟩
  · rw [runMicrotask_invoked]; rfl
  · unfold runMicrotask
    rw [handlersOf_clear, if_pos rfl]
  · intro r w2 hr hl i r' hr' e
    obtain ⟨q, hq, eq⟩ := hok.1 p r hr
    have h1 := stepClosed_noReRegistration.runMicrotask funs p { w with queue := rest }
    have h2 := stepClosed_noReRegistration.later funs _ w2 hl
    have hr1 : r' ∈ handlersOf (runMicrotask funs { w with queue := rest } p) i :=
      h2.2 i r' q (Nat.lt_of_lt_of_le hq h1.1) hr' (e.trans eq)
    have hr0 : r' ∈ handlersOf w i := h1.2 i r' q hq hr1 (e.trans eq)
    have hip : p = i := hok.2.2 p i r r' hr hr0 e.symm
    subst hip
    have hnil : handlersOf (runMicrotask funs { w with queue := rest } p) p = [] := by
      unfold runMicrotask
      rw [handlersOf_clear, if_pos rfl]
    rw [hnil] at hr1
    exact absurd hr1 (List.not_mem_nil _)

/-- C20 at the state reached by `exampleRejectWithPromise`: the unit
of instance `0` calls the one adoption continuation registered on it, once, with
the outcome `1`, and leaves no reaction on instance `0`. -/
theorem reaction_processed_at_most_once_witness :
    (runMicrotask exampleFuns
      { (exec exampleRejectWithPromise World.empty).2 with queue := [0] } 0).invoked =
      [(Val.resolveFn 1, Val.num 1)] ∧
    handlersOf (runMicrotask exampleFuns
      { (exec exampleRejectWithPromise World.empty).2 with queue := [0] } 0) 0 = [] :=
  have h := (reaction_processed_at_most_once exampleFuns
    (exec exampleRejectWithPromise World.empty).2
    (Reachable.task _ exampleRejectWithPromise Reachable.init)).2 0 [0]
  ⟨h.1, h.2.1⟩

/-! ## `catch` and `then(undefined, onRejected)` -/

theorem truthy_canonV (v : Val) : truthy (canonV v) = truthy v := by
  unfold canonV
  split
  · rfl
  · rename_i h; simp only [Bool.not_eq_true] at h; rw [h]; rfl

theorem canonV_of_truthy (v : Val) (h : truthy v = true) : canonV v = v := by
  unfold canonV; rw [if_pos h]

theorem canonV_idem (v : Val) : canonV (canonV v) = canonV v := by
  by_cases h : truthy v = true
  · rw [canonV_of_truthy v h, canonV_of_truthy v h]
  · have e : canonV v = Val.undefined := by unfold canonV; rw [if_neg h]
    rw [e]; rfl

theorem canonR_idem (r : Reaction) : canonR (canonR r) = canonR r := by
  simp [canonR, canonV_idem]

theorem canonP_idem (pr : Promise) : canonP (canonP pr) = canonP pr := by
  simp only [canonP, List.map_map]
  congr 1
  apply List.map_congr_left
  intro r _
  exact canonR_idem r

theorem canon_idem (w : World) : canon (canon w) = canon w := by
  simp only [canon, List.map_map]
  congr 1
  apply List.map_congr_left
  intro pr _
  exact canonP_idem pr

theorem canon_fields (w : World) (i : Nat) :
    stateOf (canon w) i = stateOf w i ∧ valueOf (canon w) i = valueOf w i ∧
    handlersOf (canon w) i = (handlersOf w i).map canonR := by
  simp only [stateOf, valueOf, handlersOf, canon, List.getElem?_map]
  cases w.heap[i]? <;> simp [canonP]

theorem canon_modifyPromise (w : World) (p : Nat) (f f' : Promise → Promise)
    (hf : ∀ pr, canonP (f pr) = f' (canonP pr)) :
    canon (modifyPromise w p f) = modifyPromise (canon w) p f' := by
  simp only [canon, modifyPromise]
  congr 1
  apply List.ext_getElem?
  intro i
  simp only [List.getElem?_map, List.getElem?_modify]
  cases w.heap[i]? with
  | none => rfl
  | some pr =>
    by_cases h : p = i
    · simp [h, hf]
    · simp [h]

theorem canon_runHandlers (w : World) (p : Nat) :
    canon (runHandlers w p) = runHandlers (canon w) p := by
  unfold runHandlers
  rw [(canon_fields w p).1]
  split <;> rfl

theorem canon_alloc (w : World) :
    canon { w with heap := w.heap ++ [Promise.fresh] } =
      { canon w with heap := (canon w).heap ++ [Promise.fresh] } := by
  simp [canon, canonP, Promise.fresh]

theorem canon_then_ (w : World) (p : Nat) (f g : Val) :
    (then_ (canon w) p (canonV f) g).1 = (then_ w p f g).1 ∧
    canon (then_ w p f g).2 = (then_ (canon w) p (canonV f) g).2 := by
  refine ⟨by simp [canon], ?_⟩
  simp only [then_]
  rw [canon_runHandlers, canon_modifyPromise _ p _
    (fun pr => { pr with handlers := pr.handlers ++
      [⟨canonV f, g, Val.resolveFn w.heap.length, Val.rejectFn w.heap.length⟩] })
    (by intro pr; simp [canonP, canonR]), canon_alloc]
  simp [canon]

theorem canon_update (w : World) (p : Nat) (st : PState) (v : Val) :
    canon (update w p st v) = update (canon w) p st v := by
  by_cases hs : stateOf w p = PState.pending
  · have hs' : stateOf (canon w) p = PState.pending := by rw [(canon_fields w p).1]; exact hs
    by_cases hv : isPromise v = false
    · rw [update_of_pending w p st v hs hv, update_of_pending (canon w) p st v hs' hv,
        canon_runHandlers, canon_modifyPromise _ p _
          (fun pr => { pr with state := st, value := v }) (by intro pr; rfl)]
    · cases v <;> simp [isPromise] at hv
      rw [update_promise w p _ st hs, update_promise (canon w) p _ st hs',
        (canon_then_ w _ _ _).2]
      rfl
  · have hs' : stateOf (canon w) p ≠ PState.pending := by rw [(canon_fields w p).1]; exact hs
    rw [update_of_settled w p st v hs, update_of_settled (canon w) p st v hs']

/-- What two states with the same image under `canon` have in common. -/
theorem equiv_fields (w w' : World) (h : canon w = canon w') :
    w.queue = w'.queue ∧ w.log = w'.log ∧ w.invoked = w'.invoked ∧
    w.heap.length = w'.heap.length ∧
    (∀ i, stateOf w i = stateOf w' i ∧ valueOf w i = valueOf w' i ∧
      (handlersOf w i).map canonR = (handlersOf w' i).map canonR) := by
  have hq : (canon w).queue = (canon w').queue := congrArg World.queue h
  have hl : (canon w).log = (canon w').log := congrArg World.log h
  have hi : (canon w).invoked = (canon w').invoked := congrArg World.invoked h
  refine ⟨hq, hl, hi, ?_, ?_⟩
  · have := congrArg (fun x => x.heap.length) h
    simpa [canon] using this
  · intro i
    rw [← (canon_fields w i).1, ← (canon_fields w i).2.1, ← (canon_fields w i).2.2,
      ← (canon_fields w' i).1, ← (canon_fields w' i).2.1, ← (canon_fields w' i).2.2, h]
    exact ⟨rfl, rfl, rfl⟩

theorem equiv_update (w w' : World) (h : canon w = canon w') (p : Nat) (st : PState)
    (v : Val) : canon (update w p st v) = canon (update w' p st v) := by
  rw [canon_update, canon_update, h]

theorem equiv_then_ (w w' : World) (h : canon w = canon w') (p : Nat) (f g : Val) :
    (then_ w p f g).1 = (then_ w' p f g).1 ∧
    canon (then_ w p f g).2 = canon (then_ w' p f g).2 := by
  refine ⟨(equiv_fields w w' h).2.2.2.1, ?_⟩
  rw [(canon_then_ w p f g).2, (canon_then_ w' p f g).2, h]

theorem equiv_alloc (w w' : World) (h : canon w = canon w') :
    canon { w with heap := w.heap ++ [Promise.fresh] } =
      canon { w' with heap := w'.heap ++ [Promise.fresh] } := by
  rw [canon_alloc, canon_alloc, h]

theorem equiv_log (w w' : World) (h : canon w = canon w') (v : Val) :
    canon { w with log := w.log ++ [v] } = canon { w' with log := w'.log ++ [v] } := by
  have e : ∀ x : World, canon { x with log := x.log ++ [v] } =
      { canon x with log := (canon x).log ++ [v] } := fun _ => rfl
  rw [e, e, h]

theorem equiv_invoked (w w' : World) (h : canon w = canon w') (c : Val × Val) :
    canon { w with invoked := w.invoked ++ [c] } =
      canon { w' with invoked := w'.invoked ++ [c] } := by
  have e : ∀ x : World, canon { x with invoked := x.invoked ++ [c] } =
      { canon x with invoked := (canon x).invoked ++ [c] } := fun _ => rfl
  rw [e, e, h]

theorem equiv_queue (w w' : World) (h : canon w = canon w') (q : List Nat) :
    canon { w with queue := q } = canon { w' with queue := q } := by
  have e : ∀ x : World, canon { x with queue := q } = { canon x with queue := q } :=
    fun _ => rfl
  rw [e, e, h]

theorem equiv_clear (w w' : World) (h : canon w = canon w') (p : Nat) :
    canon (modifyPromise w p (fun pr => { pr with handlers := [] })) =
      canon (modifyPromise w' p (fun pr => { pr with handlers := [] })) := by
  rw [canon_modifyPromise w p _ (fun pr => { pr with handlers := [] }) (by intro pr; rfl),
    canon_modifyPromise w' p _ (fun pr => { pr with handlers := [] }) (by intro pr; rfl), h]

/-- User code cannot tell apart two states with the same image under `canon`. -/
theorem equiv_exec (c : Code) : ∀ w w' : World, canon w = canon w' →
    (exec c w).1 = (exec c w').1 ∧ canon (exec c w).2 = canon (exec c w').2 := by
  induction c with
  | ret v => intro w w' h; exact ⟨rfl, h⟩
  | throw v => intro w w' h; exact ⟨rfl, h⟩
  | log v k ih => intro w w' h; exact ih _ _ (equiv_log w w' h v)
  | resolve p v k ih => intro w w' h; exact ih _ _ (equiv_update w w' h p _ v)
  | reject p v k ih => intro w w' h; exact ih _ _ (equiv_update w w' h p _ v)
  | thenCall p f g k ih =>
    intro w w' h
    cases p <;> simp only [exec] <;> first
      | exact ⟨rfl, h⟩
      | exact ⟨trivial, h⟩
      | (rw [(equiv_then_ w w' h _ f g).1]; exact ih _ _ _ (equiv_then_ w w' h _ f g).2)
  | catchCall p g k ih =>
    intro w w' h
    cases p <;> simp only [exec, catch_] <;> first
      | exact ⟨rfl, h⟩
      | exact ⟨trivial, h⟩
      | (rw [(equiv_then_ w w' h _ _ g).1]; exact ih _ _ _ (equiv_then_ w w' h _ _ g).2)
  | finallyCall p cb k ih =>
    intro w w' h
    cases p <;> simp only [exec, finally_] <;> first
      | exact ⟨rfl, h⟩
      | exact ⟨trivial, h⟩
      | (rw [(equiv_then_ w w' h _ _ _).1]; exact ih _ _ _ (equiv_then_ w w' h _ _ _).2)
  | construct ex k ihe ihk =>
    intro w w' h
    have hlen := (equiv_fields w w' h).2.2.2.1
    obtain ⟨e1, e2⟩ := ihe w.heap.length _ _ (equiv_alloc w w' h)
    simp only [exec]
    rw [← hlen, ← e1]
    split
    · exact ihk _ _ _ e2
    · exact ihk _ _ _ (equiv_update _ _ e2 _ _ _)

/-- Calling a value gives the same result on two states with the same image. -/
theorem equiv_invoke (funs : FunTable) (f : Val) : ∀ (arg : Val) (w w' : World),
    canon w = canon w' →
    (invoke funs f arg w).1 = (invoke funs f arg w').1 ∧
    canon (invoke funs f arg w).2 = canon (invoke funs f arg w').2 := by
  induction f with
  | resolveFn p => intro arg w w' h; exact ⟨rfl, equiv_update w w' h p _ arg⟩
  | rejectFn p => intro arg w w' h; exact ⟨rfl, equiv_update w w' h p _ arg⟩
  | fn i => intro arg w w' h; exact equiv_exec _ w w' h
  | finallyFulfilled cb ih =>
    intro arg w w' h
    obtain ⟨e1, e2⟩ := ih Val.undefined w w' h
    simp only [invoke]
    cases h1 : invoke funs cb Val.undefined w with
    | mk r1 v1 =>
      cases h2 : invoke funs cb Val.undefined w' with
      | mk r2 v2 =>
        rw [h1, h2] at e1 e2
        simp only at e1 e2
        subst e1
        cases r1 <;> exact ⟨rfl, e2⟩
  | finallyRejected cb ih =>
    intro arg w w' h
    obtain ⟨e1, e2⟩ := ih Val.undefined w w' h
    simp only [invoke]
    cases h1 : invoke funs cb Val.undefined w with
    | mk r1 v1 =>
      cases h2 : invoke funs cb Val.undefined w' with
      | mk r2 v2 =>
        rw [h1, h2] at e1 e2
        simp only at e1 e2
        subst e1
        cases r1 <;> exact ⟨rfl, e2⟩
  | _ => intro arg w w' h; exact ⟨rfl, h⟩

theorem equiv_invokeCallback (funs : FunTable) (f arg : Val) (w w' : World)
    (h : canon w = canon w') :
    (invokeCallback funs f arg w).1 = (invokeCallback funs f arg w').1 ∧
    canon (invokeCallback funs f arg w).2 = canon (invokeCallback funs f arg w').2 := by
  unfold invokeCallback
  rw [(equiv_fields w w' h).2.2.1]
  split
  · exact equiv_invoke funs f arg _ _ (by
      have := equiv_invoked w w' h (f, arg)
      rw [(equiv_fields w w' h).2.2.1] at this
      exact this)
  · exact equiv_invoke funs f arg _ _ h

theorem canonR_eq (r r' : Reaction) (h : canonR r = canonR r') :
    canonV r.onFulfilled = canonV r'.onFulfilled ∧ r.onRejected = r'.onRejected ∧
    r.resolve = r'.resolve ∧ r.reject = r'.reject := by
  simp only [canonR, Reaction.mk.injEq] at h
  exact h

/-- The `try` block gives the same result on two states with the same image,
for two reactions with the same image. -/
theorem equiv_tryReaction (funs : FunTable) (p : Nat) (r r' : Reaction) (w w' : World)
    (h : canon w = canon w') (hr : canonR r = canonR r') :
    (tryReaction funs w p r).1 = (tryReaction funs w' p r').1 ∧
    canon (tryReaction funs w p r).2 = canon (tryReaction funs w' p r').2 := by
  obtain ⟨hf, hj, hres, hrej⟩ := canonR_eq r r' hr
  obtain ⟨hs, hv, _⟩ := (equiv_fields w w' h).2.2.2.2 p
  unfold tryReaction
  rw [← hs, ← hv, ← hj, ← hres, ← hrej]
  cases stateOf w p with
  | pending => exact ⟨rfl, h⟩
  | fulfilled =>
    simp only
    have ht : truthy r'.onFulfilled = truthy r.onFulfilled := by
      rw [← truthy_canonV r'.onFulfilled, ← hf, truthy_canonV]
    rw [ht]
    by_cases htr : truthy r.onFulfilled = true
    · have he : r'.onFulfilled = r.onFulfilled := by
        rw [← canonV_of_truthy _ htr, hf, canonV_of_truthy _ (ht.trans htr)]
      rw [if_pos htr, if_pos htr, he]
      obtain ⟨e1, e2⟩ := equiv_invokeCallback funs r.onFulfilled (valueOf w p) w w' h
      cases h1 : invokeCallback funs r.onFulfilled (valueOf w p) w with
      | mk r1 v1 =>
        cases h2 : invokeCallback funs r.onFulfilled (valueOf w p) w' with
        | mk r2 v2 =>
          rw [h1, h2] at e1 e2
          simp only at e1 e2
          subst e1
          cases r1 with
          | ok x => exact equiv_invoke funs _ x v1 v2 e2
          | error e => exact ⟨rfl, e2⟩
    · rw [if_neg htr, if_neg htr]
      exact equiv_invoke funs _ _ w w' h
  | rejected =>
    simp only
    by_cases htr : truthy r.onRejected = true
    · rw [if_pos htr, if_pos htr]
      obtain ⟨e1, e2⟩ := equiv_invokeCallback funs r.onRejected (valueOf w p) w w' h
      cases h1 : invokeCallback funs r.onRejected (valueOf w p) w with
      | mk r1 v1 =>
        cases h2 : invokeCallback funs r.onRejected (valueOf w p) w' with
        | mk r2 v2 =>
          rw [h1, h2] at e1 e2
          simp only at e1 e2
          subst e1
          cases r1 with
          | ok x => exact equiv_invoke funs _ x v1 v2 e2
          | error e => exact ⟨rfl, e2⟩
    · rw [if_neg htr, if_neg htr]
      exact equiv_invoke funs _ _ w w' h

theorem equiv_processReaction (funs : FunTable) (p : Nat) (r r' : Reaction) (w w' : World)
    (h : canon w = canon w') (hr : canonR r = canonR r') :
    canon (processReaction funs p w r) = canon (processReaction funs p w' r') := by
  obtain ⟨e1, e2⟩ := equiv_tryReaction funs p r r' w w' h hr
  unfold processReaction
  rw [← (canonR_eq r r' hr).2.2.2]
  cases h1 : tryReaction funs w p r with
  | mk r1 v1 =>
    cases h2 : tryReaction funs w' p r' with
    | mk r2 v2 =>
      rw [h1, h2] at e1 e2
      simp only at e1 e2
      subst e1
      cases r1 with
      | ok x => exact e2
      | error e => exact (equiv_invoke funs _ e v1 v2 e2).2

theorem equiv_foldl (funs : FunTable) (p : Nat) (rs : List Reaction) :
    ∀ (rs' : List Reaction) (w w' : World), rs.map canonR = rs'.map canonR →
      canon w = canon w' →
      canon (rs.foldl (processReaction funs p) w) =
        canon (rs'.foldl (processReaction funs p) w') := by
  induction rs with
  | nil =>
    intro rs' w w' hrs h
    cases rs' with
    | nil => exact h
    | cons a l => simp at hrs
  | cons r rs ih =>
    intro rs' w w' hrs h
    cases rs' with
    | nil => simp at hrs
    | cons r' rs' =>
      simp only [List.map_cons, List.cons.injEq] at hrs
      exact ih rs' _ _ hrs.2 (equiv_processReaction funs p r r' w w' h hrs.1)

theorem equiv_runMicrotask (funs : FunTable) (p : Nat) (w w' : World)
    (h : canon w = canon w') :
    canon (runMicrotask funs w p) = canon (runMicrotask funs w' p) := by
  unfold runMicrotask
  exact equiv_clear _ _ (equiv_foldl funs p _ _ w w' ((equiv_fields w w' h).2.2.2.2 p).2.2 h) p

theorem equiv_step (funs : FunTable) (w w' : World) (h : canon w = canon w') :
    canon (step funs w) = canon (step funs w') := by
  unfold step
  rw [← (equiv_fields w w' h).1]
  cases w.queue with
  | nil => exact h
  | cons p rest => exact equiv_runMicrotask funs p _ _ (equiv_queue w w' h rest)

theorem equiv_runAll (funs : FunTable) (n : Nat) : ∀ w w' : World, canon w = canon w' →
    canon (runAll funs n w) = canon (runAll funs n w') := by
  induction n with
  | zero => intro w w' h; exact h
  | succ n ih =>
    intro w w' h
    unfold runAll
    rw [← (equiv_fields w w' h).1]
    cases hq : w.queue with
    | nil => exact h
    | cons p rest => exact ih _ _ (equiv_step funs w w' h)

theorem equiv_runEvents (funs : FunTable) (evs : List (Option Code)) :
    ∀ w w' : World, canon w = canon w' →
      canon (runEvents funs evs w) = canon (runEvents funs evs w') := by
  induction evs with
  | nil => intro w w' h; exact h
  | cons ev evs ih =>
    intro w w' h
    cases ev with
    | none => exact ih _ _ (equiv_step funs w w' h)
    | some c => exact ih _ _ (equiv_exec c w w' h).2

/-- C12: `p.catch(g)` is `p.then(null, g)` in the code, and it cannot be told
apart from `p.then(undefined, g)`, for every state, every instance `p` and
every argument `g`: both return the same new instance, enqueue the same units
and leave the console and the trace alike; the reaction registered is the same
but for its `onFulfilled`, `null` in one and `undefined` in the other, both of
which fail the test `if (onFulfilled)`; and after any run that follows (any
tasks of user code and delivery units, in any order) every instance, the
returned one included, has the same state and outcome in both, and the queue,
the console and the trace of invoked callbacks are the same. -/
theorem catch_is_then_undefined (funs : FunTable) (w : World) (p : Nat) (g : Val) :
    catch_ w p g = then_ w p Val.null g ∧
    (catch_ w p g).1 = (then_ w p Val.undefined g).1 ∧
    (catch_ w p g).2.queue = (then_ w p Val.undefined g).2.queue ∧
    canon (catch_ w p g).2 = canon (then_ w p Val.undefined g).2 ∧
    (∀ evs : List (Option Code),
      (∀ i, stateOf (runEvents funs evs (catch_ w p g).2) i =
          stateOf (runEvents funs evs (then_ w p Val.undefined g).2) i ∧
        valueOf (runEvents funs evs (catch_ w p g).2) i =
          valueOf (runEvents funs evs (then_ w p Val.undefined g).2) i) ∧
      (runEvents funs evs (catch_ w p g).2).queue =
        (runEvents funs evs (then_ w p Val.undefined g).2).queue ∧
      (runEvents funs evs (catch_ w p g).2).log =
        (runEvents funs evs (then_ w p Val.undefined g).2).log ∧
      (runEvents funs evs (catch_ w p g).2).invoked =
        (runEvents funs evs (then_ w p Val.undefined g).2).invoked) := by
  have hc : canon (catch_ w p g).2 = canon (then_ w p Val.undefined g).2 := by
    unfold catch_
    rw [(canon_then_ w p Val.null g).2, (canon_then_ w p Val.undefined g).2]
    rfl
  refine ⟨rfl, rfl, (equiv_fields _ _ hc).1, hc, ?_⟩
  intro evs
  obtain ⟨e1, e2, e3, _, e5⟩ := equiv_fields _ _ (equiv_runEvents funs evs _ _ hc)
  exact ⟨fun i => ⟨(e5 i).1, (e5 i).2.1⟩, e1, e2, e3⟩

/-! ## Reactions attached inside a delivery unit of the same instance -/

/-- C2: the code at `b = CustomPromise.resolve("X"); outer = b.then(() => b);`.
The callback returns `b`, so `outer` (instance `1`) is settled with the
instance `b` from inside the delivery unit of `b`: `#update` registers the
adoption reaction on `b` while the `forEach` of `b` is running, and the
assignment `this.#handlers = []` after the loop drops it.  Once the queue has
run to empty `b` is fulfilled with `"X"` and has no reaction left, and `outer`
is still pending: it never takes the outcome of `b`. -/
theorem adoption_registered_inside_unit_is_dropped :
    (runAll exampleReturnSelfFuns 4 (then_ (staticResolve World.empty (Val.str "X")).2 0
      (Val.fn 0) Val.undefined).2).queue = [] ∧
    stateOf (runAll exampleReturnSelfFuns 4 (then_ (staticResolve World.empty
      (Val.str "X")).2 0 (Val.fn 0) Val.undefined).2) 0 = PState.fulfilled ∧
    valueOf (runAll exampleReturnSelfFuns 4 (then_ (staticResolve World.empty
      (Val.str "X")).2 0 (Val.fn 0) Val.undefined).2) 0 = Val.str "X" ∧
    handlersOf (runAll exampleReturnSelfFuns 4 (then_ (staticResolve World.empty
      (Val.str "X")).2 0 (Val.fn 0) Val.undefined).2) 0 = [] ∧
    stateOf (runAll exampleReturnSelfFuns 4 (then_ (staticResolve World.empty
      (Val.str "X")).2 0 (Val.fn 0) Val.undefined).2) 1 = PState.pending ∧
    handlersOf (runMicrotask exampleReturnSelfFuns
      { (then_ (staticResolve World.empty (Val.str "X")).2 0 (Val.fn 0) Val.undefined).2 with
        queue := [0] } 0) 0 = [] := by
  decide

/-- C4: the code at `p = CustomPromise.resolve(1); p.then(() => { d = p.then(); });`.
The inner `then` has no handlers and is called inside the delivery unit of
`p`; its reaction is dropped by `this.#handlers = []` after the loop.  Once
the queue has run to empty the instance `d` (`2`) is still pending: it never
takes the state and outcome of `p`, which is fulfilled with `1`. -/
theorem absent_handler_inside_unit_never_settles :
    (runAll exampleBareThenFuns 4 (then_ (staticResolve World.empty (Val.num 1)).2 0
      (Val.fn 0) Val.undefined).2).queue = [] ∧
    stateOf (runAll exampleBareThenFuns 4 (then_ (staticResolve World.empty (Val.num 1)).2 0
      (Val.fn 0) Val.undefined).2) 0 = PState.fulfilled ∧
    valueOf (runAll exampleBareThenFuns 4 (then_ (staticResolve World.empty (Val.num 1)).2 0
      (Val.fn 0) Val.undefined).2) 0 = Val.num 1 ∧
    stateOf (runAll exampleBareThenFuns 4 (then_ (staticResolve World.empty (Val.num 1)).2 0
      (Val.fn 0) Val.undefined).2) 2 = PState.pending ∧
    handlersOf (runAll exampleBareThenFuns 4 (then_ (staticResolve World.empty
      (Val.num 1)).2 0 (Val.fn 0) Val.undefined).2) 0 = [] := by
  decide

/-- C5: the code at `p = CustomPromise.reject(E);`
`p.then(undefined, () => { d = p.then(undefined, f1); });`.  The inner `then`
passes the function `f1` as `onRejected` and is called inside the delivery unit
of the rejected `p`; its reaction is dropped by `this.#handlers = []`.  Once
the queue has run to empty `f1` was never invoked (the trace holds only the
call of the outer handler, nothing was printed) and the instance `d` (`2`) is
still pending: it is never resolved with the return value of `f1`. -/
theorem present_handler_inside_unit_never_invoked :
    (runAll exampleAttachRejectedFuns 4 (then_ (staticReject World.empty
      (Val.error "failed")).2 0 Val.undefined (Val.fn 0)).2).queue = [] ∧
    stateOf (runAll exampleAttachRejectedFuns 4 (then_ (staticReject World.empty
      (Val.error "failed")).2 0 Val.undefined (Val.fn 0)).2) 0 = PState.rejected ∧
    (runAll exampleAttachRejectedFuns 4 (then_ (staticReject World.empty
      (Val.error "failed")).2 0 Val.undefined (Val.fn 0)).2).invoked
      = [(Val.fn 0, Val.error "failed")] ∧
    (runAll exampleAttachRejectedFuns 4 (then_ (staticReject World.empty
      (Val.error "failed")).2 0 Val.undefined (Val.fn 0)).2).log = [] ∧
    stateOf (runAll exampleAttachRejectedFuns 4 (then_ (staticReject World.empty
      (Val.error "failed")).2 0 Val.undefined (Val.fn 0)).2) 2 = PState.pending := by
  decide

/-- C14: the code at `p = CustomPromise.resolve(5);`
`p.then(() => { d = p.finally(cb); });` where `cb` prints `1` and raises
`Error("boom")`.  `finally` is called inside the delivery unit of `p`; its
reaction is dropped by `this.#handlers = []`.  Once the queue has run to empty
`cb` was never invoked (nothing was printed) and the instance `d` (`2`) is
still pending: it is never rejected with the error of `cb`. -/
theorem finally_inside_unit_never_runs :
    (runAll exampleFinallyInsideFuns 4 (then_ (staticResolve World.empty (Val.num 5)).2 0
      (Val.fn 0) Val.undefined).2).queue = [] ∧
    stateOf (runAll exampleFinallyInsideFuns 4 (then_ (staticResolve World.empty
      (Val.num 5)).2 0 (Val.fn 0) Val.undefined).2) 0 = PState.fulfilled ∧
    (runAll exampleFinallyInsideFuns 4 (then_ (staticResolve World.empty (Val.num 5)).2 0
      (Val.fn 0) Val.undefined).2).invoked = [(Val.fn 0, Val.num 5)] ∧
    (runAll exampleFinallyInsideFuns 4 (then_ (staticResolve World.empty (Val.num 5)).2 0
      (Val.fn 0) Val.undefined).2).log = [] ∧
    stateOf (runAll exampleFinallyInsideFuns 4 (then_ (staticResolve World.empty
      (Val.num 5)).2 0 (Val.fn 0) Val.undefined).2) 2 = PState.pending := by
  decide

/-! ## Callbacks that return an instance, values that are instances -/

/-- C10, counterexample: `p = CustomPromise.resolve(1); p.then(f0); p.then(f1);`
where `f0` returns `CustomPromise.resolve(9)` and `f1` returns `7`.  The
delivery unit of `p` calls `f0` and then `f1`, but when it ends the downstream
instance of the second reaction (`2`) is fulfilled with `7` while the
downstream instance of the first reaction (`1`) is still pending: it adopts
the returned instance and is fulfilled with `9` only by a later unit. -/
theorem downstream_of_instance_result_settles_later :
    (step exampleInstanceFuns exampleTwoReactions).invoked =
      [(Val.fn 0, Val.num 1), (Val.fn 1, Val.num 1)] ∧
    stateOf (step exampleInstanceFuns exampleTwoReactions) 1 = PState.pending ∧
    stateOf (step exampleInstanceFuns exampleTwoReactions) 2 = PState.fulfilled ∧
    valueOf (step exampleInstanceFuns exampleTwoReactions) 2 = Val.num 7 ∧
    stateOf (runAll exampleInstanceFuns 10 exampleTwoReactions) 1 = PState.fulfilled ∧
    valueOf (runAll exampleInstanceFuns 10 exampleTwoReactions) 1 = Val.num 9 ∧
    (runAll exampleInstanceFuns 10 exampleTwoReactions).queue = [] := by
  decide

/-- C13, counterexample: `b = CustomPromise.resolve(1)` (instance `0`) and a
callback `f3` that prints `3` and returns.  `CustomPromise.resolve(b)` adopts
`b`, so `CustomPromise.resolve(b).finally(f3)` (instance `3`) ends fulfilled
with `1`, the outcome of `b`, not with the value `b` that was passed. -/
theorem finally_after_resolve_with_instance_gives_adopted_outcome :
    stateOf (runAll exampleLogFuns 6 (finally_ (staticResolve (staticResolve World.empty
      (Val.num 1)).2 (Val.promise 0)).2 1 (Val.fn 3)).2) 3 = PState.fulfilled ∧
    valueOf (runAll exampleLogFuns 6 (finally_ (staticResolve (staticResolve World.empty
      (Val.num 1)).2 (Val.promise 0)).2 1 (Val.fn 3)).2) 3 = Val.num 1 ∧
    valueOf (runAll exampleLogFuns 6 (finally_ (staticResolve (staticResolve World.empty
      (Val.num 1)).2 (Val.promise 0)).2 1 (Val.fn 3)).2) 3 ≠ Val.promise 0 ∧
    (runAll exampleLogFuns 6 (finally_ (staticResolve (staticResolve World.empty
      (Val.num 1)).2 (Val.promise 0)).2 1 (Val.fn 3)).2).log = [Val.num 3] ∧
    (runAll exampleLogFuns 6 (finally_ (staticResolve (staticResolve World.empty
      (Val.num 1)).2 (Val.promise 0)).2 1 (Val.fn 3)).2).queue = [] := by
  decide

/-- C10 (amended): reactions attached to an allocated instance `p` with `then`
in the order of the list `cbs` are registered behind those `p` already has, in
that order, and nothing is called while they are attached.  A delivery unit of
`p` (`step` runs the unit at the head of the queue), started in any state `V`
in which `p` is settled, processes the registered reactions one at a time in
exactly that order: for every reaction `r` of the list, with the reactions
`pre` before it and `post` after it, the unit is the processing of `pre`,
then of `r`, then of `post`; when `r` is reached only the callbacks of `pre`
have been called, processing `r` calls its callback for the state of `p` (if
it is a function) with the outcome of `p`, and the callbacks of `post` are
called after that.  Processing `r` hands the result to the capability of the
downstream instance `q` of `r` before the next reaction is looked at: the
outcome of `p` itself when the callback is absent, the return value `y`
through `resolve`, an error `e` through `reject`.  A downstream instance that
is pending when it receives a return value that is not an instance is settled
at that moment, and whatever is settled at that moment stays so to the end of
the unit; a downstream instance whose callback returned an instance is still
pending at that moment. -/
theorem reactions_processed_in_attachment_order (funs : FunTable) (w : World) (p : Nat)
    (cbs : List (Val × Val)) (hp : p < w.heap.length) :
    handlersOf (thenAll w p cbs) p = handlersOf w p ++ reactionsFrom w.heap.length cbs ∧
    (thenAll w p cbs).invoked = w.invoked ∧
    (∀ (V : World) (rest : List Nat), V.queue = p :: rest →
      step funs V = runMicrotask funs { V with queue := rest } p) ∧
    (∀ (V : World) (pre post : List Reaction) (f g : Val) (q : Nat),
      stateOf V p ≠ PState.pending →
      handlersOf V p = pre ++ ⟨f, g, Val.resolveFn q, Val.rejectFn q⟩ :: post →
      ∀ U U1 W : World, U = pre.foldl (processReaction funs p) V →
        U1 = processReaction funs p U ⟨f, g, Val.resolveFn q, Val.rejectFn q⟩ →
        W = runMicrotask funs V p →
        W = modifyPromise (post.foldl (processReaction funs p) U1) p
          (fun pr => { pr with handlers := [] }) ∧
        U.invoked = V.invoked ++ pre.filterMap (calledHandler (stateOf V p) (valueOf V p)) ∧
        U1.invoked = U.invoked ++ (calledHandler (stateOf V p) (valueOf V p)
          ⟨f, g, Val.resolveFn q, Val.rejectFn q⟩).toList ∧
        W.invoked = U1.invoked ++
          post.filterMap (calledHandler (stateOf V p) (valueOf V p)) ∧
        (truthy (handlerFor (stateOf V p) f g) = false →
          U1 = update U q (stateOf V p) (valueOf V p)) ∧
        (callable (handlerFor (stateOf V p) f g) = true →
          ∀ (y : Val) (U0 : World),
            invoke funs (handlerFor (stateOf V p) f g) (valueOf V p)
              { U with invoked := U.invoked ++ [(handlerFor (stateOf V p) f g, valueOf V p)] }
              = (Except.ok y, U0) →
            U1 = update U0 q PState.fulfilled y ∧
            (q < U0.heap.length → stateOf U0 q = PState.pending → isPromise y = false →
              stateOf U1 q = PState.fulfilled ∧ valueOf U1 q = y) ∧
            (stateOf U0 q = PState.pending → isPromise y = true →
              stateOf U1 q = PState.pending)) ∧
        (callable (handlerFor (stateOf V p) f g) = true →
          ∀ (e : Val) (U0 : World),
            invoke funs (handlerFor (stateOf V p) f g) (valueOf V p)
              { U with invoked := U.invoked ++ [(handlerFor (stateOf V p) f g, valueOf V p)] }
              = (Except.error e, U0) →
            U1 = update U0 q PState.rejected e) ∧
        (stateOf U1 q ≠ PState.pending →
          stateOf W q = stateOf U1 q ∧ valueOf W q = valueOf U1 q)) := by
  obtain ⟨_, _, _, t4, _, t6, _, _⟩ := thenAll_fields p cbs w hp
  refine ⟨t4, t6, ?_, ?_⟩
  · intro V rest hq
    simp [step, hq]
  intro V pre post f g q hst hh U U1 W hU hU1 hW
  obtain ⟨su, vu⟩ := stepClosed_stable.foldl funs p pre V p hst
  rw [← hU] at su vu
  have hWeq : W = modifyPromise (post.foldl (processReaction funs p) U1) p
      (fun pr => { pr with handlers := [] }) := by
    rw [hW, runMicrotask, hh, List.foldl_append, List.foldl_cons, ← hU, ← hU1]
  have hUi : U.invoked =
      V.invoked ++ pre.filterMap (calledHandler (stateOf V p) (valueOf V p)) := by
    rw [hU, foldl_processReaction_invoked]
  have hU1i : U1.invoked = U.invoked ++ (calledHandler (stateOf V p) (valueOf V p)
      ⟨f, g, Val.resolveFn q, Val.rejectFn q⟩).toList := by
    rw [hU1, processReaction_invoked, su, vu]
  obtain ⟨su1, vu1⟩ := processReaction_same_outcome funs p
    ⟨f, g, Val.resolveFn q, Val.rejectFn q⟩ U
  rw [← hU1, su] at su1
  rw [← hU1, vu] at vu1
  refine ⟨hWeq, hUi, hU1i, ?_, ?_, ?_, ?_, ?_⟩
  · rw [hWeq, invoked_modifyPromise, foldl_processReaction_invoked, su1, vu1]
  · intro habs
    rw [hU1, ← vu]
    apply processReaction_absent funs U p q f g (stateOf V p) su
    rcases handlerFor_case (stateOf V p) f g hst with ⟨h1, h2⟩ | ⟨h1, h2⟩
    · exact Or.inl ⟨h1, by rw [← h2]; exact habs⟩
    · exact Or.inr ⟨h1, by rw [← h2]; exact habs⟩
  · intro hc y U0 hinv
    have e : U1 = update U0 q PState.fulfilled y := by
      rw [hU1]
      have := processReaction_callable funs U U0 p q f g (handlerFor (stateOf V p) f g)
        (stateOf V p) (Except.ok y) su
        (by
          rcases handlerFor_case (stateOf V p) f g hst with ⟨h1, h2⟩ | ⟨h1, h2⟩
          · exact Or.inl ⟨h1, h2⟩
          · exact Or.inr ⟨h1, h2⟩) hc (by rw [vu]; exact hinv)
      exact this
    refine ⟨e, ?_, ?_⟩
    · intro hq hs hy
      obtain ⟨u1, u2, _⟩ := update_plain_fields U0 q PState.fulfilled y hq hs (by simp) hy
      rw [e]; exact ⟨u1, u2⟩
    · intro hs hy
      obtain ⟨b, hb⟩ : ∃ b, y = Val.promise b := by
        cases y <;> simp [isPromise] at hy
        exact ⟨_, rfl⟩
      rw [e, hb, update_promise U0 q b PState.fulfilled hs, stateOf_then_]
      exact hs
  · intro hc e U0 hinv
    rw [hU1]
    have := processReaction_callable funs U U0 p q f g (handlerFor (stateOf V p) f g)
      (stateOf V p) (Except.error e) su
      (by
        rcases handlerFor_case (stateOf V p) f g hst with ⟨h1, h2⟩ | ⟨h1, h2⟩
        · exact Or.inl ⟨h1, h2⟩
        · exact Or.inr ⟨h1, h2⟩) hc (by rw [vu]; exact hinv)
    exact this
  · intro hs
    rw [hWeq, stateOf_clear, valueOf_clear]
    exact stepClosed_stable.foldl funs p post U1 q hs

/-- C10 (amended) at `p = CustomPromise.resolve(1); p.then(f0); p.then(f1);`
where `f0` returns `CustomPromise.resolve(9)` and `f1` returns `7`: the two
reactions are registered in that order; in the first unit of `p` the first
reaction is processed first and leaves its downstream instance `1` pending
(it adopts the returned instance), the second one is processed after it and
fulfils its downstream instance `2` with `7`, which is how the unit ends. -/
theorem reactions_processed_in_attachment_order_witness :
    handlersOf (thenAll (staticResolve World.empty (Val.num 1)).2 0
      [(Val.fn 0, Val.undefined), (Val.fn 1, Val.undefined)]) 0 =
      handlersOf (staticResolve World.empty (Val.num 1)).2 0 ++
        reactionsFrom (staticResolve World.empty (Val.num 1)).2.heap.length
          [(Val.fn 0, Val.undefined), (Val.fn 1, Val.undefined)] ∧
    step exampleInstanceFuns exampleTwoReactions =
      runMicrotask exampleInstanceFuns { exampleTwoReactions with queue := [0, 0] } 0 ∧
    stateOf (processReaction exampleInstanceFuns 0
      { exampleTwoReactions with queue := [0, 0] }
      ⟨Val.fn 0, Val.undefined, Val.resolveFn 1, Val.rejectFn 1⟩) 1 = PState.pending ∧
    stateOf (runMicrotask exampleInstanceFuns
      { exampleTwoReactions with queue := [0, 0] } 0) 2 = PState.fulfilled ∧
    valueOf (runMicrotask exampleInstanceFuns
      { exampleTwoReactions with queue := [0, 0] } 0) 2 = Val.num 7 :=
  have h := reactions_processed_in_attachment_order exampleInstanceFuns
    (staticResolve World.empty (Val.num 1)).2 0
    [(Val.fn 0, Val.undefined), (Val.fn 1, Val.undefined)] (by decide)
  have h1 := h.2.2.2 { exampleTwoReactions with queue := [0, 0] } []
    [⟨Val.fn 1, Val.undefined, Val.resolveFn 2, Val.rejectFn 2⟩] (Val.fn 0) Val.undefined 1
    (by decide) (by decide) _ _ _ rfl rfl rfl
  have h2 := h.2.2.2 { exampleTwoReactions with queue := [0, 0] }
    [⟨Val.fn 0, Val.undefined, Val.resolveFn 1, Val.rejectFn 1⟩] [] (Val.fn 1) Val.undefined 2
    (by decide) (by decide) _ _ _ rfl rfl rfl
  have a1 := (h1.2.2.2.2.2.1 (by decide) (Val.promise 3) _ rfl).2.2 (by decide) rfl
  have a2 := (h2.2.2.2.2.2.1 (by decide) (Val.num 7) _ rfl).2.1 (by decide) (by decide) rfl
  have a3 := h2.2.2.2.2.2.2.2 (by rw [a2.1]; decide)
  ⟨h.1, h.2.2.1 exampleTwoReactions [0, 0] (by decide), a1,
    a3.1.trans a2.1, a3.2.trans a2.2⟩

end CustomPromise
